import Mathlib

/-!
# smallmap: an open-addressing hash table with linear probing

A shallow embedding of `src/c/smallmap.c`.

* The metadata array `hashes_` is a list indexed by slot position.  The
  arrays `keys_` and `values_` are lists of cells indexed by slot position
  too: the element at index `pos` is what the code reads through
  `&keys_[pos * key_size_]`, the cell of slot `pos`.  The code computes that
  byte offset in `uint32_t` (`key_offset`, `value_offset`), so two slots can
  address the same bytes; a store into the cell of one slot (`store_key`,
  `store_value`) then changes what such other slots read.  When
  `capacity_ * key_size_` and `capacity_ * value_size_` are at most `2^32`
  (`ExactOffsets`) the cells are pairwise disjoint and a store changes one
  element of the list.
* Keys and values are opaque cells of types `K` and `V`; `default` is the
  all-zero cell that `memset` leaves in a fresh buffer.  The table never
  looks inside a cell: all traffic goes through the callbacks.  A key handed
  to the API has the type of a key cell, as `hasher_` and `compare_` receive
  it through a pointer to a cell.
* Machine integers are natural numbers with explicit reductions modulo
  `2^32` (for `uint32_t`) and `2^64` (for `uint64_t`).
* The allocator is an oracle: every operation that may call `allocate_`
  takes a flag saying whether that call returns a non-null pointer.
* Each map carries a ghost `trace_` of the lifecycle callbacks and allocator
  calls made so far (`hasher_` and `compare_` calls are not recorded).
* The three `do ... while(pos != start)` loops run for at most `mask_ + 1`
  iterations; `none` is returned when that bound is exhausted, which does not
  happen on a table whose capacity is a power of two with
  `mask_ = capacity_ - 1`.
-/

set_option autoImplicit false
set_option linter.unusedSectionVars false

namespace Smallmap

/-! ## Constants -/

/-- `SM_INVALID (0xFFFFFFFFUL)`. -/
def SM_INVALID : Nat := 0xFFFFFFFF

/-- `SM_HASH_MASK (0x7FFFFFFFUL)`. -/
def SM_HASH_MASK : Nat := 0x7FFFFFFF

/-- `SM_EXIST_FLAG (0x80000000UL)`. -/
def SM_EXIST_FLAG : Nat := 0x80000000

/-- Truncation to `uint32_t`. -/
def u32 (x : Nat) : Nat := x % 4294967296

/-- Truncation to `uint64_t`. -/
def u64 (x : Nat) : Nat := x % 18446744073709551616

/-! ## Data model -/

/-- The pointer handed to `deallocate_`. -/
inductive Ptr where
  | null
  | buffer
  | map
deriving DecidableEq, Repr

/-- Ghost record of one callback or allocator call. -/
inductive Event where
  | key_constructor
  | key_move
  | key_destructor
  | value_constructor
  | value_move
  | value_destructor
  | allocate (ok : Bool)
  | deallocate (p : Ptr)
deriving DecidableEq, Repr

/-- The callbacks stored in `struct smallmap_t`.  A constructor receives the
destination cell and the source and returns its `bool` together with the new
contents of the destination cell; a move receives the destination and the
source cell and returns the new destination cell; a destructor returns the
cell it leaves behind.

The last two fields are not callbacks of the C struct.  They describe the
bytes of a cell: `key_overlap_ size old a written b` is what a key cell of
`size` bytes at byte offset `a`, holding `old`, holds after `written` was
stored into the cell at byte offset `b` when the two cells share some but not
all of their bytes; likewise for values.  They are consulted only in that
case, which needs two slots whose byte offsets differ by less than the cell
size. -/
structure Callbacks (K V : Type) where
  key_constructor_ : K → K → Bool × K
  key_move_ : K → K → K
  key_destructor_ : K → K
  value_constructor_ : V → V → Bool × V
  value_move_ : V → V → V
  value_destructor_ : V → V
  hasher_ : K → Nat
  compare_ : K → K → Bool
  key_overlap_ : Nat → K → Nat → K → Nat → K
  value_overlap_ : Nat → V → Nat → V → Nat → V

/-- The mutable fields of `struct smallmap_t`, plus the ghost trace. -/
structure smallmap_t (K V : Type) where
  key_size_ : Nat
  value_size_ : Nat
  size_ : Nat
  capacity_ : Nat
  mask_ : Nat
  resize_threshold_ : Nat
  hashes_ : List Nat
  keys_ : List K
  values_ : List V
  trace_ : List Event
deriving DecidableEq, Repr

/-! ## The probe loop -/

/-- Outcome of a `do { ... } while(pos != start)` probe. -/
inductive Probe where
  | found (pos : Nat)
  | wrapped
  | timeout
deriving DecidableEq, Repr

/-- The loop shared by `sm_find_`, `sm_add_item` and `sm_move_item`:
`do { if(cond pos) return pos; pos = (pos + 1) & mask_; } while(pos != start);`
run for at most the given number of iterations. -/
def probe (cond : Nat → Bool) (mask start : Nat) : Nat → Nat → Probe
  | 0, _ => Probe.timeout
  | fuel + 1, pos =>
    if cond pos then Probe.found pos
    else
      let next := u32 (u32 (pos + 1) &&& mask)
      if next ≠ start then probe cond mask start fuel next else Probe.wrapped

/-! ## The operations of `smallmap.c` -/

variable {K V : Type} [Inhabited K] [Inhabited V]

/-- The test `SM_EXIST_FLAG != (SM_EXIST_FLAG & hashes_[pos])`. -/
def is_empty_word (w : Nat) : Bool := SM_EXIST_FLAG != (SM_EXIST_FLAG &&& w)

/-- `sm_find_`: find an item by the calculated hash. -/
def sm_find_ (cb : Callbacks K V) (map : smallmap_t K V) (hash : Nat) (key : K) : Option Nat :=
  let start := u32 (hash &&& map.mask_)
  let hash := u32 (hash ||| SM_EXIST_FLAG)
  match probe (fun pos => map.hashes_.getD pos 0 == hash
      && cb.compare_ (map.keys_.getD pos default) key) map.mask_ start (map.mask_ + 1) start with
  | Probe.found pos => some pos
  | Probe.wrapped => some SM_INVALID
  | Probe.timeout => none

/-- Byte offset of the key cell of slot `pos` inside `keys_`: the expression
`pos * map->key_size_` of lines 50, 68, 93, 139, 211 and 277, a product of two
`uint32_t` values. -/
def key_offset (map : smallmap_t K V) (pos : Nat) : Nat := u32 (u32 pos * u32 map.key_size_)

/-- Byte offset of the value cell of slot `pos` inside `values_`: the
expression `pos * map->value_size_` of lines 69, 94, 140, 212, 249 and 278. -/
def value_offset (map : smallmap_t K V) (pos : Nat) : Nat :=
  u32 (u32 pos * u32 map.value_size_)

/-- Two cells of `size` bytes that start at the byte offsets `a` and `b` share
a byte. -/
def cells_overlap (size a b : Nat) : Bool := decide (a < b + size) && decide (b < a + size)

/-- An array of cells as the code reads it, slot by slot, after `cell` was
stored through the pointer to the cell of slot `pos`.  The list holds, at
index `q`, the `size` bytes at byte offset `off q`, which is what the code
reads as the cell of slot `q`.  The cell of `pos` then reads `cell`; so does
every slot whose cell starts at the same byte offset; a slot whose cell shares
no byte with the written one is unchanged; a slot whose cell overlaps it in
part reads what `overlap` gives. -/
def write_cell {α : Type} (overlap : Nat → α → Nat → α → Nat → α) (size : Nat) (off : Nat → Nat)
    (cells : List α) (pos : Nat) (cell : α) : List α :=
  List.zipWith (fun q old =>
      if q = pos then cell
      else if cells_overlap size (off q) (off pos) then
        if off q = off pos then cell else overlap size old (off q) cell (off pos)
      else old)
    (List.range cells.length) cells

/-- The key cells after `cell` was stored at `&map->keys_[pos * map->key_size_]`. -/
def store_key (cb : Callbacks K V) (map : smallmap_t K V) (pos : Nat) (cell : K) : List K :=
  write_cell cb.key_overlap_ map.key_size_ (key_offset map) map.keys_ pos cell

/-- The value cells after `cell` was stored at
`&map->values_[pos * map->value_size_]`. -/
def store_value (cb : Callbacks K V) (map : smallmap_t K V) (pos : Nat) (cell : V) : List V :=
  write_cell cb.value_overlap_ map.value_size_ (value_offset map) map.values_ pos cell

/-- Body of the `if` of `sm_add_item` (lines 67-76) at the slot `pos` whose
occupied bit is clear: write the metadata word, then run the key constructor
and the value constructor, returning `false` as soon as one of them does. -/
def sm_add_item_at (cb : Callbacks K V) (map : smallmap_t K V) (hash : Nat) (src_key : K)
    (src_value : V) (pos : Nat) : Bool × smallmap_t K V :=
  let map1 := { map with hashes_ := map.hashes_.set pos (u32 (hash ||| SM_EXIST_FLAG)) }
  let rk := cb.key_constructor_ (map1.keys_.getD pos default) src_key
  let map2 := { map1 with keys_ := store_key cb map pos rk.2,
                          trace_ := map1.trace_ ++ [Event.key_constructor] }
  if !rk.1 then (false, map2)
  else
    let rv := cb.value_constructor_ (map2.values_.getD pos default) src_value
    let map3 := { map2 with values_ := store_value cb map pos rv.2,
                            trace_ := map2.trace_ ++ [Event.value_constructor] }
    if !rv.1 then (false, map3) else (true, map3)

/-- `sm_add_item`: add an item by the calculated hash. -/
def sm_add_item (cb : Callbacks K V) (map : smallmap_t K V) (hash : Nat) (src_key : K)
    (src_value : V) : Option (Bool × smallmap_t K V) :=
  let start := u32 (hash &&& map.mask_)
  match probe (fun pos => is_empty_word (map.hashes_.getD pos 0)) map.mask_ start
      (map.mask_ + 1) start with
  | Probe.found pos => some (sm_add_item_at cb map hash src_key src_value pos)
  | Probe.wrapped => some (false, map)
  | Probe.timeout => none

/-- Body of the `if` of `sm_move_item` (lines 92-97) at the slot `pos`. -/
def sm_move_item_at (cb : Callbacks K V) (map : smallmap_t K V) (hash : Nat) (src_key : K)
    (src_value : V) (pos : Nat) : smallmap_t K V :=
  { map with
    hashes_ := map.hashes_.set pos (u32 (hash ||| SM_EXIST_FLAG)),
    keys_ := store_key cb map pos (cb.key_move_ (map.keys_.getD pos default) src_key),
    values_ := store_value cb map pos (cb.value_move_ (map.values_.getD pos default) src_value),
    trace_ := map.trace_ ++ [Event.key_move, Event.value_move] }

/-- `sm_move_item`: move an item of the previous buffer into the map. -/
def sm_move_item (cb : Callbacks K V) (map : smallmap_t K V) (hash : Nat) (src_key : K)
    (src_value : V) : Option (smallmap_t K V) :=
  let start := u32 (hash &&& map.mask_)
  match probe (fun pos => is_empty_word (map.hashes_.getD pos 0)) map.mask_ start
      (map.mask_ + 1) start with
  | Probe.found pos => some (sm_move_item_at cb map hash src_key src_value pos)
  | Probe.wrapped => some map
  | Probe.timeout => none

/-- The value of `(uint64_t)(next_capacity * 0.7f)`.  The constant `0.7f` is
the binary32 number `11744051 / 2^24`; its product with a power of two is
exact in binary32 and the conversion truncates toward zero. -/
def sm_threshold (next_capacity : Nat) : Nat := 11744051 * next_capacity / 16777216

/-- Body of the `for` loop of `sm_expand` for the old slot `i`.  The state is
the map together with the key cells and the value cells of the previous
buffer, which the destructors write to (lines 142-143). -/
def sm_expand_step (cb : Callbacks K V) (prev_hashes : List Nat)
    (state : smallmap_t K V × List K × List V) (i : Nat) :
    Option (smallmap_t K V × List K × List V) :=
  if SM_EXIST_FLAG ≠ (prev_hashes.getD i 0 &&& SM_EXIST_FLAG) then some state
  else
    let hash := prev_hashes.getD i 0 &&& SM_HASH_MASK
    let key := state.2.1.getD i default
    let value := state.2.2.getD i default
    match sm_move_item cb state.1 hash key value with
    | none => none
    | some map1 =>
      some ({ map1 with
          trace_ := map1.trace_ ++ [Event.key_destructor, Event.value_destructor] },
        write_cell cb.key_overlap_ state.1.key_size_ (key_offset state.1) state.2.1 i
          (cb.key_destructor_ key),
        write_cell cb.value_overlap_ state.1.value_size_ (value_offset state.1) state.2.2 i
          (cb.value_destructor_ value))

/-- `sm_expand`: expand the capacity of a map.  `alloc_ok` tells whether
`allocate_` returns a non-null buffer. -/
def sm_expand (cb : Callbacks K V) (map : smallmap_t K V) (alloc_ok : Bool) :
    Option (Bool × smallmap_t K V) :=
  let next_capacity := if map.capacity_ ≤ 0 then 16 else u64 (map.capacity_ <<< 1)
  if SM_INVALID ≤ next_capacity then some (false, map)
  else
    let map0 := { map with trace_ := map.trace_ ++ [Event.allocate alloc_ok] }
    if !alloc_ok then some (false, map0)
    else
      let prev_hashes := map.hashes_
      let prev_keys := map.keys_
      let prev_values := map.values_
      let prev_capacity := map.capacity_
      let map1 := { map0 with
        capacity_ := next_capacity,
        mask_ := next_capacity - 1,
        resize_threshold_ := sm_threshold next_capacity,
        hashes_ := List.replicate next_capacity 0,
        keys_ := List.replicate next_capacity default,
        values_ := List.replicate next_capacity default }
      match (List.range prev_capacity).foldlM
          (sm_expand_step cb prev_hashes) (map1, prev_keys, prev_values) with
      | none => none
      | some state =>
        some (true, { state.1 with trace_ := state.1.trace_ ++
          [Event.deallocate (if prev_capacity = 0 then Ptr.null else Ptr.buffer)] })

/-- Trace of `sm_destruct`: destructors over every occupied slot, then the
buffer and the control block are handed to `deallocate_`.  A null handle
does nothing. -/
def sm_destruct (_cb : Callbacks K V) : Option (smallmap_t K V) → List Event
  | none => []
  | some map =>
    (List.range map.capacity_).foldl
      (fun t i =>
        if is_empty_word (map.hashes_.getD i 0) then t
        else t ++ [Event.key_destructor, Event.value_destructor]) map.trace_
    ++ [Event.deallocate (if map.capacity_ = 0 then Ptr.null else Ptr.buffer),
        Event.deallocate Ptr.map]

/-- `sm_construct`: the handle (`none` is the null handle) together with the
trace of allocator and callback calls made.  `alloc_map_ok` and
`alloc_buffer_ok` tell whether the allocation of the control block and of the
first buffer return non-null. -/
def sm_construct (cb : Callbacks K V) (key_size value_size : Nat)
    (alloc_map_ok alloc_buffer_ok : Bool) : Option (Option (smallmap_t K V) × List Event) :=
  if !alloc_map_ok then some (none, [Event.allocate false])
  else
    let map : smallmap_t K V :=
      { key_size_ := u32 key_size, value_size_ := u32 value_size, size_ := 0, capacity_ := 0,
        mask_ := 0, resize_threshold_ := 0, hashes_ := [], keys_ := [], values_ := [],
        trace_ := [Event.allocate true] }
    match sm_expand cb map alloc_buffer_ok with
    | none => none
    | some (false, map1) => some (none, sm_destruct cb (some map1))
    | some (true, map1) => some (some map1, map1.trace_)

/-- The masked hash `hasher_(&key) & SM_HASH_MASK`. -/
def sm_hash (cb : Callbacks K V) (key : K) : Nat := u32 (cb.hasher_ key) &&& SM_HASH_MASK

/-- `sm_find`. -/
def sm_find (cb : Callbacks K V) (map : smallmap_t K V) (key : K) : Option Nat :=
  sm_find_ cb map (sm_hash cb key) key

/-- `sm_try_get`: the `bool` and the contents of the caller's buffer `value`
afterwards. -/
def sm_try_get (cb : Callbacks K V) (map : smallmap_t K V) (key : K) (value : V) :
    Option (Bool × V) :=
  match sm_find cb map key with
  | none => none
  | some pos =>
    if SM_INVALID = pos then some (false, value)
    else some (true, map.values_.getD pos default)

/-- `sm_add`. -/
def sm_add (cb : Callbacks K V) (map : smallmap_t K V) (key : K) (value : V) (alloc_ok : Bool) :
    Option (Bool × smallmap_t K V) :=
  let hash := sm_hash cb key
  match sm_find_ cb map hash key with
  | none => none
  | some found =>
    if SM_INVALID ≠ found then some (false, map)
    else
      let expanded :=
        if map.resize_threshold_ ≤ map.size_ then
          (sm_expand cb map alloc_ok).map Prod.snd
        else some map
      match expanded with
      | none => none
      | some map1 =>
        match sm_add_item cb map1 hash key value with
        | none => none
        | some (false, map2) => some (false, map2)
        | some (true, map2) => some (true, { map2 with size_ := u64 (map2.size_ + 1) })

/-- `sm_remove_at`. -/
def sm_remove_at (cb : Callbacks K V) (map : smallmap_t K V) (pos : Nat) : smallmap_t K V :=
  { map with
    hashes_ := map.hashes_.set pos 0,
    keys_ := store_key cb map pos (cb.key_destructor_ (map.keys_.getD pos default)),
    values_ := store_value cb map pos (cb.value_destructor_ (map.values_.getD pos default)),
    trace_ := map.trace_ ++ [Event.key_destructor, Event.value_destructor],
    size_ := u64 (map.size_ + 18446744073709551615) }

/-- `sm_remove`. -/
def sm_remove (cb : Callbacks K V) (map : smallmap_t K V) (key : K) : Option (smallmap_t K V) :=
  match sm_find cb map key with
  | none => none
  | some pos => if SM_INVALID = pos then some map else some (sm_remove_at cb map pos)

/-! ## Specification-level definitions

The definitions below are read off the code above and are used to state and
prove the properties: the order in which a probe visits the slots, the
occupied slots of a table, well-formedness, reachability, invariants. -/

/-- The slots in the order in which a probe starting at `start` visits them. -/
def probe_order (cap start : Nat) : List Nat :=
  (List.range cap).map (fun j => (start + j) % cap)

/-- The outcome of a probe that visits a whole table. -/
def probe_result : Option Nat → Probe
  | some pos => Probe.found pos
  | none => Probe.wrapped

/-- Shape of a table: `capacity_` is a power of two below `SM_INVALID`,
`mask_ = capacity_ - 1`, and the three arrays have `capacity_` slots. -/
structure Shape (map : smallmap_t K V) : Prop where
  cap : ∃ n, n ≤ 31 ∧ map.capacity_ = 2 ^ n
  mask : map.mask_ = map.capacity_ - 1
  hashes_len : map.hashes_.length = map.capacity_
  keys_len : map.keys_.length = map.capacity_
  values_len : map.values_.length = map.capacity_

/-- The slot `pos` matches the query: its metadata word is `hash | SM_EXIST_FLAG`
and `compare_` accepts the stored key against `key`. -/
def slot_matches (cb : Callbacks K V) (map : smallmap_t K V) (hash : Nat) (key : K)
    (pos : Nat) : Bool :=
  map.hashes_.getD pos 0 == u32 (hash ||| SM_EXIST_FLAG)
    && cb.compare_ (map.keys_.getD pos default) key

/-- First matching slot in probe order. -/
def first_match (cb : Callbacks K V) (map : smallmap_t K V) (hash : Nat) (key : K) : Option Nat :=
  (probe_order map.capacity_ (hash % map.capacity_)).find? (slot_matches cb map hash key)

/-- First slot in probe order whose occupied bit is clear. -/
def first_free (map : smallmap_t K V) (hash : Nat) : Option Nat :=
  (probe_order map.capacity_ (hash % map.capacity_)).find?
    (fun pos => is_empty_word (map.hashes_.getD pos 0))

/-- The projection `proj` of a slot looks at the metadata word only: it gives
the same result whatever the key and value cells hold. -/
def CellBlind {β : Type} (proj : Nat × K × V → β) : Prop :=
  ∀ w k v k2 v2, proj (w, k, v) = proj (w, k2, v2)

/-- The byte offsets of all cells are exact: `capacity_ * key_size_` and
`capacity_ * value_size_` do not exceed `2^32`, so that no product
`pos * key_size_` or `pos * value_size_` with `pos < capacity_` wraps. -/
def ExactOffsets (map : smallmap_t K V) : Prop :=
  map.capacity_ * map.key_size_ ≤ 4294967296 ∧ map.capacity_ * map.value_size_ ≤ 4294967296

/-- Metadata word, key cell and value cell of slot `i`. -/
def slot_at (map : smallmap_t K V) (i : Nat) : Nat × K × V :=
  (map.hashes_.getD i 0, map.keys_.getD i default, map.values_.getD i default)

/-- The occupied bit of slot `i` is set. -/
def occupied (map : smallmap_t K V) (i : Nat) : Bool := !is_empty_word (map.hashes_.getD i 0)

/-- The occupied slots among the first `n`, in slot order. -/
def entries_upto (map : smallmap_t K V) (n : Nat) : List (Nat × K × V) :=
  ((List.range n).filter (occupied map)).map (slot_at map)

/-- The occupied slots of the table. -/
def entries (map : smallmap_t K V) : List (Nat × K × V) := entries_upto map map.capacity_

/-- Number of slots whose metadata word has the occupied bit set. -/
def occupied_count (map : smallmap_t K V) : Nat :=
  ((List.range map.capacity_).filter (occupied map)).length

/-- Well-formed table: the shape above, every metadata word fits `uint32_t`,
the capacity is at least 16 and `resize_threshold_` is the value that
`sm_expand` stores for the capacity. -/
structure WF (map : smallmap_t K V) : Prop where
  shape : Shape map
  words : ∀ i, map.hashes_.getD i 0 < 4294967296
  cap16 : 16 ≤ map.capacity_
  threshold : map.resize_threshold_ = sm_threshold map.capacity_

/-- Ghost events of `n` iterations of the `for` loop of `sm_expand` that move an item. -/
def move_events : Nat → List Event
  | 0 => []
  | n + 1 => move_events n ++
      [Event.key_move, Event.value_move, Event.key_destructor, Event.value_destructor]

/-- Two maps agree on every field that is not an array or the trace, and
their arrays have the same lengths. -/
structure SameFrame (m m' : smallmap_t K V) : Prop where
  key_size : m'.key_size_ = m.key_size_
  value_size : m'.value_size_ = m.value_size_
  size : m'.size_ = m.size_
  capacity : m'.capacity_ = m.capacity_
  mask : m'.mask_ = m.mask_
  threshold : m'.resize_threshold_ = m.resize_threshold_
  hashes_len : m'.hashes_.length = m.hashes_.length
  keys_len : m'.keys_.length = m.keys_.length
  values_len : m'.values_.length = m.values_.length

/-- State of the new table `mi` once the `for` loop of `sm_expand` has
processed the slots below `i` of the old table `old`; `map1` is the new table
before the loop and `proj` is an observation of slots that the move callbacks
do not change. -/
structure ExpandInv {β : Type} (proj : Nat × K × V → β) (old map1 mi : smallmap_t K V)
    (i : Nat) : Prop where
  frame : SameFrame map1 mi
  words : ∀ j, mi.hashes_.getD j 0 < 4294967296
  perm : ((entries mi).map proj).Perm ((entries_upto old i).map proj)
  trace : mi.trace_ = map1.trace_ ++ move_events (entries_upto old i).length

/-- The map that a successful `sm_construct` returns. -/
def fresh_map (key_size value_size : Nat) : smallmap_t K V :=
  { key_size_ := u32 key_size, value_size_ := u32 value_size, size_ := 0, capacity_ := 16,
    mask_ := 15, resize_threshold_ := 11, hashes_ := List.replicate 16 0,
    keys_ := List.replicate 16 default, values_ := List.replicate 16 default,
    trace_ := [Event.allocate true, Event.allocate true, Event.deallocate Ptr.null] }

/-- The resize step at the head of `sm_add`: `sm_expand` when
`resize_threshold_ <= size_`, its `bool` ignored. -/
def sm_add_resize (cb : Callbacks K V) (map : smallmap_t K V) (alloc_ok : Bool) :
    Option (smallmap_t K V) :=
  if map.resize_threshold_ ≤ map.size_ then (sm_expand cb map alloc_ok).map Prod.snd
  else some map

/-- The maps reachable from `sm_construct` by `sm_add`, `sm_remove` and by
`sm_remove_at` on a slot returned by `sm_find`, with any allocator behaviour. -/
inductive Reachable (cb : Callbacks K V) : smallmap_t K V → Prop
  | construct (key_size value_size : Nat) (alloc_map_ok alloc_buffer_ok : Bool)
      (map : smallmap_t K V) (t : List Event) :
      sm_construct cb key_size value_size alloc_map_ok alloc_buffer_ok = some (some map, t) →
      Reachable cb map
  | add (map map' : smallmap_t K V) (key : K) (value : V) (alloc_ok b : Bool) :
      Reachable cb map → sm_add cb map key value alloc_ok = some (b, map') → Reachable cb map'
  | remove (map map' : smallmap_t K V) (key : K) :
      Reachable cb map → sm_remove cb map key = some map' → Reachable cb map'
  | remove_at (map : smallmap_t K V) (key : K) (pos : Nat) :
      Reachable cb map → sm_find cb map key = some pos → pos ≠ SM_INVALID →
      Reachable cb (sm_remove_at cb map pos)

/-- An entry (metadata word and key cell) answers the query. -/
def entry_matches (cb : Callbacks K V) (hash : Nat) (key : K) (e : Nat × K) : Bool :=
  e.1 == u32 (hash ||| SM_EXIST_FLAG) && cb.compare_ e.2 key

/-- The insertion loop of the harness (`main`, lines 169-171): `sm_add` of each
pair in turn with an allocator that succeeds; the `bool`s returned and the
final map. -/
def sm_add_all (cb : Callbacks K V) (map : smallmap_t K V) :
    List (K × V) → Option (List Bool × smallmap_t K V)
  | [] => some ([], map)
  | kv :: rest =>
    match sm_add cb map kv.1 kv.2 true with
    | none => none
    | some (b, map1) =>
      match sm_add_all cb map1 rest with
      | none => none
      | some (bs, map2) => some (b :: bs, map2)

/-- The slot contents that faithful callbacks leave for a key/value pair. -/
def stored (cb : Callbacks K V) (kvs : List (K × V)) : List (Nat × K × V) :=
  kvs.map (fun kv => (u32 (sm_hash cb kv.1 ||| SM_EXIST_FLAG), kv.1, kv.2))

/-- The keys of the pairs are pairwise non-equal for `compare_`. -/
def distinct_keys (cb : Callbacks K V) (kvs : List (K × V)) : Prop :=
  kvs.Pairwise (fun a b => cb.compare_ a.1 b.1 = false ∧ cb.compare_ b.1 a.1 = false)

/-- The occupied slots of the map hold exactly the pairs `kvs`, and `size_`
counts them. -/
structure FilledWith (cb : Callbacks K V) (m : smallmap_t K V) (kvs : List (K × V)) : Prop where
  wf : WF m
  perm : (entries m).Perm (stored cb kvs)
  size : m.size_ = kvs.length

/-- Bookkeeping of a map on which no constructor has failed: `size_` counts
the occupied slots, and every key (value) constructor or move call is
matched by a key (value) destructor call or by a slot that is still
occupied. -/
structure Balanced (m : smallmap_t K V) : Prop where
  size : m.size_ = occupied_count m
  keys : m.trace_.count Event.key_destructor + occupied_count m =
    m.trace_.count Event.key_constructor + m.trace_.count Event.key_move
  values : m.trace_.count Event.value_destructor + occupied_count m =
    m.trace_.count Event.value_constructor + m.trace_.count Event.value_move

/-- No key is stored twice: for every query at most one occupied slot has the
query's metadata word and a key that `compare_` accepts. -/
def Unique (cb : Callbacks K V) (m : smallmap_t K V) : Prop :=
  ∀ q, ((entries m).map (fun e => (e.1, e.2.1))).countP
    (entry_matches cb (sm_hash cb q) q) ≤ 1

/-- `sm_add` of a pair with an allocator that fails, keeping the map when
the add does not return. -/
def add_without_alloc (cb : Callbacks K V) (m : smallmap_t K V) (kv : K × V) : smallmap_t K V :=
  match sm_add cb m kv.1 kv.2 false with
  | some r => r.2
  | none => m

/-! ## Assumptions on the callbacks -/

/-- The construct callbacks store key and value faithfully: when one returns
`true`, the destination cell holds the source. -/
structure StoresFaithfully (cb : Callbacks K V) : Prop where
  key : ∀ d s, (cb.key_constructor_ d s).1 = true → (cb.key_constructor_ d s).2 = s
  value : ∀ d s, (cb.value_constructor_ d s).1 = true → (cb.value_constructor_ d s).2 = s

/-- The construct callbacks never return `false`. -/
structure ConstructorsSucceed (cb : Callbacks K V) : Prop where
  key : ∀ d s, (cb.key_constructor_ d s).1 = true
  value : ∀ d s, (cb.value_constructor_ d s).1 = true

/-- The move callbacks transfer the source cell into the destination cell. -/
structure MovesFaithfully (cb : Callbacks K V) : Prop where
  key : ∀ d s, cb.key_move_ d s = s
  value : ∀ d s, cb.value_move_ d s = s

/-! ## Concrete callbacks and maps -/

/-- Callbacks in the manner of the demonstration harness, over natural
numbers: the constructors copy the source and succeed, the moves transfer the
source, the key destructor nulls the cell, the value destructor does nothing,
the hash of a key is the key and `compare_` is equality.  No two cells of
the tables used with them overlap in part, so the overlap functions are never
consulted. -/
def demo_callbacks : Callbacks Nat Nat :=
  { key_constructor_ := fun _ src => (true, src),
    key_move_ := fun _ src => src,
    key_destructor_ := fun _ => 0,
    value_constructor_ := fun _ src => (true, src),
    value_move_ := fun _ src => src,
    value_destructor_ := fun cell => cell,
    hasher_ := fun key => key,
    compare_ := fun a b => a == b,
    key_overlap_ := fun _ old _ _ _ => old,
    value_overlap_ := fun _ old _ _ _ => old }

/-- The table after `3 ↦ 30`, `19 ↦ 190`, `35 ↦ 350` were added to a fresh
map and `19` was removed: the three keys share the bucket 3, slot 4 is empty
again and `35` still sits in slot 5. -/
def demo_map : smallmap_t Nat Nat :=
  { key_size_ := 8, value_size_ := 4, size_ := 2, capacity_ := 16, mask_ := 15,
    resize_threshold_ := 11,
    hashes_ := [0, 0, 0, 2147483651, 0, 2147483683, 0, 0, 0, 0, 0, 0, 0, 0, 0, 0],
    keys_ := [0, 0, 0, 3, 0, 35, 0, 0, 0, 0, 0, 0, 0, 0, 0, 0],
    values_ := [0, 0, 0, 30, 190, 350, 0, 0, 0, 0, 0, 0, 0, 0, 0, 0],
    trace_ := [Event.allocate true, Event.allocate true, Event.deallocate Ptr.null,
      Event.key_constructor, Event.value_constructor, Event.key_constructor,
      Event.value_constructor, Event.key_constructor, Event.value_constructor,
      Event.key_destructor, Event.value_destructor] }

/-- One more key than a table can ever hold: the keys `0, 1, ..., 2^31`, each
mapped to itself. -/
def too_many_pairs : List (Nat × Nat) := (List.range 2147483649).map (fun i => (i, i))

/-- The eleven pairs `16 * i + 3 ↦ 10 * i`, whose keys all fall into bucket 3
of a table of capacity 16. -/
def demo_pairs : List (Nat × Nat) := (List.range 11).map (fun i => (16 * i + 3, 10 * i))

/-- The fresh map after the eleven `demo_pairs` were added: `size_` has
reached `resize_threshold_`. -/
def demo_map11 : smallmap_t Nat Nat :=
  { key_size_ := 8, value_size_ := 4, size_ := 11, capacity_ := 16, mask_ := 15,
    resize_threshold_ := 11,
    hashes_ := [0, 0, 0, 2147483651, 2147483667, 2147483683, 2147483699, 2147483715,
      2147483731, 2147483747, 2147483763, 2147483779, 2147483795, 2147483811, 0, 0],
    keys_ := [0, 0, 0, 3, 19, 35, 51, 67, 83, 99, 115, 131, 147, 163, 0, 0],
    values_ := [0, 0, 0, 0, 10, 20, 30, 40, 50, 60, 70, 80, 90, 100, 0, 0],
    trace_ := [Event.allocate true, Event.allocate true, Event.deallocate Ptr.null] ++
      (List.replicate 11 [Event.key_constructor, Event.value_constructor]).flatten }

/-- The map `demo_map11` after `179 ↦ 110` was added: the add has resized the
table to capacity 32. -/
def demo_map12 : smallmap_t Nat Nat :=
  { key_size_ := 8, value_size_ := 4, size_ := 12, capacity_ := 32, mask_ := 31,
    resize_threshold_ := 22,
    hashes_ := [0, 0, 0, 2147483651, 2147483683, 2147483715, 2147483747, 2147483779,
      2147483811, 0, 0, 0, 0, 0, 0, 0, 0, 0, 0, 2147483667, 2147483699, 2147483731,
      2147483763, 2147483795, 2147483827, 0, 0, 0, 0, 0, 0, 0],
    keys_ := [0, 0, 0, 3, 35, 67, 99, 131, 163, 0, 0, 0, 0, 0, 0, 0, 0, 0, 0, 19, 51, 83,
      115, 147, 179, 0, 0, 0, 0, 0, 0, 0],
    values_ := [0, 0, 0, 0, 20, 40, 60, 80, 100, 0, 0, 0, 0, 0, 0, 0, 0, 0, 0, 10, 30, 50,
      70, 90, 110, 0, 0, 0, 0, 0, 0, 0],
    trace_ := demo_map11.trace_ ++ [Event.allocate true] ++ move_events 11 ++
      [Event.deallocate Ptr.buffer, Event.key_constructor, Event.value_constructor] }

/-- Callbacks whose value constructor fails: as `demo_callbacks`, but
`value_constructor_` returns `false` and leaves the destination cell as it
was. -/
def failing_value_callbacks : Callbacks Nat Nat :=
  { demo_callbacks with value_constructor_ := fun dst _ => (false, dst) }

/-- Callbacks whose key constructor fails: as `demo_callbacks`, but
`key_constructor_` returns `false` and leaves the destination cell as it
was. -/
def failing_key_callbacks : Callbacks Nat Nat :=
  { demo_callbacks with key_constructor_ := fun dst _ => (false, dst) }

/-- The fresh map after `sm_add` of `3 ↦ 30` with `failing_value_callbacks`:
slot 3 carries the occupied bit and the key, `size_` is still 0. -/
def phantom_map : smallmap_t Nat Nat :=
  { key_size_ := 8, value_size_ := 4, size_ := 0, capacity_ := 16, mask_ := 15,
    resize_threshold_ := 11,
    hashes_ := [0, 0, 0, 2147483651, 0, 0, 0, 0, 0, 0, 0, 0, 0, 0, 0, 0],
    keys_ := [0, 0, 0, 3, 0, 0, 0, 0, 0, 0, 0, 0, 0, 0, 0, 0],
    values_ := [0, 0, 0, 0, 0, 0, 0, 0, 0, 0, 0, 0, 0, 0, 0, 0],
    trace_ := [Event.allocate true, Event.allocate true, Event.deallocate Ptr.null,
      Event.key_constructor, Event.value_constructor] }

/-- The fresh map after `3 ↦ 30`, `19 ↦ 190` and `35 ↦ 350` were added: the
three keys share the bucket 3 and fill the slots 3, 4 and 5. -/
def demo_map3 : smallmap_t Nat Nat :=
  { key_size_ := 8, value_size_ := 4, size_ := 3, capacity_ := 16, mask_ := 15,
    resize_threshold_ := 11,
    hashes_ := [0, 0, 0, 2147483651, 2147483667, 2147483683, 0, 0, 0, 0, 0, 0, 0, 0, 0, 0],
    keys_ := [0, 0, 0, 3, 19, 35, 0, 0, 0, 0, 0, 0, 0, 0, 0, 0],
    values_ := [0, 0, 0, 30, 190, 350, 0, 0, 0, 0, 0, 0, 0, 0, 0, 0],
    trace_ := [Event.allocate true, Event.allocate true, Event.deallocate Ptr.null,
      Event.key_constructor, Event.value_constructor, Event.key_constructor,
      Event.value_constructor, Event.key_constructor, Event.value_constructor] }

/-- The map `demo_map11` after five more keys of bucket 3 were added while
every resize attempt failed: all sixteen slots are occupied. -/
def full_map : smallmap_t Nat Nat :=
  { key_size_ := 8, value_size_ := 4, size_ := 16, capacity_ := 16, mask_ := 15,
    resize_threshold_ := 11,
    hashes_ := [2147483859, 2147483875, 2147483891, 2147483651, 2147483667, 2147483683,
      2147483699, 2147483715, 2147483731, 2147483747, 2147483763, 2147483779, 2147483795,
      2147483811, 2147483827, 2147483843],
    keys_ := [211, 227, 243, 3, 19, 35, 51, 67, 83, 99, 115, 131, 147, 163, 179, 195],
    values_ := [130, 140, 150, 0, 10, 20, 30, 40, 50, 60, 70, 80, 90, 100, 110, 120],
    trace_ := demo_map11.trace_ ++ (List.replicate 5
      [Event.allocate false, Event.key_constructor, Event.value_constructor]).flatten }

/-! ## Call sequences, restricted reachability and invariants of the words -/

/-- An empty table of `2^26` slots, the largest capacity whose successor is
still computed by `sm_expand` with a product below `2^27 * 0.7`. -/
def wide_map : smallmap_t Nat Nat :=
  { key_size_ := 8, value_size_ := 4, size_ := 0, capacity_ := 67108864, mask_ := 67108863,
    resize_threshold_ := 46976204,
    hashes_ := List.replicate 67108864 0,
    keys_ := List.replicate 67108864 0,
    values_ := List.replicate 67108864 0,
    trace_ := [] }

/-- One call of the public interface by a client; `alloc_ok` is the answer the
allocator gives if the call asks it for a buffer. -/
inductive Op (K V : Type) where
  | add (key : K) (value : V) (alloc_ok : Bool)
  | remove (key : K)

/-- What a client counts over a sequence of calls: the calls of `sm_add`, those
whose key was not in the map when called, those that returned `true`, the calls
of `sm_remove` and those whose key was in the map when called. -/
structure Tally where
  adds : Nat
  adds_absent : Nat
  adds_true : Nat
  removes : Nat
  removes_present : Nat
deriving DecidableEq, Repr

/-- Sum of two tallies. -/
def Tally.plus (a b : Tally) : Tally :=
  ⟨a.adds + b.adds, a.adds_absent + b.adds_absent, a.adds_true + b.adds_true,
    a.removes + b.removes, a.removes_present + b.removes_present⟩

/-- One call; `sm_find` before the call tells whether the key was present. -/
def sm_call (cb : Callbacks K V) (map : smallmap_t K V) : Op K V → Option (Tally × smallmap_t K V)
  | Op.add key value alloc_ok =>
    match sm_find cb map key, sm_add cb map key value alloc_ok with
    | some pos, some (b, map1) =>
      some (⟨1, if pos = SM_INVALID then 1 else 0, if b then 1 else 0, 0, 0⟩, map1)
    | _, _ => none
  | Op.remove key =>
    match sm_find cb map key, sm_remove cb map key with
    | some pos, some map1 => some (⟨0, 0, 0, 1, if pos = SM_INVALID then 0 else 1⟩, map1)
    | _, _ => none

/-- A sequence of calls, as the loops of the harness (`main`) make them. -/
def sm_run (cb : Callbacks K V) (map : smallmap_t K V) :
    List (Op K V) → Option (Tally × smallmap_t K V)
  | [] => some (⟨0, 0, 0, 0, 0⟩, map)
  | op :: rest =>
    match sm_call cb map op with
    | none => none
    | some (t, map1) =>
      match sm_run cb map1 rest with
      | none => none
      | some (ts, map2) => some (t.plus ts, map2)

/-- The maps reachable from `sm_construct` by calls in which no resize attempt
has failed: whenever an `sm_add` reaches its call of `sm_expand` (the key is
absent and `resize_threshold_ <= size_`), that call returns `true`. -/
inductive ReachableResizing (cb : Callbacks K V) : smallmap_t K V → Prop
  | construct (key_size value_size : Nat) (alloc_map_ok alloc_buffer_ok : Bool)
      (map : smallmap_t K V) (t : List Event) :
      sm_construct cb key_size value_size alloc_map_ok alloc_buffer_ok = some (some map, t) →
      ReachableResizing cb map
  | add (map map' : smallmap_t K V) (key : K) (value : V) (alloc_ok b : Bool) :
      ReachableResizing cb map →
      (sm_find cb map key = some SM_INVALID → map.resize_threshold_ ≤ map.size_ →
        ∃ map1, sm_expand cb map alloc_ok = some (true, map1)) →
      sm_add cb map key value alloc_ok = some (b, map') → ReachableResizing cb map'
  | remove (map map' : smallmap_t K V) (key : K) :
      ReachableResizing cb map → sm_remove cb map key = some map' → ReachableResizing cb map'
  | remove_at (map : smallmap_t K V) (key : K) (pos : Nat) :
      ReachableResizing cb map → sm_find cb map key = some pos → pos ≠ SM_INVALID →
      ReachableResizing cb (sm_remove_at cb map pos)

/-- The step of the three probe loops, `pos = (pos + 1) & map->mask_`, computed
in `uint32_t`. -/
def probe_step (mask pos : Nat) : Nat := u32 (u32 (pos + 1) &&& mask)

/-- The positions at which the probe loop evaluates its exit condition, in
order: the loop `probe` with the visited position recorded at each pass. -/
def probe_visits (cond : Nat → Bool) (mask start : Nat) : Nat → Nat → List Nat
  | 0, _ => []
  | fuel + 1, pos =>
    pos :: (if cond pos then []
      else
        let next := u32 (u32 (pos + 1) &&& mask)
        if next ≠ start then probe_visits cond mask start fuel next else [])

/-- A table of capacity 16 in which the key `15` is stored twice, in the slots
15 and 0, with the values 1 and 2. -/
def twice_map : smallmap_t Nat Nat :=
  { key_size_ := 8, value_size_ := 4, size_ := 2, capacity_ := 16, mask_ := 15,
    resize_threshold_ := 11,
    hashes_ := [2147483663, 0, 0, 0, 0, 0, 0, 0, 0, 0, 0, 0, 0, 0, 0, 2147483663],
    keys_ := [15, 0, 0, 0, 0, 0, 0, 0, 0, 0, 0, 0, 0, 0, 0, 15],
    values_ := [2, 0, 0, 0, 0, 0, 0, 0, 0, 0, 0, 0, 0, 0, 0, 1],
    trace_ := [] }

/-- Seventeen adds of distinct keys to a fresh map: the eleven `demo_pairs`
with an allocator that would succeed, then six more during which the
allocator returns null. -/
def demo_ops : List (Op Nat Nat) :=
  demo_pairs.map (fun kv => Op.add kv.1 kv.2 true) ++
    [Op.add 179 110 false, Op.add 195 120 false, Op.add 211 130 false, Op.add 227 140 false,
      Op.add 243 150 false, Op.add 259 160 false]

/-- Three adds and the removal of the second key, as in the harness. -/
def demo_ops4 : List (Op Nat Nat) :=
  [Op.add 3 30 true, Op.add 19 190 true, Op.add 35 350 true, Op.remove 19]

/-- The probe that starts at the natural bucket of the hash stored in slot `p`
and stops at `p` or at a slot whose occupied bit is clear stops at `p`. -/
def reaches (m : smallmap_t K V) (p : Nat) : Bool :=
  (probe_order m.capacity_ ((m.hashes_.getD p 0 &&& SM_HASH_MASK) % m.capacity_)).find?
    (fun pos => pos == p || is_empty_word (m.hashes_.getD pos 0)) == some p

/-- Every occupied slot is reached from its natural bucket without passing an
empty slot. -/
def Gapless (m : smallmap_t K V) : Prop :=
  ∀ p, p < m.capacity_ → occupied m p = true → reaches m p = true

/-- The metadata word of every slot whose occupied bit is clear is zero. -/
def ZeroEmpty (m : smallmap_t K V) : Prop :=
  ∀ i, occupied m i = false → m.hashes_.getD i 0 = 0

/-- A property of the capacity and the metadata words that holds of a zeroed
table and survives the write of a flagged hash into the first free slot of the
hash's probe sequence. -/
structure WriteInvariant (P : smallmap_t K V → Prop) : Prop where
  same : ∀ m m' : smallmap_t K V, m'.capacity_ = m.capacity_ → m'.hashes_ = m.hashes_ →
    P m → P m'
  zero : ∀ m : smallmap_t K V, (∀ j, m.hashes_.getD j 0 = 0) → P m
  write : ∀ (m m' : smallmap_t K V) (hash pos : Nat), m'.capacity_ = m.capacity_ →
    (∀ i, i ≠ pos → m'.hashes_.getD i 0 = m.hashes_.getD i 0) →
    m'.hashes_.getD pos 0 = u32 (hash ||| SM_EXIST_FLAG) → hash < 2147483648 →
    first_free m hash = some pos → P m → P m'

/-- The maps reachable from `sm_construct` by calls of `sm_add` only. -/
inductive ReachableByAdd (cb : Callbacks K V) : smallmap_t K V → Prop
  | construct (key_size value_size : Nat) (alloc_map_ok alloc_buffer_ok : Bool)
      (map : smallmap_t K V) (t : List Event) :
      sm_construct cb key_size value_size alloc_map_ok alloc_buffer_ok = some (some map, t) →
      ReachableByAdd cb map
  | add (map map' : smallmap_t K V) (key : K) (value : V) (alloc_ok b : Bool) :
      ReachableByAdd cb map → sm_add cb map key value alloc_ok = some (b, map') →
      ReachableByAdd cb map'

/-- The truncated hash stored with every key of the table is the hash of that
key. -/
def HashOk (cb : Callbacks K V) (m : smallmap_t K V) : Prop :=
  ∀ e, e ∈ (entries m).map (fun e => (e.1, e.2.1)) → e.1 &&& SM_HASH_MASK = sm_hash cb e.2

/-! ## Duplicates and byte offsets -/

/-- No two distinct occupied slots hold keys that `compare_` accepts as
equal. -/
def NoDuplicate (cb : Callbacks K V) (m : smallmap_t K V) : Prop :=
  ∀ i j, i < m.capacity_ → j < m.capacity_ → occupied m i = true → occupied m j = true →
    cb.compare_ (m.keys_.getD i default) (m.keys_.getD j default) = true → i = j

/-- An empty table of `2^30` slots with keys of 8 bytes (a pointer, as in the
harness) and values of 4 bytes. -/
def huge_map : smallmap_t Nat Nat :=
  { key_size_ := 8, value_size_ := 4, size_ := 0, capacity_ := 1073741824, mask_ := 1073741823,
    resize_threshold_ := 751619264,
    hashes_ := List.replicate 1073741824 0,
    keys_ := List.replicate 1073741824 0,
    values_ := List.replicate 1073741824 0,
    trace_ := [] }

/-! ## Tables whose byte offsets wrap -/

/-- Nine pairs whose keys are pairwise different and have the same 32-bit
hash under the demonstration callbacks: the keys `16 + i * 2^32`, with the
values `100 + i`. -/
def equal_hash_pairs : List (Nat × Nat) :=
  (List.range 9).map (fun i => (16 + 4294967296 * i, 100 + i))

/-- The table after the first eight `equal_hash_pairs` were added to a fresh
map with keys of `2^29` bytes: the keys fill the slots 0 to 7.  The byte
offset `q * 2^29` of a slot `q >= 8` wraps to the offset of slot `q - 8`, so
each of the slots 8 to 15 reads the key cell of the slot eight below. -/
def equal_hash_map : smallmap_t Nat Nat :=
  { key_size_ := 536870912, value_size_ := 4, size_ := 8, capacity_ := 16, mask_ := 15,
    resize_threshold_ := 11,
    hashes_ := [2147483664, 2147483664, 2147483664, 2147483664, 2147483664, 2147483664,
      2147483664, 2147483664, 0, 0, 0, 0, 0, 0, 0, 0],
    keys_ := [16, 4294967312, 8589934608, 12884901904, 17179869200, 21474836496, 25769803792,
      30064771088, 16, 4294967312, 8589934608, 12884901904, 17179869200, 21474836496,
      25769803792, 30064771088],
    values_ := [100, 101, 102, 103, 104, 105, 106, 107, 0, 0, 0, 0, 0, 0, 0, 0],
    trace_ := [Event.allocate true, Event.allocate true, Event.deallocate Ptr.null] ++
      (List.replicate 8 [Event.key_constructor, Event.value_constructor]).flatten }

/-- The table after `16 ↦ 160` and `8 ↦ 80` were added to a fresh map with
keys of `2^29` bytes: the byte offset `8 * 2^29` of slot 8 wraps to 0, the
offset of slot 0, so both slots read the key cell that the second add has
written. -/
def alias_map : smallmap_t Nat Nat :=
  { key_size_ := 536870912, value_size_ := 4, size_ := 2, capacity_ := 16, mask_ := 15,
    resize_threshold_ := 11,
    hashes_ := [2147483664, 0, 0, 0, 0, 0, 0, 0, 2147483656, 0, 0, 0, 0, 0, 0, 0],
    keys_ := [8, 0, 0, 0, 0, 0, 0, 0, 8, 0, 0, 0, 0, 0, 0, 0],
    values_ := [160, 0, 0, 0, 0, 0, 0, 0, 80, 0, 0, 0, 0, 0, 0, 0],
    trace_ := [Event.allocate true, Event.allocate true, Event.deallocate Ptr.null,
      Event.key_constructor, Event.value_constructor, Event.key_constructor,
      Event.value_constructor] }

/-- Callbacks as `demo_callbacks`, but the value destructor clears the
cell. -/
def clearing_callbacks : Callbacks Nat Nat :=
  { demo_callbacks with value_destructor_ := fun _ => 0 }

/-- Callbacks as `demo_callbacks`, but the key destructor leaves the cell as
it was. -/
def keeping_callbacks : Callbacks Nat Nat :=
  { demo_callbacks with key_destructor_ := fun cell => cell }

/-- Callbacks as `demo_callbacks`, but the value constructor fails on the
source value `30` and leaves the destination cell as it was. -/
def picky_callbacks : Callbacks Nat Nat :=
  { demo_callbacks with
    value_constructor_ := fun dst src => if src = 30 then (false, dst) else (true, src) }

/-- The table after `sm_add` of `3 ↦ 30` has failed in the value constructor
of `picky_callbacks` on a fresh map and `sm_remove` of `3` has then cleared
the slot: no slot is occupied and `size_` has wrapped to `2^64 - 1`. -/
def wrapped_size_map : smallmap_t Nat Nat :=
  { key_size_ := 8, value_size_ := 4, size_ := 18446744073709551615, capacity_ := 16,
    mask_ := 15, resize_threshold_ := 11,
    hashes_ := [0, 0, 0, 0, 0, 0, 0, 0, 0, 0, 0, 0, 0, 0, 0, 0],
    keys_ := [0, 0, 0, 0, 0, 0, 0, 0, 0, 0, 0, 0, 0, 0, 0, 0],
    values_ := [0, 0, 0, 0, 0, 0, 0, 0, 0, 0, 0, 0, 0, 0, 0, 0],
    trace_ := [Event.allocate true, Event.allocate true, Event.deallocate Ptr.null,
      Event.key_constructor, Event.value_constructor, Event.key_destructor,
      Event.value_destructor] }

/-! ## Theorems -/

/-! ### Metadata words -/

theorem u32_lt (x : Nat) : u32 x < 4294967296 := Nat.mod_lt _ (by decide)

theorem flag_eq : SM_EXIST_FLAG = 2 ^ 31 := by decide
theorem hash_mask_eq : SM_HASH_MASK = 2 ^ 31 - 1 := by decide

theorem is_empty_word_iff (w : Nat) : is_empty_word w = !(w.testBit 31) := by
  unfold is_empty_word
  rw [flag_eq, Nat.land_comm, Nat.and_two_pow]
  cases h : w.testBit 31 <;> simp

theorem is_empty_word_zero : is_empty_word 0 = true := by decide

theorem testBit_u32 (x i : Nat) : (u32 x).testBit i = (decide (i < 32) && x.testBit i) := by
  have : u32 x = x % 2 ^ 32 := rfl
  rw [this, Nat.testBit_mod_two_pow]

theorem is_empty_word_flagged (h : Nat) : is_empty_word (u32 (h ||| SM_EXIST_FLAG)) = false := by
  rw [is_empty_word_iff, testBit_u32, Nat.testBit_or, flag_eq, Nat.testBit_two_pow_self]
  simp

theorem flagged_ne_zero (h : Nat) : u32 (h ||| SM_EXIST_FLAG) ≠ 0 := by
  intro h0
  have := is_empty_word_flagged h
  rw [h0] at this
  simp [is_empty_word_zero] at this

theorem reflag (w : Nat) (hw : w < 4294967296) (ho : is_empty_word w = false) :
    u32 ((w &&& SM_HASH_MASK) ||| SM_EXIST_FLAG) = w := by
  rw [is_empty_word_iff] at ho
  simp at ho
  apply Nat.eq_of_testBit_eq
  intro i
  rw [testBit_u32, Nat.testBit_or, Nat.testBit_and, hash_mask_eq, flag_eq, Nat.testBit_two_pow,
    Nat.testBit_two_pow_sub_one]
  by_cases h31 : i = 31
  · subst h31; simp [ho]
  · by_cases hlt : i < 31
    · have : i < 32 := by omega
      simp [hlt, this, h31, Ne.symm h31]
    · have hge : 32 ≤ i := by omega
      have hf : w.testBit i = false := by
        apply Nat.testBit_lt_two_pow
        calc w < 2 ^ 32 := hw
          _ ≤ 2 ^ i := Nat.pow_le_pow_right (by decide) hge
      have : ¬ i < 32 := by omega
      simp [hf, this]

theorem land_mask_lt (x n : Nat) : x &&& (2 ^ n - 1) = x % 2 ^ n := Nat.and_pow_two_sub_one_eq_mod x n

/-! ### The probe visits every slot once, in probe order -/

theorem probe_next (n : Nat) (hn : n ≤ 31) (x : Nat) :
    u32 (u32 (x % 2 ^ n + 1) &&& (2 ^ n - 1)) = (x + 1) % 2 ^ n := by
  have hpos : 0 < 2 ^ n := Nat.two_pow_pos n
  have hle : 2 ^ n ≤ 2 ^ 31 := Nat.pow_le_pow_right (by decide) hn
  have hx : x % 2 ^ n < 2 ^ n := Nat.mod_lt _ hpos
  have h1 : u32 (x % 2 ^ n + 1) = x % 2 ^ n + 1 := by
    unfold u32; apply Nat.mod_eq_of_lt; norm_num at hle ⊢; omega
  rw [h1, Nat.and_pow_two_sub_one_eq_mod, Nat.mod_add_mod]
  unfold u32; apply Nat.mod_eq_of_lt
  have : (x + 1) % 2 ^ n < 2 ^ n := Nat.mod_lt _ hpos
  norm_num at hle ⊢; omega

theorem probe_aux (cond : Nat → Bool) (n : Nat) (hn : n ≤ 31) (start : Nat) (hs : start < 2 ^ n) :
    ∀ fuel j, j + fuel = 2 ^ n → 0 < fuel →
      probe cond (2 ^ n - 1) start fuel ((start + j) % 2 ^ n) =
        probe_result (((List.range' j fuel).map (fun j => (start + j) % 2 ^ n)).find? cond) := by
  intro fuel
  induction fuel with
  | zero => intro j _ h; omega
  | succ fuel ih =>
    intro j hj _
    rw [probe, List.range'_succ, List.map_cons, List.find?_cons]
    by_cases hc : cond ((start + j) % 2 ^ n) = true
    · simp [hc, probe_result]
    · simp only [hc]
      rw [probe_next n hn]
      simp only [Bool.false_eq_true, if_false]
      by_cases hf : fuel = 0
      · subst hf
        have : start + j + 1 = start + 2 ^ n := by omega
        rw [this, Nat.add_mod_right, Nat.mod_eq_of_lt hs]
        simp [probe_result]
      · have hne : (start + j + 1) % 2 ^ n ≠ start := by
          intro he
          by_cases hlt : start + j + 1 < 2 ^ n
          · rw [Nat.mod_eq_of_lt hlt] at he; omega
          · rw [Nat.mod_eq_sub_mod (by omega), Nat.mod_eq_of_lt (by omega)] at he; omega
        rw [if_pos hne]
        have := ih (j + 1) (by omega) (by omega)
        rw [← Nat.add_assoc] at this
        exact this

theorem probe_eq (cond : Nat → Bool) (n : Nat) (hn : n ≤ 31) (start : Nat) (hs : start < 2 ^ n) :
    probe cond (2 ^ n - 1) start (2 ^ n - 1 + 1) start =
      probe_result ((probe_order (2 ^ n) start).find? cond) := by
  have hpos : 0 < 2 ^ n := Nat.two_pow_pos n
  have h := probe_aux cond n hn start hs (2 ^ n) 0 (by omega) hpos
  rw [Nat.add_zero, Nat.mod_eq_of_lt hs] at h
  rw [Nat.sub_add_cancel hpos, h, probe_order, List.range_eq_range']

theorem mem_probe_order (cap start p : Nat) : p ∈ probe_order cap start ↔ p < cap := by
  unfold probe_order
  rw [List.mem_map]
  constructor
  · rintro ⟨j, hj, rfl⟩
    have := List.mem_range.mp hj
    exact Nat.mod_lt _ (by omega)
  · intro hp
    refine ⟨(p + cap - start % cap) % cap, List.mem_range.mpr (Nat.mod_lt _ (by omega)), ?_⟩
    have hsc : start % cap < cap := Nat.mod_lt _ (by omega)
    rw [Nat.add_mod_mod, ← Nat.mod_add_mod]
    have : start % cap + (p + cap - start % cap) = p + cap := by omega
    rw [this, Nat.add_mod_right, Nat.mod_eq_of_lt hp]

theorem Shape.cap_pos {m : smallmap_t K V} (h : Shape m) : 0 < m.capacity_ := by
  obtain ⟨n, _, hc⟩ := h.cap
  rw [hc]; exact Nat.two_pow_pos n

theorem Shape.cap_le {m : smallmap_t K V} (h : Shape m) : m.capacity_ ≤ 2147483648 := by
  obtain ⟨n, hn, hc⟩ := h.cap
  rw [hc]
  have : 2 ^ n ≤ 2 ^ 31 := Nat.pow_le_pow_right (by decide) hn
  norm_num at this ⊢; exact this

theorem Shape.start_eq {m : smallmap_t K V} (h : Shape m) (hash : Nat) :
    u32 (hash &&& m.mask_) = hash % m.capacity_ := by
  obtain ⟨n, hn, hc⟩ := h.cap
  have hle := h.cap_le
  rw [h.mask, hc, Nat.and_pow_two_sub_one_eq_mod]
  unfold u32; apply Nat.mod_eq_of_lt
  have : hash % 2 ^ n < 2 ^ n := Nat.mod_lt _ (Nat.two_pow_pos n)
  rw [hc] at hle; omega

theorem Shape.probe_order_eq {m : smallmap_t K V} (h : Shape m) (cond : Nat → Bool) (hash : Nat) :
    probe cond m.mask_ (u32 (hash &&& m.mask_)) (m.mask_ + 1) (u32 (hash &&& m.mask_)) =
      probe_result ((probe_order m.capacity_ (hash % m.capacity_)).find? cond) := by
  rw [h.start_eq]
  obtain ⟨n, hn, hc⟩ := h.cap
  rw [h.mask, hc]
  exact Smallmap.probe_eq cond n hn _ (Nat.mod_lt _ (Nat.two_pow_pos n))

theorem sm_find__eq (cb : Callbacks K V) {m : smallmap_t K V} (h : Shape m) (hash : Nat) (key : K) :
    sm_find_ cb m hash key = some ((first_match cb m hash key).getD SM_INVALID) := by
  unfold sm_find_
  simp only []
  have := h.probe_order_eq (slot_matches cb m hash key) hash
  unfold slot_matches at this
  rw [this]
  unfold first_match slot_matches
  cases (probe_order m.capacity_ (hash % m.capacity_)).find? _ <;> simp [probe_result]

theorem first_match_none (cb : Callbacks K V) (m : smallmap_t K V) (hash : Nat) (key : K) :
    first_match cb m hash key = none ↔ ∀ i, i < m.capacity_ → slot_matches cb m hash key i = false := by
  unfold first_match
  rw [List.find?_eq_none]
  constructor
  · intro h i hi
    have := h i ((mem_probe_order _ _ _).mpr hi)
    simpa using this
  · intro h i hi
    have := h i ((mem_probe_order _ _ _).mp hi)
    simp [this]

theorem first_match_some (cb : Callbacks K V) (m : smallmap_t K V) (hash : Nat) (key : K) (p : Nat)
    (h : first_match cb m hash key = some p) :
    p < m.capacity_ ∧ slot_matches cb m hash key p = true := by
  unfold first_match at h
  exact ⟨(mem_probe_order _ _ _).mp (List.mem_of_find?_eq_some h), List.find?_some h⟩

theorem first_free_none (m : smallmap_t K V) (hash : Nat) :
    first_free m hash = none ↔ ∀ i, i < m.capacity_ → is_empty_word (m.hashes_.getD i 0) = false := by
  unfold first_free
  rw [List.find?_eq_none]
  constructor
  · intro h i hi
    have := h i ((mem_probe_order _ _ _).mpr hi)
    simpa using this
  · intro h i hi
    have := h i ((mem_probe_order _ _ _).mp hi)
    rw [this]; exact Bool.false_ne_true

theorem first_free_some (m : smallmap_t K V) (hash : Nat) (p : Nat)
    (h : first_free m hash = some p) :
    p < m.capacity_ ∧ is_empty_word (m.hashes_.getD p 0) = true := by
  unfold first_free at h
  exact ⟨(mem_probe_order _ _ _).mp (List.mem_of_find?_eq_some h),
    List.find?_some (p := fun pos => is_empty_word (m.hashes_.getD pos 0)) h⟩

/-! ### Writing one slot -/

theorem getD_set_self {α : Type} (l : List α) (i : Nat) (a d : α) (h : i < l.length) :
    (l.set i a).getD i d = a := by
  rw [List.getD_eq_getElem?_getD, List.getElem?_set]
  simp [h]

theorem getD_set_ne {α : Type} (l : List α) (i j : Nat) (a d : α) (h : i ≠ j) :
    (l.set i a).getD j d = l.getD j d := by
  rw [List.getD_eq_getElem?_getD, List.getElem?_set, List.getD_eq_getElem?_getD]
  simp [h]

theorem getD_replicate {α : Type} (n i : Nat) (a : α) : (List.replicate n a).getD i a = a := by
  rw [List.getD_eq_getElem?_getD, List.getElem?_replicate]
  split <;> rfl

theorem filter_map_congr {α : Type} (f f' : Nat → α) (p p' : Nat → Bool) (n : Nat)
    (h : ∀ i, i < n → f' i = f i ∧ p' i = p i) :
    ((List.range n).filter p').map f' = ((List.range n).filter p).map f := by
  have h1 : (List.range n).filter p' = (List.range n).filter p := by
    apply List.filter_congr
    intro i hi
    exact (h i (List.mem_range.mp hi)).2
  rw [h1]
  apply List.map_congr_left
  intro i hi
  exact (h i (List.mem_range.mp (List.mem_of_mem_filter hi))).1

theorem filter_map_insert {α : Type} (f f' : Nat → α) (p p' : Nat → Bool) (pos : Nat)
    (hne : ∀ i, i ≠ pos → f' i = f i ∧ p' i = p i) (hp : p pos = false) (hp' : p' pos = true) :
    ∀ n, pos < n →
      (((List.range n).filter p').map f').Perm (f' pos :: ((List.range n).filter p).map f) := by
  intro n
  induction n with
  | zero => intro h; omega
  | succ n ih =>
    intro hpos
    rw [List.range_succ, List.filter_append, List.filter_append, List.map_append, List.map_append]
    by_cases hn : pos = n
    · subst hn
      have hc := filter_map_congr f f' p p' pos (fun i hi => hne i (by omega))
      rw [hc]
      simp only [List.filter_cons, hp, hp', List.filter_nil, if_true, Bool.false_eq_true, if_false,
        List.map_cons, List.map_nil, List.append_nil]
      exact List.perm_append_singleton _ _
    · have hlt : pos < n := by omega
      have h1 := ih hlt
      have h2 := hne n (Ne.symm hn)
      have h3 : ([n].filter p').map f' = ([n].filter p).map f := by
        simp only [List.filter_cons, h2.2, List.filter_nil]
        split <;> simp [h2.1]
      rw [h3]
      exact (h1.append_right _).trans (by simp)

theorem occupied_eq_of_slot {m m' : smallmap_t K V} {i : Nat} (h : slot_at m' i = slot_at m i) :
    occupied m' i = occupied m i := by
  have : (slot_at m' i).1 = (slot_at m i).1 := by rw [h]
  unfold occupied
  unfold slot_at at this
  simp only at this
  rw [this]

theorem entries_upto_congr (m m' : smallmap_t K V) (n : Nat)
    (h : ∀ i, i < n → slot_at m' i = slot_at m i) : entries_upto m' n = entries_upto m n := by
  unfold entries_upto
  exact filter_map_congr _ _ _ _ n (fun i hi => ⟨h i hi, occupied_eq_of_slot (h i hi)⟩)

theorem entries_upto_insert (m m' : smallmap_t K V) (pos n : Nat) (hpos : pos < n)
    (hother : ∀ i, i ≠ pos → slot_at m' i = slot_at m i)
    (he : occupied m pos = false) (ho : occupied m' pos = true) :
    (entries_upto m' n).Perm (slot_at m' pos :: entries_upto m n) := by
  unfold entries_upto
  exact filter_map_insert _ _ _ _ pos
    (fun i hi => ⟨hother i hi, occupied_eq_of_slot (hother i hi)⟩) he ho n hpos

theorem entries_upto_remove (m m' : smallmap_t K V) (pos n : Nat) (hpos : pos < n)
    (hother : ∀ i, i ≠ pos → slot_at m' i = slot_at m i)
    (ho : occupied m pos = true) (he : occupied m' pos = false) :
    (entries_upto m n).Perm (slot_at m pos :: entries_upto m' n) := by
  unfold entries_upto
  exact filter_map_insert _ _ _ _ pos
    (fun i hi => ⟨(hother i hi).symm, (occupied_eq_of_slot (hother i hi)).symm⟩) he ho n hpos

theorem entries_upto_succ (m : smallmap_t K V) (n : Nat) :
    entries_upto m (n + 1) =
      entries_upto m n ++ (if occupied m n then [slot_at m n] else []) := by
  unfold entries_upto
  rw [List.range_succ, List.filter_append, List.map_append]
  congr 1
  by_cases h : occupied m n = true <;> simp [h]

theorem mem_entries (m : smallmap_t K V) (e : Nat × K × V) :
    e ∈ entries m ↔ ∃ i, i < m.capacity_ ∧ occupied m i = true ∧ slot_at m i = e := by
  unfold entries entries_upto
  simp only [List.mem_map, List.mem_filter, List.mem_range]
  constructor
  · rintro ⟨i, ⟨h1, h2⟩, h3⟩; exact ⟨i, h1, h2, h3⟩
  · rintro ⟨i, h1, h2, h3⟩; exact ⟨i, ⟨h1, h2⟩, h3⟩

theorem occupied_count_eq (m : smallmap_t K V) : occupied_count m = (entries m).length := by
  unfold occupied_count entries entries_upto
  rw [List.length_map]

theorem occupied_count_le (m : smallmap_t K V) : occupied_count m ≤ m.capacity_ := by
  unfold occupied_count
  calc ((List.range m.capacity_).filter (occupied m)).length
      ≤ (List.range m.capacity_).length := List.length_filter_le _ _
    _ = m.capacity_ := List.length_range _

theorem exists_free_of_count_lt (m : smallmap_t K V) (h : occupied_count m < m.capacity_) :
    ∃ i, i < m.capacity_ ∧ occupied m i = false := by
  by_contra hcon
  push_neg at hcon
  have : (List.range m.capacity_).filter (occupied m) = List.range m.capacity_ := by
    rw [List.filter_eq_self]
    intro i hi
    have := hcon i (List.mem_range.mp hi)
    simpa using this
  unfold occupied_count at h
  rw [this, List.length_range] at h
  omega

theorem first_free_isSome (m : smallmap_t K V) (hash : Nat) (h : occupied_count m < m.capacity_) :
    ∃ pos, first_free m hash = some pos := by
  cases hf : first_free m hash with
  | some pos => exact ⟨pos, rfl⟩
  | none =>
    rw [first_free_none] at hf
    obtain ⟨i, hi, ho⟩ := exists_free_of_count_lt m h
    have := hf i hi
    unfold occupied at ho
    rw [this] at ho
    simp at ho

/-! ### `sm_add_item`, `sm_move_item` and `sm_expand` -/

theorem sm_add_item_eq (cb : Callbacks K V) {m : smallmap_t K V} (h : Shape m) (hash : Nat)
    (k : K) (v : V) :
    sm_add_item cb m hash k v = some (match first_free m hash with
      | some pos => sm_add_item_at cb m hash k v pos
      | none => (false, m)) := by
  unfold sm_add_item
  simp only []
  rw [h.probe_order_eq]
  unfold first_free
  cases (probe_order m.capacity_ (hash % m.capacity_)).find? _ <;> simp [probe_result]

theorem sm_move_item_eq (cb : Callbacks K V) {m : smallmap_t K V} (h : Shape m) (hash : Nat)
    (k : K) (v : V) :
    sm_move_item cb m hash k v = some (match first_free m hash with
      | some pos => sm_move_item_at cb m hash k v pos
      | none => m) := by
  unfold sm_move_item
  simp only []
  rw [h.probe_order_eq]
  unfold first_free
  cases (probe_order m.capacity_ (hash % m.capacity_)).find? _ <;> simp [probe_result]

theorem SameFrame.shape {m m' : smallmap_t K V} (f : SameFrame m m') (h : Shape m) : Shape m' where
  cap := by rw [f.capacity]; exact h.cap
  mask := by rw [f.mask, f.capacity]; exact h.mask
  hashes_len := by rw [f.hashes_len, f.capacity]; exact h.hashes_len
  keys_len := by rw [f.keys_len, f.capacity]; exact h.keys_len
  values_len := by rw [f.values_len, f.capacity]; exact h.values_len

theorem offset_exact (size pos cap : Nat) (hp : pos < cap) (hc : cap * size ≤ 4294967296) :
    u32 (u32 pos * u32 size) = pos * size ∧ pos * size + size ≤ cap * size := by
  have hle : (pos + 1) * size ≤ cap * size := Nat.mul_le_mul_right size hp
  have hin : pos * size + size ≤ cap * size := by
    rw [Nat.succ_mul] at hle; exact hle
  refine ⟨?_, hin⟩
  by_cases hs : size = 0
  · subst hs
    simp [u32]
  · have hs1 : 1 ≤ size := by omega
    unfold u32
    rw [← Nat.mul_mod]
    exact Nat.mod_eq_of_lt (by omega)

theorem length_write_cell {α : Type} (ov : Nat → α → Nat → α → Nat → α) (size : Nat)
    (off : Nat → Nat) (cells : List α) (pos : Nat) (cell : α) :
    (write_cell ov size off cells pos cell).length = cells.length := by
  unfold write_cell
  rw [List.length_zipWith, List.length_range, Nat.min_self]

theorem getElem?_write_cell {α : Type} (ov : Nat → α → Nat → α → Nat → α) (size : Nat)
    (off : Nat → Nat) (cells : List α) (pos : Nat) (cell : α) (q : Nat) :
    (write_cell ov size off cells pos cell)[q]? =
      (cells[q]?).map (fun old =>
        if q = pos then cell
        else if cells_overlap size (off q) (off pos) then
          if off q = off pos then cell else ov size old (off q) cell (off pos)
        else old) := by
  unfold write_cell
  rw [List.getElem?_zipWith]
  by_cases hq : q < cells.length
  · rw [List.getElem?_range hq, List.getElem?_eq_getElem hq]
    rfl
  · have h1 : cells[q]? = none := List.getElem?_eq_none (by omega)
    have h2 : (List.range cells.length)[q]? = none :=
      List.getElem?_eq_none (by rw [List.length_range]; omega)
    rw [h1, h2]
    rfl

theorem getD_write_cell_self {α : Type} (ov : Nat → α → Nat → α → Nat → α) (size : Nat)
    (off : Nat → Nat) (cells : List α) (pos : Nat) (cell d : α) (h : pos < cells.length) :
    (write_cell ov size off cells pos cell).getD pos d = cell := by
  rw [List.getD_eq_getElem?_getD, getElem?_write_cell, List.getElem?_eq_getElem h]
  simp

theorem write_cell_exact {α : Type} (ov : Nat → α → Nat → α → Nat → α) (size : Nat)
    (off : Nat → Nat) (cells : List α) (pos : Nat) (cell : α)
    (h : ∀ q, q < cells.length → q ≠ pos → cells_overlap size (off q) (off pos) = false) :
    write_cell ov size off cells pos cell = cells.set pos cell := by
  apply List.ext_getElem?
  intro q
  rw [getElem?_write_cell, List.getElem?_set]
  by_cases hq : q < cells.length
  · rw [List.getElem?_eq_getElem hq]
    by_cases hp : q = pos
    · subst hp
      simp [hq]
    · have := h q hq hp
      simp [hp, this, Ne.symm hp]
  · have h1 : cells[q]? = none := List.getElem?_eq_none (by omega)
    rw [h1]
    by_cases hp : pos = q
    · subst hp
      simp [hq]
    · simp [hp]

theorem overlap_of_exact (size cap q pos : Nat) (hc : cap * size ≤ 4294967296) (hq : q < cap)
    (hpos : pos < cap) (hne : q ≠ pos) :
    cells_overlap size (u32 (u32 q * u32 size)) (u32 (u32 pos * u32 size)) = false := by
  rw [(offset_exact size q cap hq hc).1, (offset_exact size pos cap hpos hc).1]
  unfold cells_overlap
  rcases Nat.lt_or_gt_of_ne hne with h | h
  · have := Nat.mul_le_mul_right size (Nat.succ_le_of_lt h)
    rw [Nat.succ_mul] at this
    simp only [Bool.and_eq_false_imp, decide_eq_true_eq, decide_eq_false_iff_not]
    intro _
    omega
  · have := Nat.mul_le_mul_right size (Nat.succ_le_of_lt h)
    rw [Nat.succ_mul] at this
    simp only [Bool.and_eq_false_imp, decide_eq_true_eq, decide_eq_false_iff_not]
    intro _
    omega

theorem length_store_key (cb : Callbacks K V) (m : smallmap_t K V) (pos : Nat) (cell : K) :
    (store_key cb m pos cell).length = m.keys_.length := length_write_cell _ _ _ _ _ _

theorem length_store_value (cb : Callbacks K V) (m : smallmap_t K V) (pos : Nat) (cell : V) :
    (store_value cb m pos cell).length = m.values_.length := length_write_cell _ _ _ _ _ _

theorem getD_store_key_self (cb : Callbacks K V) (m : smallmap_t K V) (pos : Nat) (cell d : K)
    (h : pos < m.keys_.length) : (store_key cb m pos cell).getD pos d = cell :=
  getD_write_cell_self _ _ _ _ _ _ _ h

theorem getD_store_value_self (cb : Callbacks K V) (m : smallmap_t K V) (pos : Nat) (cell d : V)
    (h : pos < m.values_.length) : (store_value cb m pos cell).getD pos d = cell :=
  getD_write_cell_self _ _ _ _ _ _ _ h

theorem store_key_exact (cb : Callbacks K V) {m : smallmap_t K V} (h : Shape m)
    (hx : ExactOffsets m) (pos : Nat) (hpos : pos < m.capacity_) (cell : K) :
    store_key cb m pos cell = m.keys_.set pos cell := by
  unfold store_key
  apply write_cell_exact
  intro q hq hne
  rw [h.keys_len] at hq
  exact overlap_of_exact m.key_size_ m.capacity_ q pos hx.1 hq hpos hne

theorem store_value_exact (cb : Callbacks K V) {m : smallmap_t K V} (h : Shape m)
    (hx : ExactOffsets m) (pos : Nat) (hpos : pos < m.capacity_) (cell : V) :
    store_value cb m pos cell = m.values_.set pos cell := by
  unfold store_value
  apply write_cell_exact
  intro q hq hne
  rw [h.values_len] at hq
  exact overlap_of_exact m.value_size_ m.capacity_ q pos hx.2 hq hpos hne

theorem add_item_at_frame (cb : Callbacks K V) (m : smallmap_t K V) (hash : Nat) (k : K) (v : V)
    (pos : Nat) : SameFrame m (sm_add_item_at cb m hash k v pos).2 := by
  unfold sm_add_item_at
  simp only []
  split
  · constructor <;> simp [length_store_key, length_store_value]
  · split <;> constructor <;> simp [length_store_key, length_store_value]

theorem add_item_at_word_ne (cb : Callbacks K V) (m : smallmap_t K V) (hash : Nat) (k : K)
    (v : V) (pos i : Nat) (hi : i ≠ pos) :
    (sm_add_item_at cb m hash k v pos).2.hashes_.getD i 0 = m.hashes_.getD i 0 := by
  unfold sm_add_item_at
  simp only []
  split
  · simp only [getD_set_ne _ _ _ _ _ (Ne.symm hi)]
  · split <;> simp only [getD_set_ne _ _ _ _ _ (Ne.symm hi)]

theorem add_item_at_slot_ne (cb : Callbacks K V) {m : smallmap_t K V} (h : Shape m)
    (hx : ExactOffsets m) (hash : Nat) (k : K) (v : V)
    (pos i : Nat) (hpos : pos < m.capacity_) (hi : i ≠ pos) :
    slot_at (sm_add_item_at cb m hash k v pos).2 i = slot_at m i := by
  unfold sm_add_item_at
  simp only []
  rw [store_key_exact cb h hx pos hpos, store_value_exact cb h hx pos hpos]
  split
  · simp only [slot_at, getD_set_ne _ _ _ _ _ (Ne.symm hi)]
  · split <;> simp only [slot_at, getD_set_ne _ _ _ _ _ (Ne.symm hi)]

theorem add_item_at_word (cb : Callbacks K V) {m : smallmap_t K V} (h : Shape m) (hash : Nat)
    (k : K) (v : V) (pos : Nat) (hpos : pos < m.capacity_) :
    (sm_add_item_at cb m hash k v pos).2.hashes_.getD pos 0 = u32 (hash ||| SM_EXIST_FLAG) := by
  have hl : pos < m.hashes_.length := by rw [h.hashes_len]; exact hpos
  unfold sm_add_item_at
  simp only []
  split
  · simp only [getD_set_self _ _ _ _ hl]
  · split <;> simp only [getD_set_self _ _ _ _ hl]

theorem add_item_at_true (cb : Callbacks K V) {m : smallmap_t K V} (h : Shape m) (hash : Nat)
    (k : K) (v : V) (pos : Nat) (hpos : pos < m.capacity_)
    (ht : (sm_add_item_at cb m hash k v pos).1 = true) :
    (cb.key_constructor_ (m.keys_.getD pos default) k).1 = true ∧
    (cb.value_constructor_ (m.values_.getD pos default) v).1 = true ∧
    slot_at (sm_add_item_at cb m hash k v pos).2 pos =
      (u32 (hash ||| SM_EXIST_FLAG), (cb.key_constructor_ (m.keys_.getD pos default) k).2,
        (cb.value_constructor_ (m.values_.getD pos default) v).2) ∧
    (sm_add_item_at cb m hash k v pos).2.trace_ =
      m.trace_ ++ [Event.key_constructor, Event.value_constructor] := by
  have hl : pos < m.hashes_.length := by rw [h.hashes_len]; exact hpos
  have hk : pos < m.keys_.length := by rw [h.keys_len]; exact hpos
  have hv : pos < m.values_.length := by rw [h.values_len]; exact hpos
  unfold sm_add_item_at at ht ⊢
  simp only [] at ht ⊢
  by_cases h1 : (cb.key_constructor_ (m.keys_.getD pos default) k).1 = true
  · by_cases h2 : (cb.value_constructor_ (m.values_.getD pos default) v).1 = true
    · simp only [h1, h2, Bool.not_true, Bool.false_eq_true, if_false, slot_at,
        getD_set_self _ _ _ _ hl, getD_store_key_self _ _ _ _ _ hk,
        getD_store_value_self _ _ _ _ _ hv]
      simp
    · simp [h1, h2, -List.getD_eq_getElem?_getD] at ht
  · simp [h1, -List.getD_eq_getElem?_getD] at ht

theorem move_item_at_frame (cb : Callbacks K V) (m : smallmap_t K V) (hash : Nat) (k : K) (v : V)
    (pos : Nat) : SameFrame m (sm_move_item_at cb m hash k v pos) := by
  unfold sm_move_item_at
  constructor <;> simp [length_store_key, length_store_value]

theorem move_item_at_word_ne (cb : Callbacks K V) (m : smallmap_t K V) (hash : Nat) (k : K)
    (v : V) (pos i : Nat) (hi : i ≠ pos) :
    (sm_move_item_at cb m hash k v pos).hashes_.getD i 0 = m.hashes_.getD i 0 := by
  unfold sm_move_item_at
  simp only [getD_set_ne _ _ _ _ _ (Ne.symm hi)]

theorem move_item_at_slot_ne (cb : Callbacks K V) {m : smallmap_t K V} (h : Shape m)
    (hx : ExactOffsets m) (hash : Nat) (k : K) (v : V)
    (pos i : Nat) (hpos : pos < m.capacity_) (hi : i ≠ pos) :
    slot_at (sm_move_item_at cb m hash k v pos) i = slot_at m i := by
  unfold sm_move_item_at
  rw [store_key_exact cb h hx pos hpos, store_value_exact cb h hx pos hpos]
  simp only [slot_at, getD_set_ne _ _ _ _ _ (Ne.symm hi)]

theorem move_item_at_slot (cb : Callbacks K V) {m : smallmap_t K V} (h : Shape m) (hash : Nat)
    (k : K) (v : V) (pos : Nat) (hpos : pos < m.capacity_) :
    slot_at (sm_move_item_at cb m hash k v pos) pos =
      (u32 (hash ||| SM_EXIST_FLAG), cb.key_move_ (m.keys_.getD pos default) k,
        cb.value_move_ (m.values_.getD pos default) v) := by
  have hl : pos < m.hashes_.length := by rw [h.hashes_len]; exact hpos
  have hk : pos < m.keys_.length := by rw [h.keys_len]; exact hpos
  have hv : pos < m.values_.length := by rw [h.values_len]; exact hpos
  unfold sm_move_item_at
  simp only [slot_at, getD_set_self _ _ _ _ hl, getD_store_key_self _ _ _ _ _ hk,
    getD_store_value_self _ _ _ _ _ hv]

theorem words_of_slots {m m' : smallmap_t K V} (pos : Nat)
    (hw : ∀ i, m.hashes_.getD i 0 < 4294967296)
    (hother : ∀ i, i ≠ pos → m'.hashes_.getD i 0 = m.hashes_.getD i 0)
    (hpos : m'.hashes_.getD pos 0 < 4294967296) :
    ∀ i, m'.hashes_.getD i 0 < 4294967296 := by
  intro i
  by_cases hi : i = pos
  · subst hi; exact hpos
  · rw [hother i hi]; exact hw i

theorem occupied_of_flagged {m : smallmap_t K V} {i h : Nat}
    (hw : m.hashes_.getD i 0 = u32 (h ||| SM_EXIST_FLAG)) : occupied m i = true := by
  unfold occupied
  rw [hw, is_empty_word_flagged]; rfl

theorem entries_upto_length_le (m : smallmap_t K V) (n : Nat) : (entries_upto m n).length ≤ n := by
  unfold entries_upto
  rw [List.length_map]
  calc ((List.range n).filter (occupied m)).length ≤ (List.range n).length :=
        List.length_filter_le _ _
    _ = n := List.length_range _

theorem SameFrame.refl (m : smallmap_t K V) : SameFrame m m := by
  constructor <;> rfl

theorem SameFrame.trans {a b c : smallmap_t K V} (h1 : SameFrame a b) (h2 : SameFrame b c) :
    SameFrame a c := by
  constructor
  · rw [h2.key_size, h1.key_size]
  · rw [h2.value_size, h1.value_size]
  · rw [h2.size, h1.size]
  · rw [h2.capacity, h1.capacity]
  · rw [h2.mask, h1.mask]
  · rw [h2.threshold, h1.threshold]
  · rw [h2.hashes_len, h1.hashes_len]
  · rw [h2.keys_len, h1.keys_len]
  · rw [h2.values_len, h1.values_len]

theorem expand_cond_iff (old : smallmap_t K V) (i : Nat) :
    (SM_EXIST_FLAG ≠ (old.hashes_.getD i 0 &&& SM_EXIST_FLAG)) ↔ occupied old i = false := by
  unfold occupied is_empty_word
  rw [Nat.land_comm]
  simp [-List.getD_eq_getElem?_getD]

theorem entries_of_zero (m : smallmap_t K V) (hz : ∀ j, m.hashes_.getD j 0 = 0) (n : Nat) :
    entries_upto m n = [] := by
  unfold entries_upto
  have : (List.range n).filter (occupied m) = [] := by
    rw [List.filter_eq_nil_iff]
    intro j _
    unfold occupied
    rw [hz j, is_empty_word_zero]; simp
  rw [this]; rfl

theorem entries_upto_insert_proj {β : Type} (proj : Nat × K × V → β) (m m' : smallmap_t K V)
    (pos n : Nat) (hpos : pos < n)
    (hother : ∀ i, i ≠ pos →
      proj (slot_at m' i) = proj (slot_at m i) ∧ occupied m' i = occupied m i)
    (he : occupied m pos = false) (ho : occupied m' pos = true) :
    ((entries_upto m' n).map proj).Perm (proj (slot_at m' pos) :: (entries_upto m n).map proj) := by
  unfold entries_upto
  rw [List.map_map, List.map_map]
  exact filter_map_insert (proj ∘ slot_at m) (proj ∘ slot_at m') _ _ pos hother he ho n hpos

theorem occupied_eq_of_word {m m' : smallmap_t K V} {i : Nat}
    (h : m'.hashes_.getD i 0 = m.hashes_.getD i 0) : occupied m' i = occupied m i := by
  unfold occupied
  rw [h]

theorem move_item_at_proj_ne {β : Type} (cb : Callbacks K V) (proj : Nat × K × V → β)
    {m : smallmap_t K V} (h : Shape m) (hmode : CellBlind proj ∨ ExactOffsets m)
    (hash : Nat) (k : K) (v : V) (pos i : Nat) (hpos : pos < m.capacity_) (hi : i ≠ pos) :
    proj (slot_at (sm_move_item_at cb m hash k v pos) i) = proj (slot_at m i) ∧
      occupied (sm_move_item_at cb m hash k v pos) i = occupied m i := by
  refine ⟨?_, occupied_eq_of_word (move_item_at_word_ne cb m hash k v pos i hi)⟩
  rcases hmode with hb | hx
  · unfold slot_at
    rw [move_item_at_word_ne cb m hash k v pos i hi]
    exact hb _ _ _ _ _
  · rw [move_item_at_slot_ne cb h hx hash k v pos i hpos hi]

theorem exact_offsets_of_frame {a b : smallmap_t K V} (h : SameFrame a b) (hx : ExactOffsets a) :
    ExactOffsets b := by
  unfold ExactOffsets at hx ⊢
  rw [h.capacity, h.key_size, h.value_size]
  exact hx

theorem expand_loop {β : Type} (cb : Callbacks K V) (proj : Nat × K × V → β)
    (old : smallmap_t K V) (hold : Shape old) (hwords : ∀ i, old.hashes_.getD i 0 < 4294967296)
    (map1 : smallmap_t K V) (h1 : Shape map1) (hcap : old.capacity_ < map1.capacity_)
    (hzero : ∀ j, map1.hashes_.getD j 0 = 0)
    (hmode : CellBlind proj ∨ (ExactOffsets map1 ∧ ∀ w dk sk dv sv,
      proj (w, cb.key_move_ dk sk, cb.value_move_ dv sv) = proj (w, sk, sv))) :
    ∀ i, i ≤ old.capacity_ → ∃ mi kv vv,
      (List.range i).foldlM (sm_expand_step cb old.hashes_) (map1, old.keys_, old.values_)
        = some (mi, kv, vv) ∧
      ExpandInv proj old map1 mi i ∧
      (ExactOffsets map1 → kv.length = old.keys_.length ∧ vv.length = old.values_.length ∧
        ∀ j, i ≤ j → kv.getD j default = old.keys_.getD j default ∧
          vv.getD j default = old.values_.getD j default) := by
  intro i
  induction i with
  | zero =>
    intro _
    refine ⟨map1, old.keys_, old.values_, rfl, ⟨SameFrame.refl _, ?_, ?_, ?_⟩, ?_⟩
    · intro j; rw [hzero j]; omega
    · unfold entries
      rw [entries_of_zero map1 hzero]
      simp [entries_upto]
    · simp [entries_upto, move_events]
    · intro _
      exact ⟨rfl, rfl, fun j _ => ⟨rfl, rfl⟩⟩
  | succ i ih =>
    intro hi
    obtain ⟨mi, kv, vv, hfold, hinv, hviews⟩ := ih (by omega)
    have hshape : Shape mi := hinv.frame.shape h1
    rw [List.range_succ, List.foldlM_append, hfold]
    simp only [Option.bind_eq_bind, Option.some_bind, List.foldlM_cons, List.foldlM_nil]
    by_cases ho : occupied old i = true
    · have hne : ¬ (SM_EXIST_FLAG ≠ (old.hashes_.getD i 0 &&& SM_EXIST_FLAG)) := by
        rw [expand_cond_iff, ho]; simp
      have hcount : occupied_count mi < mi.capacity_ := by
        rw [occupied_count_eq]
        have hl := hinv.perm.length_eq
        rw [List.length_map, List.length_map] at hl
        have := entries_upto_length_le old i
        rw [hinv.frame.capacity]; omega
      obtain ⟨pos, hpos⟩ := first_free_isSome mi (old.hashes_.getD i 0 &&& SM_HASH_MASK) hcount
      obtain ⟨hposlt, hposempty⟩ := first_free_some _ _ _ hpos
      have hw : u32 ((old.hashes_.getD i 0 &&& SM_HASH_MASK) ||| SM_EXIST_FLAG)
          = old.hashes_.getD i 0 := by
        apply reflag _ (hwords i)
        unfold occupied at ho
        simpa [-List.getD_eq_getElem?_getD] using ho
      have hstep : sm_expand_step cb old.hashes_ (mi, kv, vv) i = some
          ({ sm_move_item_at cb mi (old.hashes_.getD i 0 &&& SM_HASH_MASK)
              (kv.getD i default) (vv.getD i default) pos with
            trace_ := (sm_move_item_at cb mi (old.hashes_.getD i 0 &&& SM_HASH_MASK)
              (kv.getD i default) (vv.getD i default) pos).trace_ ++
                [Event.key_destructor, Event.value_destructor] },
            write_cell cb.key_overlap_ mi.key_size_ (key_offset mi) kv i
              (cb.key_destructor_ (kv.getD i default)),
            write_cell cb.value_overlap_ mi.value_size_ (value_offset mi) vv i
              (cb.value_destructor_ (vv.getD i default))) := by
        unfold sm_expand_step
        rw [if_neg hne]
        simp only []
        rw [sm_move_item_eq cb hshape, hpos]
      rw [hstep]
      have hs := move_item_at_slot cb hshape (old.hashes_.getD i 0 &&& SM_HASH_MASK)
        (kv.getD i default) (vv.getD i default) pos hposlt
      have hword : (sm_move_item_at cb mi (old.hashes_.getD i 0 &&& SM_HASH_MASK)
          (kv.getD i default) (vv.getD i default) pos).hashes_.getD pos 0
          = u32 ((old.hashes_.getD i 0 &&& SM_HASH_MASK) ||| SM_EXIST_FLAG) := by
        have : (slot_at (sm_move_item_at cb mi (old.hashes_.getD i 0 &&& SM_HASH_MASK)
            (kv.getD i default) (vv.getD i default) pos) pos).1
            = u32 ((old.hashes_.getD i 0 &&& SM_HASH_MASK) ||| SM_EXIST_FLAG) := by rw [hs]
        exact this
      have hmode' : CellBlind proj ∨ ExactOffsets mi :=
        hmode.imp id (fun hx => exact_offsets_of_frame hinv.frame hx.1)
      refine ⟨_, _, _, rfl, ⟨?_, ?_, ?_, ?_⟩, ?_⟩
      · have := move_item_at_frame cb mi (old.hashes_.getD i 0 &&& SM_HASH_MASK)
          (kv.getD i default) (vv.getD i default) pos
        exact hinv.frame.trans ⟨this.key_size, this.value_size, this.size, this.capacity,
          this.mask, this.threshold, this.hashes_len, this.keys_len, this.values_len⟩
      · apply words_of_slots pos hinv.words
        · intro j hj
          exact move_item_at_word_ne cb mi (old.hashes_.getD i 0 &&& SM_HASH_MASK)
            (kv.getD i default) (vv.getD i default) pos j hj
        · show (sm_move_item_at cb mi (old.hashes_.getD i 0 &&& SM_HASH_MASK)
              (kv.getD i default) (vv.getD i default) pos).hashes_.getD pos 0 < _
          rw [hword]; exact u32_lt _
      · have hocc : occupied (sm_move_item_at cb mi (old.hashes_.getD i 0 &&& SM_HASH_MASK)
              (kv.getD i default) (vv.getD i default) pos) pos = true :=
          occupied_of_flagged hword
        have hp := entries_upto_insert_proj proj mi (sm_move_item_at cb mi
          (old.hashes_.getD i 0 &&& SM_HASH_MASK) (kv.getD i default)
          (vv.getD i default) pos) pos mi.capacity_ hposlt
          (fun j hj => move_item_at_proj_ne cb proj hshape hmode'
            (old.hashes_.getD i 0 &&& SM_HASH_MASK) (kv.getD i default) (vv.getD i default)
            pos j hposlt hj)
          (by unfold occupied; rw [hposempty]; rfl) hocc
        rw [hs, hw] at hp
        have hcell : proj (old.hashes_.getD i 0,
            cb.key_move_ (mi.keys_.getD pos default) (kv.getD i default),
            cb.value_move_ (mi.values_.getD pos default) (vv.getD i default))
            = proj (slot_at old i) := by
          rcases hmode with hb | ⟨hx, hproj⟩
          · exact hb _ _ _ _ _
          · rw [hproj, ((hviews hx).2.2 i (Nat.le_refl _)).1,
              ((hviews hx).2.2 i (Nat.le_refl _)).2]
            rfl
        rw [hcell] at hp
        rw [entries_upto_succ, if_pos ho, List.map_append]
        refine List.Perm.trans ?_ (List.perm_append_singleton _ _).symm
        refine List.Perm.trans ?_ (List.Perm.cons _ hinv.perm)
        exact hp
      · rw [entries_upto_succ, if_pos ho]
        simp only [List.length_append, List.length_singleton, move_events]
        show (sm_move_item_at cb mi _ _ _ pos).trace_ ++ _ = _
        unfold sm_move_item_at
        simp only [hinv.trace, List.append_assoc]
        rfl
      · intro hx
        obtain ⟨hkl, hvl, hrest⟩ := hviews hx
        have hck : old.capacity_ * mi.key_size_ ≤ 4294967296 := by
          have h2 := hx.1
          rw [hinv.frame.key_size]
          exact Nat.le_trans (Nat.mul_le_mul_right _ (Nat.le_of_lt hcap)) h2
        have hcv : old.capacity_ * mi.value_size_ ≤ 4294967296 := by
          have h2 := hx.2
          rw [hinv.frame.value_size]
          exact Nat.le_trans (Nat.mul_le_mul_right _ (Nat.le_of_lt hcap)) h2
        have hkw : write_cell cb.key_overlap_ mi.key_size_ (key_offset mi) kv i
            (cb.key_destructor_ (kv.getD i default))
            = kv.set i (cb.key_destructor_ (kv.getD i default)) := by
          apply write_cell_exact
          intro q hq hqne
          rw [hkl, hold.keys_len] at hq
          exact overlap_of_exact mi.key_size_ old.capacity_ q i hck hq (by omega) hqne
        have hvw : write_cell cb.value_overlap_ mi.value_size_ (value_offset mi) vv i
            (cb.value_destructor_ (vv.getD i default))
            = vv.set i (cb.value_destructor_ (vv.getD i default)) := by
          apply write_cell_exact
          intro q hq hqne
          rw [hvl, hold.values_len] at hq
          exact overlap_of_exact mi.value_size_ old.capacity_ q i hcv hq (by omega) hqne
        rw [hkw, hvw]
        refine ⟨by rw [List.length_set, hkl], by rw [List.length_set, hvl], ?_⟩
        intro j hj
        rw [getD_set_ne _ _ _ _ _ (by omega), getD_set_ne _ _ _ _ _ (by omega)]
        exact hrest j (by omega)
    · have hoF : occupied old i = false := by simpa using ho
      have hne : SM_EXIST_FLAG ≠ (old.hashes_.getD i 0 &&& SM_EXIST_FLAG) := by
        rw [expand_cond_iff]; exact hoF
      have hstep : sm_expand_step cb old.hashes_ (mi, kv, vv) i = some (mi, kv, vv) := by
        unfold sm_expand_step
        rw [if_pos hne]
      rw [hstep]
      refine ⟨mi, kv, vv, rfl, ⟨hinv.frame, hinv.words, ?_, ?_⟩, ?_⟩
      · rw [entries_upto_succ, hoF]; simpa using hinv.perm
      · rw [entries_upto_succ, hoF]; simpa using hinv.trace
      · intro hx
        obtain ⟨hkl, hvl, hrest⟩ := hviews hx
        exact ⟨hkl, hvl, fun j hj => hrest j (by omega)⟩

theorem next_capacity_eq {m : smallmap_t K V} (h : WF m) :
    (if m.capacity_ ≤ 0 then 16 else u64 (m.capacity_ <<< 1)) = 2 * m.capacity_ := by
  have h16 := h.cap16
  have hle := h.shape.cap_le
  rw [if_neg (by omega), Nat.shiftLeft_eq]
  unfold u64
  rw [Nat.mod_eq_of_lt (by omega)]
  omega

theorem sm_expand_full (cb : Callbacks K V) {m : smallmap_t K V} (h : WF m)
    (hcap : m.capacity_ = 2147483648) (alloc_ok : Bool) :
    sm_expand cb m alloc_ok = some (false, m) := by
  unfold sm_expand
  simp only []
  rw [next_capacity_eq h, hcap]
  simp [SM_INVALID]

theorem sm_expand_alloc_fail (cb : Callbacks K V) {m : smallmap_t K V} (h : WF m)
    (hcap : m.capacity_ < 2147483648) :
    sm_expand cb m false =
      some (false, { m with trace_ := m.trace_ ++ [Event.allocate false] }) := by
  unfold sm_expand
  simp only []
  rw [next_capacity_eq h]
  have : ¬ SM_INVALID ≤ 2 * m.capacity_ := by unfold SM_INVALID; omega
  rw [if_neg this]
  simp

theorem fresh_shape {m : smallmap_t K V} (h : WF m) (hcap : m.capacity_ < 2147483648)
    (m1 : smallmap_t K V) (hc : m1.capacity_ = 2 * m.capacity_)
    (hm : m1.mask_ = 2 * m.capacity_ - 1)
    (hh : m1.hashes_ = List.replicate (2 * m.capacity_) 0)
    (hk : m1.keys_ = List.replicate (2 * m.capacity_) default)
    (hv : m1.values_ = List.replicate (2 * m.capacity_) default) : Shape m1 := by
  obtain ⟨n, hn, hcn⟩ := h.shape.cap
  have hn30 : n + 1 ≤ 31 := by
    by_contra hcon
    have : n = 31 := by omega
    subst this
    rw [hcn] at hcap
    norm_num at hcap
  refine ⟨⟨n + 1, hn30, ?_⟩, ?_, ?_, ?_, ?_⟩
  · rw [hc, hcn, Nat.pow_succ]; omega
  · rw [hm, hc]
  · rw [hh, hc, List.length_replicate]
  · rw [hk, hc, List.length_replicate]
  · rw [hv, hc, List.length_replicate]

theorem sm_threshold_lt (c : Nat) (hc : 0 < c) : sm_threshold c < c := by
  unfold sm_threshold
  apply Nat.div_lt_of_lt_mul
  omega

theorem sm_expand_ok {β : Type} (cb : Callbacks K V) (proj : Nat × K × V → β)
    {m : smallmap_t K V}
    (hmode : CellBlind proj ∨
      ((2 * m.capacity_ * m.key_size_ ≤ 4294967296 ∧
          2 * m.capacity_ * m.value_size_ ≤ 4294967296) ∧
        ∀ w dk sk dv sv, proj (w, cb.key_move_ dk sk, cb.value_move_ dv sv) = proj (w, sk, sv)))
    (h : WF m) (hcap : m.capacity_ < 2147483648) :
    ∃ m', sm_expand cb m true = some (true, m') ∧ WF m' ∧
      m'.capacity_ = 2 * m.capacity_ ∧ m'.size_ = m.size_ ∧
      m'.key_size_ = m.key_size_ ∧ m'.value_size_ = m.value_size_ ∧
      ((entries m').map proj).Perm ((entries m).map proj) ∧
      m'.trace_ = m.trace_ ++ [Event.allocate true] ++ move_events (entries m).length
        ++ [Event.deallocate Ptr.buffer] := by
  have h16 := h.cap16
  let map1 : smallmap_t K V :=
    { m with
      trace_ := m.trace_ ++ [Event.allocate true],
      capacity_ := 2 * m.capacity_,
      mask_ := 2 * m.capacity_ - 1,
      resize_threshold_ := sm_threshold (2 * m.capacity_),
      hashes_ := List.replicate (2 * m.capacity_) 0,
      keys_ := List.replicate (2 * m.capacity_) default,
      values_ := List.replicate (2 * m.capacity_) default }
  have hs1 : Shape map1 := fresh_shape h hcap map1 rfl rfl rfl rfl rfl
  have hz : ∀ j, map1.hashes_.getD j 0 = 0 := fun j => getD_replicate _ _ _
  obtain ⟨m2, kv, vv, hfold, hinv, _⟩ := expand_loop cb proj m h.shape h.words map1 hs1
    (by show m.capacity_ < 2 * m.capacity_; omega) hz
    (hmode.imp id (fun hx => ⟨hx.1, hx.2⟩)) m.capacity_ (Nat.le_refl _)
  have hexp : sm_expand cb m true = some (true, { m2 with trace_ := m2.trace_ ++
      [Event.deallocate Ptr.buffer] }) := by
    unfold sm_expand
    simp only []
    rw [next_capacity_eq h]
    have : ¬ SM_INVALID ≤ 2 * m.capacity_ := by unfold SM_INVALID; omega
    rw [if_neg this]
    simp only [Bool.not_true, Bool.false_eq_true, if_false]
    rw [hfold]
    have hne : m.capacity_ ≠ 0 := by omega
    simp only [if_neg hne]
  refine ⟨_, hexp, ?_, ?_, ?_, ?_, ?_, ?_, ?_⟩
  · refine ⟨?_, hinv.words, ?_, ?_⟩
    · exact (SameFrame.trans (a := map1) (b := m2) (c := { m2 with trace_ := m2.trace_ ++
        [Event.deallocate Ptr.buffer] }) hinv.frame ⟨rfl, rfl, rfl, rfl, rfl, rfl, rfl, rfl, rfl⟩).shape hs1
    · show m2.capacity_ ≥ 16
      rw [hinv.frame.capacity]; show 16 ≤ 2 * m.capacity_; omega
    · show m2.resize_threshold_ = sm_threshold m2.capacity_
      rw [hinv.frame.threshold, hinv.frame.capacity]
  · show m2.capacity_ = _
    rw [hinv.frame.capacity]
  · show m2.size_ = _
    rw [hinv.frame.size]
  · show m2.key_size_ = _
    rw [hinv.frame.key_size]
  · show m2.value_size_ = _
    rw [hinv.frame.value_size]
  · exact hinv.perm
  · show m2.trace_ ++ _ = _
    rw [hinv.trace]
    rfl

/-! ### `sm_add`, `sm_remove` and reachable maps -/

theorem first_match_ne_invalid (cb : Callbacks K V) {m : smallmap_t K V} (h : Shape m)
    (hash : Nat) (key : K) (p : Nat) (hp : first_match cb m hash key = some p) :
    p ≠ SM_INVALID := by
  have h1 := (first_match_some cb m hash key p hp).1
  have h2 := h.cap_le
  unfold SM_INVALID; omega

theorem sm_find__invalid_iff (cb : Callbacks K V) {m : smallmap_t K V} (h : Shape m)
    (hash : Nat) (key : K) :
    sm_find_ cb m hash key = some SM_INVALID ↔ first_match cb m hash key = none := by
  rw [sm_find__eq cb h]
  cases hf : first_match cb m hash key with
  | none => simp
  | some p =>
    have := first_match_ne_invalid cb h hash key p hf
    simp [this]

theorem sm_add_present (cb : Callbacks K V) {m : smallmap_t K V} (h : Shape m) (k : K) (v : V)
    (a : Bool) (p : Nat) (hp : first_match cb m (sm_hash cb k) k = some p) :
    sm_add cb m k v a = some (false, m) := by
  unfold sm_add
  simp only []
  rw [sm_find__eq cb h, hp]
  have := first_match_ne_invalid cb h _ k p hp
  simp [Ne.symm this]

theorem WF.with_trace {m : smallmap_t K V} (h : WF m) (t : List Event) :
    WF { m with trace_ := t } :=
  ⟨⟨h.shape.cap, h.shape.mask, h.shape.hashes_len, h.shape.keys_len, h.shape.values_len⟩,
    h.words, h.cap16, h.threshold⟩

theorem WF.with_size {m : smallmap_t K V} (h : WF m) (s : Nat) :
    WF { m with size_ := s } :=
  ⟨⟨h.shape.cap, h.shape.mask, h.shape.hashes_len, h.shape.keys_len, h.shape.values_len⟩,
    h.words, h.cap16, h.threshold⟩

theorem resize_cases {β : Type} (cb : Callbacks K V) (proj : Nat × K × V → β)
    {m : smallmap_t K V} (h : WF m) (a : Bool)
    (hmode : CellBlind proj ∨
      ((∀ m1, sm_add_resize cb m a = some m1 → ExactOffsets m1) ∧
        ∀ w dk sk dv sv, proj (w, cb.key_move_ dk sk, cb.value_move_ dv sv) = proj (w, sk, sv))) :
    ∃ m1, sm_add_resize cb m a = some m1 ∧ WF m1 ∧ m1.size_ = m.size_ ∧
      ((entries m1).map proj).Perm ((entries m).map proj) ∧
      (m1 = m ∧ (m.size_ < m.resize_threshold_ ∨ m.capacity_ = 2147483648)
        ∨ m1 = { m with trace_ := m.trace_ ++ [Event.allocate false] } ∧ a = false
            ∧ m.resize_threshold_ ≤ m.size_ ∧ m.capacity_ < 2147483648
        ∨ a = true ∧ m.resize_threshold_ ≤ m.size_ ∧ m.capacity_ < 2147483648
            ∧ m1.capacity_ = 2 * m.capacity_
            ∧ m1.trace_ = m.trace_ ++ [Event.allocate true] ++ move_events (entries m).length
                ++ [Event.deallocate Ptr.buffer]) := by
  by_cases hthr : m.resize_threshold_ ≤ m.size_
  · by_cases hcap : m.capacity_ < 2147483648
    · cases a with
      | false =>
        unfold sm_add_resize
        rw [if_pos hthr, sm_expand_alloc_fail cb h hcap]
        exact ⟨{ m with trace_ := m.trace_ ++ [Event.allocate false] }, rfl, h.with_trace _, rfl,
          List.Perm.refl _, Or.inr (Or.inl ⟨rfl, rfl, hthr, hcap⟩)⟩
      | true =>
        obtain ⟨m0, he0, _, hc0, _, hk0, hv0, _, _⟩ :=
          sm_expand_ok cb (fun e => e.1) (Or.inl (fun _ _ _ _ _ => rfl)) h hcap
        have hres0 : sm_add_resize cb m true = some m0 := by
          unfold sm_add_resize
          rw [if_pos hthr, he0]
          rfl
        have hmode' : CellBlind proj ∨
            ((2 * m.capacity_ * m.key_size_ ≤ 4294967296 ∧
                2 * m.capacity_ * m.value_size_ ≤ 4294967296) ∧
              ∀ w dk sk dv sv,
                proj (w, cb.key_move_ dk sk, cb.value_move_ dv sv) = proj (w, sk, sv)) := by
          rcases hmode with hb | ⟨hx, hp⟩
          · exact Or.inl hb
          · have := hx m0 hres0
            unfold ExactOffsets at this
            rw [hc0, hk0, hv0] at this
            exact Or.inr ⟨this, hp⟩
        obtain ⟨m', he, hwf, hc, hs, _, _, hperm, htr⟩ := sm_expand_ok cb proj hmode' h hcap
        unfold sm_add_resize
        rw [if_pos hthr, he]
        exact ⟨m', rfl, hwf, hs, hperm, Or.inr (Or.inr ⟨rfl, hthr, hcap, hc, htr⟩)⟩
    · have hcap' : m.capacity_ = 2147483648 := by
        have := h.shape.cap_le; omega
      unfold sm_add_resize
      rw [if_pos hthr, sm_expand_full cb h hcap']
      exact ⟨m, rfl, h, rfl, List.Perm.refl _, Or.inl ⟨rfl, Or.inr hcap'⟩⟩
  · unfold sm_add_resize
    rw [if_neg hthr]
    exact ⟨m, rfl, h, rfl, List.Perm.refl _, Or.inl ⟨rfl, Or.inl (by omega)⟩⟩

theorem sm_add_absent (cb : Callbacks K V) {m : smallmap_t K V} (h : Shape m) (k : K) (v : V)
    (a : Bool) (hp : first_match cb m (sm_hash cb k) k = none) (m1 : smallmap_t K V)
    (h1 : Shape m1)
    (hm1 : sm_add_resize cb m a = some m1) :
    sm_add cb m k v a = some (match first_free m1 (sm_hash cb k) with
      | none => (false, m1)
      | some pos =>
        if (sm_add_item_at cb m1 (sm_hash cb k) k v pos).1 then
          (true, { (sm_add_item_at cb m1 (sm_hash cb k) k v pos).2 with
            size_ := u64 ((sm_add_item_at cb m1 (sm_hash cb k) k v pos).2.size_ + 1) })
        else (false, (sm_add_item_at cb m1 (sm_hash cb k) k v pos).2)) := by
  unfold sm_add
  simp only []
  rw [sm_find__eq cb h, hp]
  simp only [Option.getD_none, ne_eq, not_true_eq_false, if_false]
  unfold sm_add_resize at hm1
  rw [hm1]
  simp only []
  rw [sm_add_item_eq cb h1]
  cases hff : first_free m1 (sm_hash cb k) with
  | none => rfl
  | some pos =>
    simp only []
    cases hr : sm_add_item_at cb m1 (sm_hash cb k) k v pos with
    | mk b m2 =>
      cases b <;> simp

theorem sm_construct_eq (cb : Callbacks K V) (key_size value_size : Nat) (a1 a2 : Bool) :
    sm_construct cb key_size value_size a1 a2 = some (
      if a1 = false then (none, [Event.allocate false])
      else if a2 = false then
        (none, [Event.allocate true, Event.allocate false, Event.deallocate Ptr.null,
          Event.deallocate Ptr.map])
      else (some (fresh_map key_size value_size),
        [Event.allocate true, Event.allocate true, Event.deallocate Ptr.null])) := by
  cases a1 <;> cases a2 <;>
    simp [sm_construct, sm_expand, sm_destruct, fresh_map, sm_threshold, SM_INVALID]

theorem fresh_map_wf (key_size value_size : Nat) : WF (fresh_map key_size value_size : smallmap_t K V) := by
  refine ⟨⟨⟨4, by decide, rfl⟩, rfl, rfl, rfl, rfl⟩, ?_, Nat.le_refl 16, ?_⟩
  · intro i
    show (List.replicate 16 0).getD i 0 < _
    rw [getD_replicate]; omega
  · show 11 = sm_threshold 16
    decide

theorem fresh_map_entries (key_size value_size : Nat) :
    entries (fresh_map key_size value_size : smallmap_t K V) = [] :=
  entries_of_zero _ (fun _ => getD_replicate _ _ _) _

theorem sm_construct_some (cb : Callbacks K V) (key_size value_size : Nat) (a1 a2 : Bool)
    (m : smallmap_t K V) (t : List Event)
    (h : sm_construct cb key_size value_size a1 a2 = some (some m, t)) :
    m = fresh_map key_size value_size := by
  rw [sm_construct_eq] at h
  cases a1 <;> cases a2 <;> simp at h
  exact h.1.symm

theorem remove_at_word_ne (cb : Callbacks K V) (m : smallmap_t K V) (pos i : Nat)
    (hi : i ≠ pos) : (sm_remove_at cb m pos).hashes_.getD i 0 = m.hashes_.getD i 0 := by
  unfold sm_remove_at
  simp only [getD_set_ne _ _ _ _ _ (Ne.symm hi)]

theorem remove_at_frame_slots (cb : Callbacks K V) {m : smallmap_t K V} (h : Shape m)
    (hx : ExactOffsets m) (pos i : Nat) (hpos : pos < m.capacity_)
    (hi : i ≠ pos) : slot_at (sm_remove_at cb m pos) i = slot_at m i := by
  unfold sm_remove_at
  rw [store_key_exact cb h hx pos hpos, store_value_exact cb h hx pos hpos]
  simp only [slot_at, getD_set_ne _ _ _ _ _ (Ne.symm hi)]

theorem remove_at_word (cb : Callbacks K V) {m : smallmap_t K V} (h : Shape m) (pos : Nat)
    (hpos : pos < m.capacity_) : (sm_remove_at cb m pos).hashes_.getD pos 0 = 0 := by
  have hl : pos < m.hashes_.length := by rw [h.hashes_len]; exact hpos
  unfold sm_remove_at
  simp only [getD_set_self _ _ _ _ hl]

theorem remove_at_frame (cb : Callbacks K V) (m : smallmap_t K V) (pos : Nat) :
    SameFrame { m with size_ := u64 (m.size_ + 18446744073709551615) } (sm_remove_at cb m pos) := by
  unfold sm_remove_at
  constructor <;> simp [length_store_key, length_store_value]

theorem remove_at_hashes (cb : Callbacks K V) (m : smallmap_t K V) (pos : Nat) :
    (sm_remove_at cb m pos).hashes_ = m.hashes_.set pos 0 := by
  unfold sm_remove_at; rfl

theorem remove_at_wf (cb : Callbacks K V) {m : smallmap_t K V} (h : WF m) (pos : Nat) :
    WF (sm_remove_at cb m pos) := by
  have hf := remove_at_frame cb m pos
  refine ⟨hf.shape (h.with_size _).shape, ?_, ?_, ?_⟩
  · intro i
    rw [remove_at_hashes]
    by_cases hi : pos = i
    · subst hi
      by_cases hl : pos < m.hashes_.length
      · rw [getD_set_self _ _ _ _ hl]; omega
      · rw [List.getD_eq_default _ _ (by rw [List.length_set]; omega)]; omega
    · rw [getD_set_ne _ _ _ _ _ hi]; exact h.words i
  · rw [hf.capacity]; exact h.cap16
  · rw [hf.threshold, hf.capacity]; exact h.threshold

theorem add_item_at_wf (cb : Callbacks K V) {m : smallmap_t K V} (h : WF m) (hash : Nat)
    (k : K) (v : V) (pos : Nat) (hpos : pos < m.capacity_) :
    WF (sm_add_item_at cb m hash k v pos).2 := by
  have hf := add_item_at_frame cb m hash k v pos
  refine ⟨hf.shape h.shape, ?_, ?_, ?_⟩
  · apply words_of_slots pos h.words (fun i hi => add_item_at_word_ne cb m hash k v pos i hi)
    rw [add_item_at_word cb h.shape hash k v pos hpos]
    exact u32_lt _
  · rw [hf.capacity]; exact h.cap16
  · rw [hf.threshold, hf.capacity]; exact h.threshold

theorem sm_add_wf (cb : Callbacks K V) {m : smallmap_t K V} (h : WF m) (k : K) (v : V) (a : Bool) :
    ∃ b m', sm_add cb m k v a = some (b, m') ∧ WF m' := by
  cases hp : first_match cb m (sm_hash cb k) k with
  | some p => exact ⟨false, m, sm_add_present cb h.shape k v a p hp, h⟩
  | none =>
    obtain ⟨m1, hm1, hwf1, _, _, _⟩ :=
      resize_cases cb (fun e => e.1) h a (Or.inl (fun _ _ _ _ _ => rfl))
    rw [sm_add_absent cb h.shape k v a hp m1 hwf1.shape hm1]
    cases hff : first_free m1 (sm_hash cb k) with
    | none => exact ⟨false, m1, rfl, hwf1⟩
    | some pos =>
      have hpos := (first_free_some _ _ _ hff).1
      have hw := add_item_at_wf cb hwf1 (sm_hash cb k) k v pos hpos
      simp only []
      by_cases hb : (sm_add_item_at cb m1 (sm_hash cb k) k v pos).1 = true
      · rw [if_pos hb]
        exact ⟨true, _, rfl, hw.with_size _⟩
      · rw [if_neg hb]
        exact ⟨false, _, rfl, hw⟩

theorem sm_find_eq (cb : Callbacks K V) {m : smallmap_t K V} (h : Shape m) (key : K) :
    sm_find cb m key = some ((first_match cb m (sm_hash cb key) key).getD SM_INVALID) :=
  sm_find__eq cb h _ key

theorem sm_remove_wf (cb : Callbacks K V) {m : smallmap_t K V} (h : WF m) (k : K) :
    ∃ m', sm_remove cb m k = some m' ∧ WF m' := by
  unfold sm_remove
  rw [sm_find_eq cb h.shape]
  simp only []
  split
  · exact ⟨m, rfl, h⟩
  · exact ⟨_, rfl, remove_at_wf cb h _⟩

theorem reachable_wf (cb : Callbacks K V) {m : smallmap_t K V} (h : Reachable cb m) : WF m := by
  induction h with
  | construct ks vs a1 a2 m t hc =>
    rw [sm_construct_some cb ks vs a1 a2 m t hc]; exact fresh_map_wf ks vs
  | add m m' k v a b _ hadd ih =>
    obtain ⟨b', m'', h1, h2⟩ := sm_add_wf cb ih k v a
    rw [h1] at hadd
    cases hadd
    exact h2
  | remove m m' k _ hrem ih =>
    obtain ⟨m'', h1, h2⟩ := sm_remove_wf cb ih k
    rw [h1] at hrem
    cases hrem
    exact h2
  | remove_at m k pos _ _ _ ih => exact remove_at_wf cb ih pos

/-! ### Lookup -/

theorem sm_hash_lt (cb : Callbacks K V) (key : K) : sm_hash cb key < 2147483648 := by
  unfold sm_hash SM_HASH_MASK
  have : u32 (cb.hasher_ key) &&& 2147483647 ≤ 2147483647 := Nat.and_le_right
  omega

theorem u32_flagged (h : Nat) (hh : h < 2147483648) :
    u32 (h ||| SM_EXIST_FLAG) = h ||| SM_EXIST_FLAG := by
  unfold u32
  apply Nat.mod_eq_of_lt
  have : h ||| SM_EXIST_FLAG < 2 ^ 32 :=
    Nat.or_lt_two_pow (by norm_num; omega) (by unfold SM_EXIST_FLAG; norm_num)
  norm_num at this; exact this

theorem slot_matches_iff (cb : Callbacks K V) (m : smallmap_t K V) (key : K) (i : Nat) :
    slot_matches cb m (sm_hash cb key) key i = true ↔
      m.hashes_.getD i 0 = sm_hash cb key ||| SM_EXIST_FLAG ∧
        cb.compare_ (m.keys_.getD i default) key = true := by
  unfold slot_matches
  rw [u32_flagged _ (sm_hash_lt cb key)]
  simp [-List.getD_eq_getElem?_getD]

theorem first_match_order (cb : Callbacks K V) (m : smallmap_t K V) (hash : Nat) (key : K) (p : Nat)
    (h : first_match cb m hash key = some p) :
    ∃ j, j < m.capacity_ ∧ p = (hash % m.capacity_ + j) % m.capacity_ ∧
      ∀ j', j' < j →
        slot_matches cb m hash key ((hash % m.capacity_ + j') % m.capacity_) = false := by
  unfold first_match probe_order at h
  rw [List.find?_map] at h
  cases hf : (List.range m.capacity_).find?
      (slot_matches cb m hash key ∘ fun j => (hash % m.capacity_ + j) % m.capacity_) with
  | none => rw [hf] at h; simp at h
  | some j =>
    rw [hf] at h
    simp only [Option.map_some', Option.some.injEq] at h
    rw [List.find?_range_eq_some] at hf
    refine ⟨j, List.mem_range.mp hf.2.1, h.symm, ?_⟩
    intro j' hj'
    have := hf.2.2 j' hj'
    simpa using this

/-- C5: on a table whose capacity is a power of two (below `SM_INVALID`) with
`mask_ = capacity_ - 1`, `sm_find` returns; it returns `SM_INVALID` exactly
when no slot of the whole table has the metadata word `h | 0x80000000` and a
stored key accepted by `compare_`, where `h = hasher_(key) & 0x7FFFFFFF`;
otherwise it returns the first such slot of the probe sequence
`(h & mask_) + j` modulo the capacity, whatever the slots before it hold, and
that index is below the capacity, hence different from `SM_INVALID`. -/
theorem sm_find_first_match (cb : Callbacks K V) (m : smallmap_t K V) (hm : Shape m) (key : K) :
    ∃ r, sm_find cb m key = some r ∧
      (r = SM_INVALID ↔ ∀ i, i < m.capacity_ →
        ¬ (m.hashes_.getD i 0 = sm_hash cb key ||| SM_EXIST_FLAG ∧
            cb.compare_ (m.keys_.getD i default) key = true)) ∧
      (r ≠ SM_INVALID → r < m.capacity_ ∧ m.capacity_ < SM_INVALID ∧
        ∃ j, j < m.capacity_ ∧ r = (u32 (sm_hash cb key &&& m.mask_) + j) % m.capacity_ ∧
          (m.hashes_.getD r 0 = sm_hash cb key ||| SM_EXIST_FLAG ∧
            cb.compare_ (m.keys_.getD r default) key = true) ∧
          ∀ j', j' < j →
            ¬ (m.hashes_.getD ((u32 (sm_hash cb key &&& m.mask_) + j') % m.capacity_) 0
                  = sm_hash cb key ||| SM_EXIST_FLAG ∧
                cb.compare_ (m.keys_.getD
                  ((u32 (sm_hash cb key &&& m.mask_) + j') % m.capacity_) default) key = true)) := by
  rw [sm_find_eq cb hm, hm.start_eq]
  refine ⟨_, rfl, ?_, ?_⟩
  · cases hf : first_match cb m (sm_hash cb key) key with
    | none =>
      simp only [Option.getD_none, true_iff]
      intro i hi
      rw [← slot_matches_iff]
      rw [(first_match_none cb m _ key).mp hf i hi]
      exact Bool.false_ne_true
    | some p =>
      have hne := first_match_ne_invalid cb hm _ key p hf
      have hp := first_match_some cb m _ key p hf
      simp only [Option.getD_some, hne, false_iff]
      intro hall
      exact hall p hp.1 ((slot_matches_iff cb m key p).mp hp.2)
  · cases hf : first_match cb m (sm_hash cb key) key with
    | none => simp
    | some p =>
      intro _
      have hp := first_match_some cb m _ key p hf
      obtain ⟨j, hj, hpj, hfirst⟩ := first_match_order cb m _ key p hf
      have hcap := hm.cap_le
      refine ⟨hp.1, by unfold SM_INVALID; omega, j, hj, hpj,
        (slot_matches_iff cb m key p).mp hp.2, ?_⟩
      intro j' hj'
      rw [← slot_matches_iff, hfirst j' hj']
      exact Bool.false_ne_true

theorem demo_map_shape : Shape demo_map := ⟨⟨4, by decide, rfl⟩, rfl, rfl, rfl, rfl⟩

theorem sm_find_first_match_witness :
    Shape demo_map ∧ sm_find demo_callbacks demo_map 35 = some 5 ∧
    ∃ r, sm_find demo_callbacks demo_map 35 = some r ∧
      (r = SM_INVALID ↔ ∀ i, i < demo_map.capacity_ →
        ¬ (demo_map.hashes_.getD i 0 = sm_hash demo_callbacks 35 ||| SM_EXIST_FLAG ∧
            demo_callbacks.compare_ (demo_map.keys_.getD i default) 35 = true)) ∧
      (r ≠ SM_INVALID → r < demo_map.capacity_ ∧ demo_map.capacity_ < SM_INVALID ∧
        ∃ j, j < demo_map.capacity_ ∧
          r = (u32 (sm_hash demo_callbacks 35 &&& demo_map.mask_) + j) % demo_map.capacity_ ∧
          (demo_map.hashes_.getD r 0 = sm_hash demo_callbacks 35 ||| SM_EXIST_FLAG ∧
            demo_callbacks.compare_ (demo_map.keys_.getD r default) 35 = true) ∧
          ∀ j', j' < j →
            ¬ (demo_map.hashes_.getD
                  ((u32 (sm_hash demo_callbacks 35 &&& demo_map.mask_) + j') % demo_map.capacity_) 0
                  = sm_hash demo_callbacks 35 ||| SM_EXIST_FLAG ∧
                demo_callbacks.compare_ (demo_map.keys_.getD
                  ((u32 (sm_hash demo_callbacks 35 &&& demo_map.mask_) + j') % demo_map.capacity_)
                  default) 35 = true)) :=
  ⟨demo_map_shape, by decide, sm_find_first_match demo_callbacks demo_map demo_map_shape 35⟩

/-! ### A successful add and the lookups after it -/

theorem sm_add_true_inv (cb : Callbacks K V) {m m' : smallmap_t K V} (h : WF m) (k : K) (v : V)
    (a : Bool) (hadd : sm_add cb m k v a = some (true, m')) :
    first_match cb m (sm_hash cb k) k = none ∧
    ∃ m1 pos, sm_add_resize cb m a = some m1 ∧ WF m1 ∧
      first_free m1 (sm_hash cb k) = some pos ∧
      (sm_add_item_at cb m1 (sm_hash cb k) k v pos).1 = true ∧
      m' = { (sm_add_item_at cb m1 (sm_hash cb k) k v pos).2 with
        size_ := u64 ((sm_add_item_at cb m1 (sm_hash cb k) k v pos).2.size_ + 1) } := by
  cases hp : first_match cb m (sm_hash cb k) k with
  | some p =>
    rw [sm_add_present cb h.shape k v a p hp] at hadd
    simp at hadd
  | none =>
    refine ⟨rfl, ?_⟩
    obtain ⟨m1, hm1, hwf1, _, _, _⟩ :=
      resize_cases cb (fun e => e.1) h a (Or.inl (fun _ _ _ _ _ => rfl))
    rw [sm_add_absent cb h.shape k v a hp m1 hwf1.shape hm1] at hadd
    cases hff : first_free m1 (sm_hash cb k) with
    | none => rw [hff] at hadd; simp at hadd
    | some pos =>
      rw [hff] at hadd
      simp only [] at hadd
      by_cases hb : (sm_add_item_at cb m1 (sm_hash cb k) k v pos).1 = true
      · rw [if_pos hb] at hadd
        simp only [Option.some.injEq, Prod.mk.injEq, true_and] at hadd
        exact ⟨m1, pos, hm1, hwf1, hff, hb, hadd.symm⟩
      · rw [if_neg hb] at hadd
        simp at hadd

theorem find_unique (cb : Callbacks K V) (m : smallmap_t K V) (hash : Nat) (key : K) (pos : Nat)
    (hpos : pos < m.capacity_) (hm : slot_matches cb m hash key pos = true)
    (hothers : ∀ i, i < m.capacity_ → i ≠ pos → slot_matches cb m hash key i = false) :
    first_match cb m hash key = some pos := by
  cases hf : first_match cb m hash key with
  | none =>
    have := (first_match_none cb m hash key).mp hf pos hpos
    rw [this] at hm; simp at hm
  | some r =>
    have hr := first_match_some cb m hash key r hf
    by_cases hrp : r = pos
    · rw [hrp]
    · have := hothers r hr.1 hrp
      rw [this] at hr; simp at hr

theorem slot_matches_congr (cb : Callbacks K V) {m m' : smallmap_t K V} (hash : Nat) (key : K)
    (i : Nat) (h : slot_at m' i = slot_at m i) :
    slot_matches cb m' hash key i = slot_matches cb m hash key i := by
  have h1 : (slot_at m' i).1 = (slot_at m i).1 := by rw [h]
  have h2 : (slot_at m' i).2.1 = (slot_at m i).2.1 := by rw [h]
  unfold slot_at at h1 h2
  simp only at h1 h2
  unfold slot_matches
  rw [h1, h2]

theorem slot_matches_entry (cb : Callbacks K V) (m : smallmap_t K V) (hash : Nat) (key : K)
    (i : Nat) :
    slot_matches cb m hash key i = entry_matches cb hash key ((slot_at m i).1, (slot_at m i).2.1) :=
  rfl

theorem slot_matches_occupied (cb : Callbacks K V) (m : smallmap_t K V) (hash : Nat) (key : K)
    (i : Nat) (h : slot_matches cb m hash key i = true) : occupied m i = true := by
  unfold slot_matches at h
  simp only [Bool.and_eq_true, beq_iff_eq] at h
  exact occupied_of_flagged h.1

theorem exists_match_iff (cb : Callbacks K V) (m : smallmap_t K V) (hash : Nat) (key : K) :
    (∃ i, i < m.capacity_ ∧ slot_matches cb m hash key i = true) ↔
      ∃ e, e ∈ (entries m).map (fun e => (e.1, e.2.1)) ∧ entry_matches cb hash key e = true := by
  constructor
  · rintro ⟨i, hi, hm⟩
    refine ⟨((slot_at m i).1, (slot_at m i).2.1), ?_, ?_⟩
    · rw [List.mem_map]
      exact ⟨slot_at m i, (mem_entries m _).mpr ⟨i, hi, slot_matches_occupied cb m hash key i hm, rfl⟩,
        rfl⟩
    · rw [← slot_matches_entry]; exact hm
  · rintro ⟨e, he, hm⟩
    rw [List.mem_map] at he
    obtain ⟨e', he', rfl⟩ := he
    obtain ⟨i, hi, _, rfl⟩ := (mem_entries m e').mp he'
    exact ⟨i, hi, hm⟩

theorem first_match_none_iff (cb : Callbacks K V) (m : smallmap_t K V) (hash : Nat) (key : K) :
    first_match cb m hash key = none ↔
      ∀ e, e ∈ (entries m).map (fun e => (e.1, e.2.1)) → entry_matches cb hash key e = false := by
  rw [first_match_none]
  constructor
  · intro h e he
    by_contra hcon
    have hm : entry_matches cb hash key e = true := by simpa using hcon
    obtain ⟨i, hi, hmi⟩ := (exists_match_iff cb m hash key).mpr ⟨e, he, hm⟩
    rw [h i hi] at hmi; simp at hmi
  · intro h i hi
    by_contra hcon
    have hm : slot_matches cb m hash key i = true := by simpa using hcon
    obtain ⟨e, he, hme⟩ := (exists_match_iff cb m hash key).mp ⟨i, hi, hm⟩
    rw [h e he] at hme; simp at hme

theorem exact_offsets_of_eq {a b : smallmap_t K V} (hc : b.capacity_ ≤ a.capacity_)
    (hk : b.key_size_ = a.key_size_) (hv : b.value_size_ = a.value_size_)
    (hx : ExactOffsets a) : ExactOffsets b := by
  unfold ExactOffsets at hx ⊢
  rw [hk, hv]
  exact ⟨Nat.le_trans (Nat.mul_le_mul_right _ hc) hx.1,
    Nat.le_trans (Nat.mul_le_mul_right _ hc) hx.2⟩

theorem resize_sizes (cb : Callbacks K V) {m m1 : smallmap_t K V} (h : WF m) (a : Bool)
    (hm1 : sm_add_resize cb m a = some m1) :
    m1.key_size_ = m.key_size_ ∧ m1.value_size_ = m.value_size_ ∧
      m.capacity_ ≤ m1.capacity_ := by
  unfold sm_add_resize at hm1
  by_cases hthr : m.resize_threshold_ ≤ m.size_
  · rw [if_pos hthr] at hm1
    by_cases hcap : m.capacity_ < 2147483648
    · cases a with
      | false =>
        rw [sm_expand_alloc_fail cb h hcap] at hm1
        cases hm1
        exact ⟨rfl, rfl, Nat.le_refl _⟩
      | true =>
        obtain ⟨m0, he0, _, hc0, _, hk0, hv0, _, _⟩ :=
          sm_expand_ok cb (fun e => e.1) (Or.inl (fun _ _ _ _ _ => rfl)) h hcap
        rw [he0] at hm1
        cases hm1
        exact ⟨hk0, hv0, by rw [hc0]; omega⟩
    · have hcap2 : m.capacity_ = 2147483648 := by
        have := h.shape.cap_le; omega
      rw [sm_expand_full cb h hcap2] at hm1
      cases hm1
      exact ⟨rfl, rfl, Nat.le_refl _⟩
  · rw [if_neg hthr] at hm1
    cases hm1
    exact ⟨rfl, rfl, Nat.le_refl _⟩

theorem sm_add_true_slots (cb : Callbacks K V) {m m' : smallmap_t K V} (h : WF m)
    (hst : StoresFaithfully cb) (k : K) (v : V) (a : Bool)
    (hadd : sm_add cb m k v a = some (true, m')) (hx : ExactOffsets m') :
    first_match cb m (sm_hash cb k) k = none ∧
    ∃ m1 pos, sm_add_resize cb m a = some m1 ∧ WF m1 ∧ WF m' ∧
      m'.capacity_ = m1.capacity_ ∧ pos < m1.capacity_ ∧ occupied m1 pos = false ∧
      slot_at m' pos = (u32 (sm_hash cb k ||| SM_EXIST_FLAG), k, v) ∧
      (∀ i, i ≠ pos → slot_at m' i = slot_at m1 i) ∧
      m'.size_ = u64 (m1.size_ + 1) ∧
      m'.trace_ = m1.trace_ ++ [Event.key_constructor, Event.value_constructor] ∧
      ExactOffsets m1 ∧ ExactOffsets m := by
  obtain ⟨hnone, m1, pos, hm1, hwf1, hff, hb, hm'⟩ := sm_add_true_inv cb h k v a hadd
  refine ⟨hnone, m1, pos, hm1, hwf1, ?_⟩
  obtain ⟨hpos, hempty⟩ := first_free_some _ _ _ hff
  obtain ⟨hk, hv, hslot, htr⟩ := add_item_at_true cb hwf1.shape (sm_hash cb k) k v pos hpos hb
  have hfr := add_item_at_frame cb m1 (sm_hash cb k) k v pos
  rw [hst.key _ _ hk, hst.value _ _ hv] at hslot
  subst hm'
  have hx1 : ExactOffsets m1 :=
    exact_offsets_of_eq (Nat.le_of_eq hfr.capacity.symm) hfr.key_size.symm hfr.value_size.symm hx
  obtain ⟨hks, hvs, hcl⟩ := resize_sizes cb h a hm1
  refine ⟨(add_item_at_wf cb hwf1 _ k v pos hpos).with_size _, hfr.capacity, hpos, ?_, hslot,
    fun i hi => add_item_at_slot_ne cb hwf1.shape hx1 _ k v pos i hpos hi, ?_, htr, hx1,
    exact_offsets_of_eq hcl hks.symm hvs.symm hx1⟩
  · unfold occupied; rw [hempty]; rfl
  · show u64 _ = _
    rw [hfr.size]

theorem sm_add_true_find (cb : Callbacks K V) {m1 m' : smallmap_t K V} (k : K) (v : V) (pos : Nat)
    (hrefl : ∀ x, cb.compare_ x x = true)
    (hnone : first_match cb m1 (sm_hash cb k) k = none)
    (hcap : m'.capacity_ = m1.capacity_) (hpos : pos < m1.capacity_)
    (hslot : slot_at m' pos = (u32 (sm_hash cb k ||| SM_EXIST_FLAG), k, v))
    (hother : ∀ i, i ≠ pos → slot_at m' i = slot_at m1 i) :
    first_match cb m' (sm_hash cb k) k = some pos := by
  apply find_unique cb m' _ k pos (by rw [hcap]; exact hpos)
  · rw [slot_matches_entry, hslot]
    simp [entry_matches, hrefl]
  · intro i hi hne
    rw [slot_matches_congr cb _ k i (hother i hne)]
    exact (first_match_none cb m1 _ k).mp hnone i (by rw [← hcap]; exact hi)

theorem sm_try_get_eq (cb : Callbacks K V) {m : smallmap_t K V} (h : Shape m) (key : K) (out : V) :
    sm_try_get cb m key out = some (match first_match cb m (sm_hash cb key) key with
      | none => (false, out)
      | some pos => (true, m.values_.getD pos default)) := by
  unfold sm_try_get
  rw [sm_find_eq cb h]
  cases hf : first_match cb m (sm_hash cb key) key with
  | none => simp
  | some p =>
    have := first_match_ne_invalid cb h _ key p hf
    simp [Ne.symm this, -List.getD_eq_getElem?_getD]

theorem perm_none_transfer (cb : Callbacks K V) {m m1 : smallmap_t K V} (hash : Nat) (key : K)
    (hperm : ((entries m1).map (fun e => (e.1, e.2.1))).Perm
      ((entries m).map (fun e => (e.1, e.2.1))))
    (hnone : first_match cb m hash key = none) : first_match cb m1 hash key = none := by
  rw [first_match_none_iff] at hnone ⊢
  intro e he
  exact hnone e (hperm.mem_iff.mp he)

theorem sm_add_true_lookup (cb : Callbacks K V) {m m' : smallmap_t K V} (h : WF m)
    (hrefl : ∀ x, cb.compare_ x x = true) (hst : StoresFaithfully cb)
    (hmove : ∀ d s, cb.key_move_ d s = s) (k : K) (v : V) (a : Bool)
    (hadd : sm_add cb m k v a = some (true, m')) (hx : ExactOffsets m') :
    ∃ p, sm_find cb m' k = some p ∧ p ≠ SM_INVALID ∧ p < m'.capacity_ ∧
      ∀ out, sm_try_get cb m' k out = some (true, v) := by
  obtain ⟨hnone, m1, pos, hm1, hwf1, hwf', hcap, hpos, _, hslot, hother, _, _, hx1, _⟩ :=
    sm_add_true_slots cb h hst k v a hadd hx
  obtain ⟨m1', hm1', _, _, hperm, _⟩ :=
    resize_cases cb (fun e => (e.1, e.2.1)) h a
      (Or.inr ⟨fun mx hmx => by rw [hm1] at hmx; cases hmx; exact hx1,
        fun w dk sk dv sv => by simp [hmove]⟩)
  have : m1' = m1 := by
    have h2 : sm_add_resize cb m a = some m1' := hm1'
    rw [hm1] at h2
    exact (Option.some.inj h2).symm
  subst this
  have hnone1 := perm_none_transfer cb _ k hperm hnone
  have hfind := sm_add_true_find cb k v pos hrefl hnone1 hcap hpos hslot hother
  refine ⟨pos, ?_, first_match_ne_invalid cb hwf'.shape _ k pos hfind, by rw [hcap]; exact hpos, ?_⟩
  · rw [sm_find_eq cb hwf'.shape, hfind]; rfl
  · intro out
    rw [sm_try_get_eq cb hwf'.shape, hfind]
    have : (slot_at m' pos).2.2 = v := by rw [hslot]
    unfold slot_at at this
    simp only at this
    simp only [this]

/-! ### Adding pairwise distinct keys -/

theorem add_item_at_fst (cb : Callbacks K V) (m : smallmap_t K V) (hash : Nat) (k : K) (v : V)
    (pos : Nat) :
    (sm_add_item_at cb m hash k v pos).1 =
      ((cb.key_constructor_ (m.keys_.getD pos default) k).1 &&
        (cb.value_constructor_ (m.values_.getD pos default) v).1) := by
  unfold sm_add_item_at
  simp only []
  cases (cb.key_constructor_ (m.keys_.getD pos default) k).1 <;>
    cases (cb.value_constructor_ (m.values_.getD pos default) v).1 <;> rfl

theorem add_item_at_succeeds (cb : Callbacks K V) (hcs : ConstructorsSucceed cb)
    (m : smallmap_t K V) (hash : Nat) (k : K) (v : V) (pos : Nat) :
    (sm_add_item_at cb m hash k v pos).1 = true := by
  rw [add_item_at_fst, hcs.key, hcs.value]; rfl

theorem u64_succ (n : Nat) (h : n ≤ 2147483648) : u64 (n + 1) = n + 1 := by
  unfold u64; apply Nat.mod_eq_of_lt; omega

theorem sm_add_absent_room (cb : Callbacks K V) (hcs : ConstructorsSucceed cb)
    {m : smallmap_t K V} (h : WF m) (k : K) (v : V) (a : Bool)
    (hnone : first_match cb m (sm_hash cb k) k = none) (m1 : smallmap_t K V) (hwf1 : WF m1)
    (hm1 : sm_add_resize cb m a = some m1) (hroom : occupied_count m1 < m1.capacity_) :
    ∃ m', sm_add cb m k v a = some (true, m') := by
  obtain ⟨pos, hff⟩ := first_free_isSome m1 (sm_hash cb k) hroom
  rw [sm_add_absent cb h.shape k v a hnone m1 hwf1.shape hm1, hff]
  simp only []
  rw [if_pos (add_item_at_succeeds cb hcs _ _ _ _ _)]
  exact ⟨_, rfl⟩

theorem sm_add_sizes (cb : Callbacks K V) {m m' : smallmap_t K V} (h : WF m) (k : K) (v : V)
    (a b : Bool) (hadd : sm_add cb m k v a = some (b, m')) :
    m'.key_size_ = m.key_size_ ∧ m'.value_size_ = m.value_size_ ∧
      m.capacity_ ≤ m'.capacity_ := by
  cases hp : first_match cb m (sm_hash cb k) k with
  | some p =>
    rw [sm_add_present cb h.shape k v a p hp] at hadd
    cases hadd
    exact ⟨rfl, rfl, Nat.le_refl _⟩
  | none =>
    obtain ⟨m1, hm1, hwf1, _, _, _⟩ :=
      resize_cases cb (fun e => e.1) h a (Or.inl (fun _ _ _ _ _ => rfl))
    obtain ⟨hk1, hv1, hc1⟩ := resize_sizes cb h a hm1
    rw [sm_add_absent cb h.shape k v a hp m1 hwf1.shape hm1] at hadd
    cases hff : first_free m1 (sm_hash cb k) with
    | none =>
      rw [hff] at hadd
      cases hadd
      exact ⟨hk1, hv1, hc1⟩
    | some pos =>
      rw [hff] at hadd
      simp only [] at hadd
      have hfr := add_item_at_frame cb m1 (sm_hash cb k) k v pos
      by_cases hb : (sm_add_item_at cb m1 (sm_hash cb k) k v pos).1 = true
      · rw [if_pos hb] at hadd
        cases hadd
        exact ⟨hfr.key_size.trans hk1, hfr.value_size.trans hv1,
          Nat.le_trans hc1 (Nat.le_of_eq hfr.capacity.symm)⟩
      · rw [if_neg hb] at hadd
        cases hadd
        exact ⟨hfr.key_size.trans hk1, hfr.value_size.trans hv1,
          Nat.le_trans hc1 (Nat.le_of_eq hfr.capacity.symm)⟩

theorem sm_add_exact_back (cb : Callbacks K V) {m m' : smallmap_t K V} (h : WF m) (k : K)
    (v : V) (a b : Bool) (hadd : sm_add cb m k v a = some (b, m')) (hx : ExactOffsets m') :
    ExactOffsets m := by
  obtain ⟨hk, hv, hc⟩ := sm_add_sizes cb h k v a b hadd
  exact exact_offsets_of_eq hc hk.symm hv.symm hx

theorem sm_add_all_total (cb : Callbacks K V) :
    ∀ (kvs : List (K × V)) (m : smallmap_t K V), WF m →
      ∃ bs m', sm_add_all cb m kvs = some (bs, m') ∧ WF m' ∧
        (ExactOffsets m' → ExactOffsets m) := by
  intro kvs
  induction kvs with
  | nil => intro m h; exact ⟨[], m, rfl, h, id⟩
  | cons kv rest ih =>
    intro m h
    obtain ⟨b, m1, hadd, hwf1⟩ := sm_add_wf cb h kv.1 kv.2 true
    obtain ⟨bs, m', hall, hwf', hback⟩ := ih m1 hwf1
    refine ⟨b :: bs, m', ?_, hwf', fun hx => sm_add_exact_back cb h _ _ _ _ hadd (hback hx)⟩
    show (match sm_add cb m kv.1 kv.2 true with
      | none => none
      | some (b, map1) =>
        match sm_add_all cb map1 rest with
        | none => none
        | some (bs, map2) => some (b :: bs, map2)) = _
    rw [hadd]
    simp only []
    rw [hall]

theorem filled_add (cb : Callbacks K V) (hcs : ConstructorsSucceed cb) (hst : StoresFaithfully cb)
    (hmv : MovesFaithfully cb) {m m' : smallmap_t K V} {kvs : List (K × V)}
    (hf : FilledWith cb m kvs) (k : K) (v : V)
    (hnew : ∀ kv, kv ∈ kvs → cb.compare_ kv.1 k = false)
    (hlen : kvs.length < 2147483648) (b : Bool)
    (hadd : sm_add cb m k v true = some (b, m')) (hx : ExactOffsets m') :
    b = true ∧ FilledWith cb m' ((k, v) :: kvs) := by
  have hwf := hf.wf
  have hnone : first_match cb m (sm_hash cb k) k = none := by
    rw [first_match_none_iff]
    intro e he
    rw [List.mem_map] at he
    obtain ⟨e', he', rfl⟩ := he
    have := hf.perm.mem_iff.mp he'
    unfold stored at this
    rw [List.mem_map] at this
    obtain ⟨kv, hkv, rfl⟩ := this
    simp [entry_matches, hnew kv hkv]
  obtain ⟨m1, hm1, hwf1, hsize1, hperm0, hcases⟩ :=
    resize_cases cb (fun e => e.1) hwf true (Or.inl (fun _ _ _ _ _ => rfl))
  have hcount : occupied_count m = kvs.length := by
    rw [occupied_count_eq, hf.perm.length_eq]; simp [stored]
  have hcount1 : occupied_count m1 = kvs.length := by
    have hl := hperm0.length_eq
    rw [List.length_map, List.length_map] at hl
    rw [occupied_count_eq, hl, ← occupied_count_eq, hcount]
  have hroom : occupied_count m1 < m1.capacity_ := by
    rw [hcount1]
    rcases hcases with ⟨rfl, hlt | hcap⟩ | ⟨_, hfalse, _⟩ | ⟨_, _, _, hc, _⟩
    · have := sm_threshold_lt m1.capacity_ hwf1.shape.cap_pos
      rw [← hwf1.threshold] at this
      rw [← hf.size]; omega
    · rw [hcap]; exact hlen
    · simp at hfalse
    · have := occupied_count_le m
      have := hwf.shape.cap_pos
      rw [hc, ← hcount]; omega
  obtain ⟨m2, hadd2⟩ := sm_add_absent_room cb hcs hwf k v true hnone m1 hwf1 hm1 hroom
  rw [hadd2] at hadd
  simp only [Option.some.injEq, Prod.mk.injEq] at hadd
  obtain ⟨hb, hm2⟩ := hadd
  subst hm2
  refine ⟨hb.symm, ?_⟩
  obtain ⟨_, m1', pos, hm1', _, hwf', hcap, hpos, hempty, hslot, hother, hsz, _, hx1, _⟩ :=
    sm_add_true_slots cb hwf hst k v true hadd2 hx
  have : m1' = m1 := by
    rw [hm1] at hm1'
    exact (Option.some.inj hm1').symm
  subst this
  obtain ⟨m1c, hm1c, _, _, hperm1, _⟩ :=
    resize_cases cb (fun e => e) hwf true
      (Or.inr ⟨fun mx hmx => by rw [hm1] at hmx; cases hmx; exact hx1,
        fun w dk sk dv sv => by rw [hmv.key, hmv.value]⟩)
  have : m1c = m1' := by
    rw [hm1] at hm1c
    exact (Option.some.inj hm1c).symm
  subst this
  rw [List.map_id'] at hperm1
  rw [List.map_id'] at hperm1
  have hocc : occupied m2 pos = true := by
    apply occupied_of_flagged (h := sm_hash cb k)
    have : (slot_at m2 pos).1 = u32 (sm_hash cb k ||| SM_EXIST_FLAG) := by rw [hslot]
    exact this
  have hp := entries_upto_insert m1c m2 pos m1c.capacity_ hpos hother hempty hocc
  refine ⟨hwf', ?_, ?_⟩
  · unfold entries
    rw [hcap]
    rw [hslot] at hp
    exact hp.trans (List.Perm.cons _ (hperm1.trans hf.perm))
  · rw [hsz, hsize1, hf.size, u64_succ _ (by omega)]
    simp

theorem filled_add_all (cb : Callbacks K V) (hcs : ConstructorsSucceed cb)
    (hst : StoresFaithfully cb) (hmv : MovesFaithfully cb) :
    ∀ (rest done : List (K × V)) (m : smallmap_t K V) (bs : List Bool) (m' : smallmap_t K V),
      FilledWith cb m done →
      distinct_keys cb (done.reverse ++ rest) → done.length + rest.length ≤ 2147483648 →
      sm_add_all cb m rest = some (bs, m') → ExactOffsets m' →
      bs = List.replicate rest.length true ∧ FilledWith cb m' (rest.reverse ++ done) := by
  intro rest
  induction rest with
  | nil =>
    intro done m bs m' hf _ _ hall _
    cases hall
    exact ⟨rfl, hf⟩
  | cons kv rest ih =>
    intro done m bs m' hf hd hlen hall hx
    simp only [List.length_cons] at hlen
    have hnew : ∀ x, x ∈ done → cb.compare_ x.1 kv.1 = false := by
      intro x hx
      unfold distinct_keys at hd
      rw [List.pairwise_append] at hd
      exact (hd.2.2 x (List.mem_reverse.mpr hx) kv (List.mem_cons_self _ _)).1
    obtain ⟨b, m1, hadd, hwf1⟩ := sm_add_wf cb hf.wf kv.1 kv.2 true
    obtain ⟨bs1, m2, hall1, _, hback⟩ := sm_add_all_total cb rest m1 hwf1
    have hall2 : sm_add_all cb m (kv :: rest) = some (b :: bs1, m2) := by
      show (match sm_add cb m kv.1 kv.2 true with
        | none => none
        | some (b, map1) =>
          match sm_add_all cb map1 rest with
          | none => none
          | some (bs, map2) => some (b :: bs, map2)) = _
      rw [hadd]
      simp only []
      rw [hall1]
    rw [hall2] at hall
    simp only [Option.some.injEq, Prod.mk.injEq] at hall
    obtain ⟨hbs, hm2⟩ := hall
    subst hm2
    subst hbs
    obtain ⟨hb, hf1⟩ := filled_add cb hcs hst hmv hf kv.1 kv.2 hnew (by omega) b hadd (hback hx)
    have hd1 : distinct_keys cb ((kv :: done).reverse ++ rest) := by
      unfold distinct_keys at hd ⊢
      rw [List.reverse_cons, List.append_assoc]
      exact hd
    obtain ⟨hbs1, hf'⟩ := ih (kv :: done) m1 bs1 m2 hf1 hd1
      (by simp only [List.length_cons]; omega) hall1 hx
    refine ⟨?_, ?_⟩
    · rw [hb, hbs1]
      rfl
    · rw [List.reverse_cons, List.append_assoc]
      exact hf'

theorem filled_lookup (cb : Callbacks K V) (hrefl : ∀ x, cb.compare_ x x = true)
    {m : smallmap_t K V} {kvs : List (K × V)} (hf : FilledWith cb m kvs)
    (hd : distinct_keys cb kvs) (kv : K × V) (hkv : kv ∈ kvs) :
    (∃ p, sm_find cb m kv.1 = some p ∧ p ≠ SM_INVALID) ∧
      ∀ out, sm_try_get cb m kv.1 out = some (true, kv.2) := by
  have hsh := hf.wf.shape
  have hmem : (u32 (sm_hash cb kv.1 ||| SM_EXIST_FLAG), kv.1, kv.2) ∈ entries m := by
    apply hf.perm.mem_iff.mpr
    unfold stored
    exact List.mem_map.mpr ⟨kv, hkv, rfl⟩
  obtain ⟨i, hi, _, hslot⟩ := (mem_entries m _).mp hmem
  have hmi : slot_matches cb m (sm_hash cb kv.1) kv.1 i = true := by
    rw [slot_matches_entry, hslot]
    simp [entry_matches, hrefl]
  cases hfm : first_match cb m (sm_hash cb kv.1) kv.1 with
  | none =>
    have := (first_match_none cb m _ kv.1).mp hfm i hi
    rw [this] at hmi; simp at hmi
  | some p =>
    refine ⟨⟨p, ?_, first_match_ne_invalid cb hsh _ kv.1 p hfm⟩, ?_⟩
    · rw [sm_find_eq cb hsh, hfm]; rfl
    · intro out
      rw [sm_try_get_eq cb hsh, hfm]
      simp only []
      obtain ⟨hp, hmp⟩ := first_match_some cb m _ kv.1 p hfm
      have hmem2 : slot_at m p ∈ entries m :=
        (mem_entries m _).mpr ⟨p, hp, slot_matches_occupied cb m _ kv.1 p hmp, rfl⟩
      have hst := hf.perm.mem_iff.mp hmem2
      unfold stored at hst
      rw [List.mem_map] at hst
      obtain ⟨kv', hkv', hslot'⟩ := hst
      have hcmp : cb.compare_ kv'.1 kv.1 = true := by
        rw [slot_matches_entry, ← hslot'] at hmp
        simp only [entry_matches, Bool.and_eq_true] at hmp
        exact hmp.2
      have heq : kv' = kv := by
        by_contra hne
        have hsym : Symmetric (fun a b : K × V =>
            cb.compare_ a.1 b.1 = false ∧ cb.compare_ b.1 a.1 = false) :=
          fun _ _ hab => ⟨hab.2, hab.1⟩
        have := (List.Pairwise.forall hsym hd hkv' hkv hne).1
        rw [this] at hcmp; simp at hcmp
      have hv : (slot_at m p).2.2 = kv.2 := by rw [← hslot', heq]
      unfold slot_at at hv
      simp only at hv
      rw [hv]

/-- C2 (amended to at most `2^31` keys and to tables whose byte offsets do not
wrap): when the constructors never fail and store key and value faithfully,
the moves transfer their cells, `compare_` is reflexive and the allocator
always succeeds, adding at most `2^31` pairwise non-equal keys one after
another to a freshly constructed map returns a result for every `sm_add`;
and when in the table reached `capacity_ * key_size_` and
`capacity_ * value_size_` are at most `2^32` (`ExactOffsets`), every one of
these calls has returned `true`, each of the keys is found (`sm_find` is not
`SM_INVALID`) and `sm_try_get` returns `true` with exactly the value added for
that key, whatever the order of the lookups (they do not change the map). -/
theorem sm_add_all_then_lookup (cb : Callbacks K V) (hcs : ConstructorsSucceed cb)
    (hst : StoresFaithfully cb) (hmv : MovesFaithfully cb)
    (hrefl : ∀ x, cb.compare_ x x = true) (key_size value_size : Nat)
    (m0 : smallmap_t K V) (t : List Event)
    (hc : sm_construct cb key_size value_size true true = some (some m0, t))
    (kvs : List (K × V)) (hlen : kvs.length ≤ 2147483648) (hd : distinct_keys cb kvs) :
    ∃ bs m, sm_add_all cb m0 kvs = some (bs, m) ∧
      (ExactOffsets m →
        bs = List.replicate kvs.length true ∧
        ∀ kv, kv ∈ kvs → (∃ p, sm_find cb m kv.1 = some p ∧ p ≠ SM_INVALID) ∧
          ∀ out, sm_try_get cb m kv.1 out = some (true, kv.2)) := by
  have hm0 := sm_construct_some cb key_size value_size true true m0 t hc
  subst hm0
  have hf0 : FilledWith cb (fresh_map key_size value_size : smallmap_t K V) [] :=
    ⟨fresh_map_wf _ _, by rw [fresh_map_entries]; exact List.Perm.refl _, rfl⟩
  obtain ⟨bs, m, hall, _, _⟩ := sm_add_all_total cb kvs _ (fresh_map_wf key_size value_size)
  refine ⟨bs, m, hall, ?_⟩
  intro hx
  obtain ⟨hbs, hf⟩ := filled_add_all cb hcs hst hmv kvs [] _ bs m hf0
    (by simpa using hd) (by simpa using hlen) hall hx
  refine ⟨hbs, ?_⟩
  intro kv hkv
  rw [List.append_nil] at hf
  have hd2 : distinct_keys cb kvs.reverse := by
    unfold distinct_keys at hd ⊢
    rw [List.pairwise_reverse]
    exact hd.imp (fun h => ⟨h.2, h.1⟩)
  exact filled_lookup cb hrefl hf hd2 kv (List.mem_reverse.mpr hkv)

/-! ### Bookkeeping: size, occupied slots and callback counts -/

theorem count_move_events (n : Nat) :
    (move_events n).count Event.key_move = n ∧ (move_events n).count Event.value_move = n ∧
    (move_events n).count Event.key_destructor = n ∧
    (move_events n).count Event.value_destructor = n ∧
    (move_events n).count Event.key_constructor = 0 ∧
    (move_events n).count Event.value_constructor = 0 := by
  induction n with
  | zero => simp [move_events]
  | succ n ih =>
    obtain ⟨h1, h2, h3, h4, h5, h6⟩ := ih
    simp [move_events, List.count_append, List.count_cons, h1, h2, h3, h4, h5, h6]

theorem add_item_at_proj_ne {β : Type} (cb : Callbacks K V) (proj : Nat × K × V → β)
    {m : smallmap_t K V} (h : Shape m) (hmode : CellBlind proj ∨ ExactOffsets m)
    (hash : Nat) (k : K) (v : V) (pos i : Nat) (hpos : pos < m.capacity_) (hi : i ≠ pos) :
    proj (slot_at (sm_add_item_at cb m hash k v pos).2 i) = proj (slot_at m i) ∧
      occupied (sm_add_item_at cb m hash k v pos).2 i = occupied m i := by
  refine ⟨?_, occupied_eq_of_word (add_item_at_word_ne cb m hash k v pos i hi)⟩
  rcases hmode with hb | hx
  · unfold slot_at
    rw [add_item_at_word_ne cb m hash k v pos i hi]
    exact hb _ _ _ _ _
  · rw [add_item_at_slot_ne cb h hx hash k v pos i hpos hi]

theorem remove_at_proj_ne {β : Type} (cb : Callbacks K V) (proj : Nat × K × V → β)
    {m : smallmap_t K V} (h : Shape m) (hmode : CellBlind proj ∨ ExactOffsets m)
    (pos i : Nat) (hpos : pos < m.capacity_) (hi : i ≠ pos) :
    proj (slot_at (sm_remove_at cb m pos) i) = proj (slot_at m i) ∧
      occupied (sm_remove_at cb m pos) i = occupied m i := by
  refine ⟨?_, occupied_eq_of_word (remove_at_word_ne cb m pos i hi)⟩
  rcases hmode with hb | hx
  · unfold slot_at
    rw [remove_at_word_ne cb m pos i hi]
    exact hb _ _ _ _ _
  · rw [remove_at_frame_slots cb h hx pos i hpos hi]

theorem add_item_at_perm_proj {β : Type} (cb : Callbacks K V) (proj : Nat × K × V → β)
    {m : smallmap_t K V} (h : Shape m) (hmode : CellBlind proj ∨ ExactOffsets m) (hash : Nat)
    (k : K) (v : V) (pos : Nat) (hpos : pos < m.capacity_) (hempty : occupied m pos = false) :
    ((entries (sm_add_item_at cb m hash k v pos).2).map proj).Perm
      (proj (slot_at (sm_add_item_at cb m hash k v pos).2 pos) :: (entries m).map proj) := by
  have hfr := add_item_at_frame cb m hash k v pos
  have hocc : occupied (sm_add_item_at cb m hash k v pos).2 pos = true :=
    occupied_of_flagged (add_item_at_word cb h hash k v pos hpos)
  have hp := entries_upto_insert_proj proj m (sm_add_item_at cb m hash k v pos).2 pos
    m.capacity_ hpos
    (fun i hi => add_item_at_proj_ne cb proj h hmode hash k v pos i hpos hi) hempty hocc
  unfold entries
  rw [hfr.capacity]
  exact hp

theorem add_item_at_perm (cb : Callbacks K V) {m : smallmap_t K V} (h : Shape m)
    (hx : ExactOffsets m) (hash : Nat)
    (k : K) (v : V) (pos : Nat) (hpos : pos < m.capacity_) (hempty : occupied m pos = false) :
    (entries (sm_add_item_at cb m hash k v pos).2).Perm
      (slot_at (sm_add_item_at cb m hash k v pos).2 pos :: entries m) := by
  have hp := add_item_at_perm_proj cb (fun e => e) h (Or.inr hx) hash k v pos hpos hempty
  rw [List.map_id', List.map_id'] at hp
  exact hp

theorem add_item_at_count (cb : Callbacks K V) {m : smallmap_t K V} (h : Shape m) (hash : Nat)
    (k : K) (v : V) (pos : Nat) (hpos : pos < m.capacity_) (hempty : occupied m pos = false) :
    occupied_count (sm_add_item_at cb m hash k v pos).2 = occupied_count m + 1 := by
  have hp := (add_item_at_perm_proj cb (fun e => e.1) h (Or.inl (fun _ _ _ _ _ => rfl))
    hash k v pos hpos hempty).length_eq
  rw [List.length_map, List.length_cons, List.length_map] at hp
  rw [occupied_count_eq, occupied_count_eq, hp]

theorem remove_at_perm_proj {β : Type} (cb : Callbacks K V) (proj : Nat × K × V → β)
    {m : smallmap_t K V} (h : Shape m) (hmode : CellBlind proj ∨ ExactOffsets m) (pos : Nat)
    (hpos : pos < m.capacity_) (hocc : occupied m pos = true) :
    ((entries m).map proj).Perm
      (proj (slot_at m pos) :: (entries (sm_remove_at cb m pos)).map proj) := by
  have hfr := remove_at_frame cb m pos
  have hempty : occupied (sm_remove_at cb m pos) pos = false := by
    unfold occupied
    rw [remove_at_word cb h pos hpos, is_empty_word_zero]; rfl
  have hp := entries_upto_insert_proj proj (sm_remove_at cb m pos) m pos m.capacity_ hpos
    (fun i hi => ⟨((remove_at_proj_ne cb proj h hmode pos i hpos hi).1).symm,
      ((remove_at_proj_ne cb proj h hmode pos i hpos hi).2).symm⟩) hempty hocc
  have hc : (sm_remove_at cb m pos).capacity_ = m.capacity_ := hfr.capacity
  unfold entries
  rw [hc]
  exact hp

theorem remove_at_perm (cb : Callbacks K V) {m : smallmap_t K V} (h : Shape m)
    (hx : ExactOffsets m) (pos : Nat)
    (hpos : pos < m.capacity_) (hocc : occupied m pos = true) :
    (entries m).Perm (slot_at m pos :: entries (sm_remove_at cb m pos)) := by
  have hp := remove_at_perm_proj cb (fun e => e) h (Or.inr hx) pos hpos hocc
  rw [List.map_id', List.map_id'] at hp
  exact hp

theorem remove_at_count (cb : Callbacks K V) {m : smallmap_t K V} (h : Shape m) (pos : Nat)
    (hpos : pos < m.capacity_) (hocc : occupied m pos = true) :
    occupied_count m = occupied_count (sm_remove_at cb m pos) + 1 := by
  have hp := (remove_at_perm_proj cb (fun e => e.1) h (Or.inl (fun _ _ _ _ _ => rfl))
    pos hpos hocc).length_eq
  rw [List.length_map, List.length_cons, List.length_map] at hp
  rw [occupied_count_eq, occupied_count_eq, hp]

theorem remove_at_trace (cb : Callbacks K V) (m : smallmap_t K V) (pos : Nat) :
    (sm_remove_at cb m pos).trace_ =
      m.trace_ ++ [Event.key_destructor, Event.value_destructor] := by
  unfold sm_remove_at; rfl

theorem remove_at_size (cb : Callbacks K V) (m : smallmap_t K V) (pos : Nat) :
    (sm_remove_at cb m pos).size_ = u64 (m.size_ + 18446744073709551615) := by
  unfold sm_remove_at; rfl

theorem u64_pred (n : Nat) (h0 : 0 < n) (h : n ≤ 2147483648) :
    u64 (n + 18446744073709551615) + 1 = n := by
  unfold u64; omega

theorem remove_at_balanced (cb : Callbacks K V) {m : smallmap_t K V} (h : WF m)
    (hb : Balanced m) (pos : Nat) (hpos : pos < m.capacity_) (hocc : occupied m pos = true) :
    Balanced (sm_remove_at cb m pos) ∧ (sm_remove_at cb m pos).size_ + 1 = m.size_ := by
  have hc := remove_at_count cb h.shape pos hpos hocc
  have hle := occupied_count_le m
  have hcap := h.shape.cap_le
  have hs : (sm_remove_at cb m pos).size_ + 1 = m.size_ := by
    rw [remove_at_size]
    exact u64_pred _ (by rw [hb.size]; omega) (by rw [hb.size]; omega)
  refine ⟨⟨?_, ?_, ?_⟩, hs⟩
  · have := hb.size; omega
  · rw [remove_at_trace]
    have := hb.keys
    simp only [List.count_append, List.count_cons, List.count_nil]
    simp
    omega
  · rw [remove_at_trace]
    have := hb.values
    simp only [List.count_append, List.count_cons, List.count_nil]
    simp
    omega

theorem resize_balanced (cb : Callbacks K V) {m : smallmap_t K V} (h : WF m) (hb : Balanced m)
    (a : Bool) :
    ∃ m1, sm_add_resize cb m a = some m1 ∧ WF m1 ∧ Balanced m1 ∧ m1.size_ = m.size_ := by
  obtain ⟨m1, hm1, hwf1, hsize1, hperm1, hcases⟩ :=
    resize_cases cb (fun e => e.1) h a (Or.inl (fun _ _ _ _ _ => rfl))
  have hcount1 : occupied_count m1 = occupied_count m := by
    rw [occupied_count_eq, occupied_count_eq]
    have := hperm1.length_eq
    simpa using this
  refine ⟨m1, hm1, hwf1, ⟨?_, ?_, ?_⟩, hsize1⟩
  · rw [hsize1, hcount1]; exact hb.size
  · rw [hcount1]
    have := hb.keys
    rcases hcases with ⟨rfl, _⟩ | ⟨rfl, _⟩ | ⟨_, _, _, _, htr⟩
    · exact this
    · simp only [List.count_append, List.count_cons, List.count_nil]
      simp
      exact this
    · obtain ⟨h1, h2, h3, h4, h5, h6⟩ := count_move_events (entries m).length
      rw [htr]
      simp only [List.count_append, List.count_cons, List.count_nil, h1, h3, h5]
      simp
      rw [← occupied_count_eq]
      omega
  · rw [hcount1]
    have := hb.values
    rcases hcases with ⟨rfl, _⟩ | ⟨rfl, _⟩ | ⟨_, _, _, _, htr⟩
    · exact this
    · simp only [List.count_append, List.count_cons, List.count_nil]
      simp
      exact this
    · obtain ⟨h1, h2, h3, h4, h5, h6⟩ := count_move_events (entries m).length
      rw [htr]
      simp only [List.count_append, List.count_cons, List.count_nil, h2, h4, h6]
      simp
      rw [← occupied_count_eq]
      omega

theorem sm_add_balanced (cb : Callbacks K V) (hcs : ConstructorsSucceed cb) {m m' : smallmap_t K V}
    (h : WF m) (hb : Balanced m) (k : K) (v : V) (a b : Bool)
    (hadd : sm_add cb m k v a = some (b, m')) :
    Balanced m' ∧ (b = true → m'.size_ = m.size_ + 1) ∧ (b = false → m'.size_ = m.size_) := by
  cases hp : first_match cb m (sm_hash cb k) k with
  | some p =>
    rw [sm_add_present cb h.shape k v a p hp] at hadd
    simp only [Option.some.injEq, Prod.mk.injEq] at hadd
    obtain ⟨rfl, rfl⟩ := hadd
    exact ⟨hb, by simp, fun _ => rfl⟩
  | none =>
    obtain ⟨m1, hm1, hwf1, hb1, hsize1⟩ := resize_balanced cb h hb a
    rw [sm_add_absent cb h.shape k v a hp m1 hwf1.shape hm1] at hadd
    cases hff : first_free m1 (sm_hash cb k) with
    | none =>
      rw [hff] at hadd
      simp only [Option.some.injEq, Prod.mk.injEq] at hadd
      obtain ⟨rfl, rfl⟩ := hadd
      exact ⟨hb1, by simp, fun _ => hsize1⟩
    | some pos =>
      rw [hff] at hadd
      simp only [] at hadd
      have hat := add_item_at_succeeds cb hcs m1 (sm_hash cb k) k v pos
      rw [if_pos hat] at hadd
      simp only [Option.some.injEq, Prod.mk.injEq] at hadd
      obtain ⟨rfl, rfl⟩ := hadd
      obtain ⟨hpos, hempty⟩ := first_free_some _ _ _ hff
      have hemp : occupied m1 pos = false := by unfold occupied; rw [hempty]; rfl
      have hcnt := add_item_at_count cb hwf1.shape (sm_hash cb k) k v pos hpos hemp
      obtain ⟨_, _, _, htr⟩ := add_item_at_true cb hwf1.shape (sm_hash cb k) k v pos hpos hat
      have hfr := add_item_at_frame cb m1 (sm_hash cb k) k v pos
      have hle := occupied_count_le m1
      have hcap := hwf1.shape.cap_le
      have hs : u64 ((sm_add_item_at cb m1 (sm_hash cb k) k v pos).2.size_ + 1) = m.size_ + 1 := by
        rw [hfr.size, hsize1]
        apply u64_succ
        rw [← hsize1, hb1.size]; omega
      have hcnt' : occupied_count { (sm_add_item_at cb m1 (sm_hash cb k) k v pos).2 with
          size_ := u64 ((sm_add_item_at cb m1 (sm_hash cb k) k v pos).2.size_ + 1) }
          = occupied_count m1 + 1 := hcnt
      refine ⟨⟨?_, ?_, ?_⟩, fun _ => hs, by simp⟩
      · rw [hcnt']
        show u64 _ = _
        rw [hs, ← hsize1, hb1.size]
      · rw [hcnt']
        show List.count _ (sm_add_item_at cb m1 (sm_hash cb k) k v pos).2.trace_ + _ =
          List.count _ (sm_add_item_at cb m1 (sm_hash cb k) k v pos).2.trace_ +
          List.count _ (sm_add_item_at cb m1 (sm_hash cb k) k v pos).2.trace_
        rw [htr]
        have := hb1.keys
        simp only [List.count_append, List.count_cons, List.count_nil]
        simp
        omega
      · rw [hcnt']
        show List.count _ (sm_add_item_at cb m1 (sm_hash cb k) k v pos).2.trace_ + _ =
          List.count _ (sm_add_item_at cb m1 (sm_hash cb k) k v pos).2.trace_ +
          List.count _ (sm_add_item_at cb m1 (sm_hash cb k) k v pos).2.trace_
        rw [htr]
        have := hb1.values
        simp only [List.count_append, List.count_cons, List.count_nil]
        simp
        omega

theorem sm_find_some_first_match (cb : Callbacks K V) {m : smallmap_t K V} (h : Shape m) (k : K)
    (pos : Nat) (hf : sm_find cb m k = some pos) (hne : pos ≠ SM_INVALID) :
    first_match cb m (sm_hash cb k) k = some pos := by
  rw [sm_find_eq cb h] at hf
  cases hfm : first_match cb m (sm_hash cb k) k with
  | none => rw [hfm] at hf; simp at hf; exact absurd hf.symm hne
  | some p => rw [hfm] at hf; simpa using hf

theorem sm_remove_eq (cb : Callbacks K V) {m : smallmap_t K V} (h : Shape m) (k : K) :
    sm_remove cb m k = some (match first_match cb m (sm_hash cb k) k with
      | none => m
      | some pos => sm_remove_at cb m pos) := by
  unfold sm_remove
  rw [sm_find_eq cb h]
  cases hfm : first_match cb m (sm_hash cb k) k with
  | none => simp
  | some p =>
    have := first_match_ne_invalid cb h _ k p hfm
    simp [Ne.symm this]

theorem reachable_balanced (cb : Callbacks K V) (hcs : ConstructorsSucceed cb)
    {m : smallmap_t K V} (hr : Reachable cb m) : Balanced m := by
  induction hr with
  | construct ks vs a1 a2 m t hc =>
    rw [sm_construct_some cb ks vs a1 a2 m t hc]
    have h0 : occupied_count (fresh_map ks vs : smallmap_t K V) = 0 := by
      rw [occupied_count_eq, fresh_map_entries]; rfl
    refine ⟨?_, ?_, ?_⟩
    · rw [h0]; rfl
    · rw [h0]; simp [fresh_map]
    · rw [h0]; simp [fresh_map]
  | add m m' k v a b hm hadd ih =>
    exact (sm_add_balanced cb hcs (reachable_wf cb hm) ih k v a b hadd).1
  | remove m m' k hm hrem ih =>
    have hwf := reachable_wf cb hm
    rw [sm_remove_eq cb hwf.shape] at hrem
    cases hfm : first_match cb m (sm_hash cb k) k with
    | none =>
      rw [hfm] at hrem
      simp only [Option.some.injEq] at hrem
      rw [← hrem]; exact ih
    | some p =>
      rw [hfm] at hrem
      simp only [Option.some.injEq] at hrem
      rw [← hrem]
      obtain ⟨hp, hmp⟩ := first_match_some cb m _ k p hfm
      exact (remove_at_balanced cb hwf ih p hp (slot_matches_occupied cb m _ k p hmp)).1
  | remove_at m k pos hm hf hne ih =>
    have hwf := reachable_wf cb hm
    have hfm := sm_find_some_first_match cb hwf.shape k pos hf hne
    obtain ⟨hp, hmp⟩ := first_match_some cb m _ k pos hfm
    exact (remove_at_balanced cb hwf ih pos hp (slot_matches_occupied cb m _ k pos hmp)).1

theorem destruct_fold_count (m : smallmap_t K V) (t : List Event) (e : Event) (n : Nat) :
    ((List.range n).foldl (fun t i =>
        if is_empty_word (m.hashes_.getD i 0) then t
        else t ++ [Event.key_destructor, Event.value_destructor]) t).count e =
      t.count e + (if e = Event.key_destructor ∨ e = Event.value_destructor then
        ((List.range n).filter (occupied m)).length else 0) := by
  induction n with
  | zero => simp
  | succ n ih =>
    rw [List.range_succ, List.foldl_append, List.filter_append, List.length_append]
    simp only [List.foldl_cons, List.foldl_nil]
    by_cases he : is_empty_word (m.hashes_.getD n 0) = true
    · have ho : occupied m n = false := by unfold occupied; rw [he]; rfl
      rw [if_pos he, ih]
      simp [ho]
    · have ho : occupied m n = true := by
        unfold occupied; simpa [-List.getD_eq_getElem?_getD] using he
      rw [if_neg he, List.count_append, ih]
      by_cases h1 : e = Event.key_destructor
      · subst h1; simp [ho]; omega
      · by_cases h2 : e = Event.value_destructor
        · subst h2; simp [ho]; omega
        · simp [h1, h2, List.count_cons, Ne.symm h1, Ne.symm h2]

theorem sm_destruct_count (cb : Callbacks K V) (m : smallmap_t K V) (e : Event)
    (he : ∀ p, e ≠ Event.deallocate p) :
    (sm_destruct cb (some m)).count e =
      m.trace_.count e + (if e = Event.key_destructor ∨ e = Event.value_destructor then
        occupied_count m else 0) := by
  unfold sm_destruct
  rw [List.count_append, destruct_fold_count]
  have h1 := he (if m.capacity_ = 0 then Ptr.null else Ptr.buffer)
  have h2 := he Ptr.map
  simp only [List.count_cons, List.count_nil]
  simp [Ne.symm h1, Ne.symm h2, occupied_count]

/-- C9 (amended): over the whole life of a map whose constructors never fail,
from `sm_construct` through any sequence of `sm_add`, `sm_remove` and
`sm_remove_at` calls to the return of `sm_destruct`, the number of key
destructor calls equals the number of key constructor calls plus the number
of key move calls, and likewise for values: `sm_expand` runs the destructors
on every slot it has moved from. -/
theorem sm_destruct_balance (cb : Callbacks K V) (hcs : ConstructorsSucceed cb)
    (m : smallmap_t K V) (hr : Reachable cb m) :
    (sm_destruct cb (some m)).count Event.key_destructor =
      (sm_destruct cb (some m)).count Event.key_constructor +
        (sm_destruct cb (some m)).count Event.key_move ∧
    (sm_destruct cb (some m)).count Event.value_destructor =
      (sm_destruct cb (some m)).count Event.value_constructor +
        (sm_destruct cb (some m)).count Event.value_move := by
  have hb := reachable_balanced cb hcs hr
  rw [sm_destruct_count cb m _ (by intro p; simp), sm_destruct_count cb m _ (by intro p; simp),
    sm_destruct_count cb m _ (by intro p; simp), sm_destruct_count cb m _ (by intro p; simp),
    sm_destruct_count cb m _ (by intro p; simp), sm_destruct_count cb m _ (by intro p; simp)]
  have h1 := hb.keys
  have h2 := hb.values
  simp
  omega

/-! ### Concrete runs -/

theorem demo_succeeds : ConstructorsSucceed demo_callbacks := ⟨fun _ _ => rfl, fun _ _ => rfl⟩

theorem demo_stores : StoresFaithfully demo_callbacks := ⟨fun _ _ _ => rfl, fun _ _ _ => rfl⟩

theorem demo_moves : MovesFaithfully demo_callbacks := ⟨fun _ _ => rfl, fun _ _ => rfl⟩

theorem demo_refl : ∀ x, demo_callbacks.compare_ x x = true := by
  intro x; simp [demo_callbacks]

theorem sm_add_all_cons (cb : Callbacks K V) (m m' : smallmap_t K V) (kv : K × V)
    (rest : List (K × V)) (b : Bool) (bs : List Bool)
    (h : sm_add_all cb m (kv :: rest) = some (b :: bs, m')) :
    ∃ m1, sm_add cb m kv.1 kv.2 true = some (b, m1) ∧ sm_add_all cb m1 rest = some (bs, m') := by
  rw [sm_add_all] at h
  cases hadd : sm_add cb m kv.1 kv.2 true with
  | none => rw [hadd] at h; simp at h
  | some r =>
    obtain ⟨b1, m1⟩ := r
    rw [hadd] at h
    simp only [] at h
    cases hall : sm_add_all cb m1 rest with
    | none => rw [hall] at h; simp at h
    | some r2 =>
      obtain ⟨bs2, m2⟩ := r2
      rw [hall] at h
      simp only [Option.some.injEq, Prod.mk.injEq, List.cons.injEq] at h
      obtain ⟨⟨rfl, rfl⟩, rfl⟩ := h
      exact ⟨m1, rfl, hall⟩

theorem sm_add_all_true_size (cb : Callbacks K V) (hcs : ConstructorsSucceed cb) :
    ∀ (kvs : List (K × V)) (m m' : smallmap_t K V), WF m → Balanced m →
      sm_add_all cb m kvs = some (List.replicate kvs.length true, m') →
      WF m' ∧ Balanced m' ∧ m'.size_ = m.size_ + kvs.length := by
  intro kvs
  induction kvs with
  | nil =>
    intro m m' hwf hb h
    simp only [sm_add_all, Option.some.injEq, Prod.mk.injEq] at h
    rw [← h.2]
    exact ⟨hwf, hb, rfl⟩
  | cons kv rest ih =>
    intro m m' hwf hb h
    rw [List.length_cons, List.replicate_succ] at h
    obtain ⟨m1, hadd, hall⟩ := sm_add_all_cons cb m m' kv rest true _ h
    obtain ⟨b', m1', h1, hwf1⟩ := sm_add_wf cb hwf kv.1 kv.2 true
    rw [hadd] at h1
    simp only [Option.some.injEq, Prod.mk.injEq] at h1
    obtain ⟨_, rfl⟩ := h1
    obtain ⟨hb1, hs1, _⟩ := sm_add_balanced cb hcs hwf hb kv.1 kv.2 true true hadd
    obtain ⟨hwf', hb', hs'⟩ := ih m1 m' hwf1 hb1 hall
    refine ⟨hwf', hb', ?_⟩
    rw [hs', hs1 rfl, List.length_cons]; omega

theorem fresh_map_balanced (key_size value_size : Nat) :
    Balanced (fresh_map key_size value_size : smallmap_t K V) := by
  have h0 : occupied_count (fresh_map key_size value_size : smallmap_t K V) = 0 := by
    rw [occupied_count_eq, fresh_map_entries]; rfl
  refine ⟨?_, ?_, ?_⟩
  · rw [h0]; rfl
  · rw [h0]; simp [fresh_map]
  · rw [h0]; simp [fresh_map]

theorem too_many_pairs_distinct : distinct_keys demo_callbacks too_many_pairs := by
  unfold distinct_keys too_many_pairs
  rw [List.pairwise_map]
  apply (List.pairwise_lt_range 2147483649).imp
  intro a b hab
  simp only [demo_callbacks, beq_eq_false_iff_ne, ne_eq]
  omega

/-- C2, counterexample: the keys `0, ..., 2^31` are pairwise non-equal and the
demonstration callbacks and the allocator always succeed, yet the
`2^31 + 1` calls of `sm_add` on a freshly constructed map cannot all return
`true`: the capacity never exceeds `2^31`. -/
theorem sm_add_all_too_many :
    sm_construct demo_callbacks 8 4 true true
        = some (some (fresh_map 8 4), (fresh_map 8 4 : smallmap_t Nat Nat).trace_) ∧
    distinct_keys demo_callbacks too_many_pairs ∧
    ¬ ∃ m, sm_add_all demo_callbacks (fresh_map 8 4) too_many_pairs
        = some (List.replicate too_many_pairs.length true, m) := by
  refine ⟨by rw [sm_construct_eq]; rfl, too_many_pairs_distinct, ?_⟩
  rintro ⟨m, hm⟩
  obtain ⟨hwf, hb, hs⟩ := sm_add_all_true_size demo_callbacks demo_succeeds too_many_pairs
    (fresh_map 8 4) m (fresh_map_wf 8 4) (fresh_map_balanced 8 4) hm
  have hlen : too_many_pairs.length = 2147483649 := by
    unfold too_many_pairs
    rw [List.length_map, List.length_range]
  have h1 := hb.size
  have h2 := occupied_count_le m
  have h3 := hwf.shape.cap_le
  have h4 : (fresh_map 8 4 : smallmap_t Nat Nat).size_ = 0 := rfl
  omega

theorem sm_add_all_then_lookup_witness :
    ∃ m, sm_add_all demo_callbacks (fresh_map 8 4) [(3, 30), (19, 190), (35, 350)]
        = some (List.replicate [(3, 30), (19, 190), (35, 350)].length true, m) ∧
      ExactOffsets m ∧
      ∀ kv, kv ∈ [(3, 30), (19, 190), (35, 350)] →
        (∃ p, sm_find demo_callbacks m kv.1 = some p ∧ p ≠ SM_INVALID) ∧
        ∀ out, sm_try_get demo_callbacks m kv.1 out = some (true, kv.2) := by
  obtain ⟨bs, m, hall, h⟩ :=
    sm_add_all_then_lookup demo_callbacks demo_succeeds demo_stores demo_moves demo_refl 8 4
      (fresh_map 8 4) (fresh_map 8 4 : smallmap_t Nat Nat).trace_ (by rw [sm_construct_eq]; rfl)
      [(3, 30), (19, 190), (35, 350)] (by simp) (by simp [distinct_keys, demo_callbacks])
  have hx : ExactOffsets m := by
    obtain ⟨r, hr⟩ : ∃ r, sm_add_all demo_callbacks (fresh_map 8 4)
        [(3, 30), (19, 190), (35, 350)] = some r ∧ r.2.capacity_ = 16 ∧ r.2.key_size_ = 8 ∧
          r.2.value_size_ = 4 := ⟨_, rfl, by decide⟩
    rw [hr.1] at hall
    cases hall
    unfold ExactOffsets
    rw [hr.2.1, hr.2.2.1, hr.2.2.2]
    decide
  obtain ⟨hbs, hl⟩ := h hx
  subst hbs
  exact ⟨m, hall, hx, hl⟩

theorem reachable_fresh (cb : Callbacks K V) (key_size value_size : Nat) :
    Reachable cb (fresh_map key_size value_size) :=
  Reachable.construct key_size value_size true true _ _
    (by rw [sm_construct_eq]; rfl)

theorem reachable_add_all (cb : Callbacks K V) :
    ∀ (kvs : List (K × V)) (m m' : smallmap_t K V) (bs : List Bool), Reachable cb m →
      sm_add_all cb m kvs = some (bs, m') → Reachable cb m' := by
  intro kvs
  induction kvs with
  | nil =>
    intro m m' bs hr h
    simp only [sm_add_all, Option.some.injEq, Prod.mk.injEq] at h
    rw [← h.2]; exact hr
  | cons kv rest ih =>
    intro m m' bs hr h
    cases bs with
    | nil =>
      rw [sm_add_all] at h
      cases hadd : sm_add cb m kv.1 kv.2 true with
      | none => rw [hadd] at h; simp at h
      | some r =>
        rw [hadd] at h
        simp only [] at h
        cases hall : sm_add_all cb r.2 rest with
        | none => rw [hall] at h; simp at h
        | some r2 => rw [hall] at h; simp at h
    | cons b bs =>
      obtain ⟨m1, hadd, hall⟩ := sm_add_all_cons cb m m' kv rest b bs h
      exact ih m1 m' bs (Reachable.add m m1 kv.1 kv.2 true b hr hadd) hall

theorem demo_map11_reachable : Reachable demo_callbacks demo_map11 :=
  reachable_add_all demo_callbacks demo_pairs (fresh_map 8 4) demo_map11
    (List.replicate 11 true) (reachable_fresh demo_callbacks 8 4) (by decide)

theorem demo_map12_reachable : Reachable demo_callbacks demo_map12 :=
  Reachable.add demo_map11 demo_map12 179 110 true true demo_map11_reachable (by decide)

theorem demo_map_reachable : Reachable demo_callbacks demo_map :=
  Reachable.remove _ demo_map 19
    (reachable_add_all demo_callbacks [(3, 30), (19, 190), (35, 350)] (fresh_map 8 4) _
      [true, true, true] (reachable_fresh demo_callbacks 8 4) rfl) (by decide)

/-- C9, counterexample: twelve adds to a fresh map, the twelfth resizing the
table of eleven items, then `sm_destruct`: the key constructor has run 12
times and the key destructor 23 times (11 times on moved-from slots), and
likewise for values. -/
theorem sm_destruct_counts_differ :
    Reachable demo_callbacks demo_map12 ∧
    (sm_destruct demo_callbacks (some demo_map12)).count Event.key_constructor = 12 ∧
    (sm_destruct demo_callbacks (some demo_map12)).count Event.key_destructor = 23 ∧
    (sm_destruct demo_callbacks (some demo_map12)).count Event.value_constructor = 12 ∧
    (sm_destruct demo_callbacks (some demo_map12)).count Event.value_destructor = 23 :=
  ⟨demo_map12_reachable, by decide, by decide, by decide, by decide⟩

theorem sm_destruct_balance_witness :
    (sm_destruct demo_callbacks (some demo_map12)).count Event.key_destructor =
      (sm_destruct demo_callbacks (some demo_map12)).count Event.key_constructor +
        (sm_destruct demo_callbacks (some demo_map12)).count Event.key_move ∧
    (sm_destruct demo_callbacks (some demo_map12)).count Event.value_destructor =
      (sm_destruct demo_callbacks (some demo_map12)).count Event.value_constructor +
        (sm_destruct demo_callbacks (some demo_map12)).count Event.value_move :=
  sm_destruct_balance demo_callbacks demo_succeeds demo_map12 demo_map12_reachable

/-! ### Duplicate add, construction, failing constructors -/

/-- C4: when `sm_find` of `k` returns a slot (not `SM_INVALID`), `sm_add` of
`k` returns `false` and the map it leaves is the map it was given: size,
capacity, resize threshold, every metadata word, every key and value cell
and the trace of callback and allocator calls are unchanged (so no resize
and no callback ran, whatever `size_` is), and `sm_try_get` of `k` still
yields the value stored in that slot. -/
theorem sm_add_present_unchanged (cb : Callbacks K V) (m : smallmap_t K V) (k : K) (v : V)
    (alloc_ok : Bool) (p : Nat) (hfind : sm_find cb m k = some p) (hp : p ≠ SM_INVALID) :
    sm_add cb m k v alloc_ok = some (false, m) ∧
      ∀ out, sm_try_get cb m k out = some (true, m.values_.getD p default) := by
  constructor
  · unfold sm_add
    unfold sm_find at hfind
    simp only []
    rw [hfind]
    simp [Ne.symm hp]
  · intro out
    unfold sm_try_get
    rw [hfind]
    simp [Ne.symm hp, -List.getD_eq_getElem?_getD]

theorem sm_add_present_unchanged_witness :
    Reachable demo_callbacks demo_map11 ∧ demo_map11.resize_threshold_ ≤ demo_map11.size_ ∧
    sm_add demo_callbacks demo_map11 35 999 true = some (false, demo_map11) ∧
      ∀ out, sm_try_get demo_callbacks demo_map11 35 out
        = some (true, demo_map11.values_.getD 5 default) :=
  ⟨demo_map11_reachable, by decide,
    sm_add_present_unchanged demo_callbacks demo_map11 35 999 true 5 (by decide) (by decide)⟩

/-- C8: `sm_construct` returns the null handle exactly when the allocation of
the control block or the allocation of the first buffer returns null; in the
second case the only calls made are the two allocations and the hand-back of
the (null) buffer pointer and of the control block to `deallocate_`, no
key or value callback.  Otherwise it returns a map with capacity 16, mask
15, resize threshold 11, size 0 and sixteen metadata words 0, on which
`sm_find` of any key is `SM_INVALID` and `sm_try_get` of any key is `false`
and leaves the caller's buffer alone. -/
theorem sm_construct_result (cb : Callbacks K V) (key_size value_size : Nat)
    (alloc_map_ok alloc_buffer_ok : Bool) :
    ∃ handle t, sm_construct cb key_size value_size alloc_map_ok alloc_buffer_ok
        = some (handle, t) ∧
      (handle = none ↔ (alloc_map_ok = false ∨ alloc_buffer_ok = false)) ∧
      (alloc_map_ok = true ∧ alloc_buffer_ok = false →
        t = [Event.allocate true, Event.allocate false, Event.deallocate Ptr.null,
          Event.deallocate Ptr.map]) ∧
      ∀ m, handle = some m →
        m.capacity_ = 16 ∧ m.mask_ = 15 ∧ m.resize_threshold_ = 11 ∧ m.size_ = 0 ∧
        m.hashes_ = List.replicate 16 0 ∧ m.keys_.length = 16 ∧ m.values_.length = 16 ∧
        ∀ k, sm_find cb m k = some SM_INVALID ∧
          ∀ out, sm_try_get cb m k out = some (false, out) := by
  cases alloc_map_ok with
  | false =>
    exact ⟨none, [Event.allocate false], by rw [sm_construct_eq]; rfl, by simp, by simp,
      fun m hm => by cases hm⟩
  | true =>
    cases alloc_buffer_ok with
    | false =>
      exact ⟨none, _, by rw [sm_construct_eq]; rfl, by simp, fun _ => rfl,
        fun m hm => by cases hm⟩
    | true =>
      refine ⟨some (fresh_map key_size value_size), _, by rw [sm_construct_eq]; rfl, by simp,
        by simp, ?_⟩
      intro m hm
      have hfresh : m = fresh_map key_size value_size := (Option.some.inj hm).symm
      subst hfresh
      refine ⟨rfl, rfl, rfl, rfl, rfl, by simp [fresh_map], by simp [fresh_map], ?_⟩
      intro k
      have hsh := (fresh_map_wf key_size value_size : WF (fresh_map key_size value_size :
        smallmap_t K V)).shape
      have hnone : first_match cb (fresh_map key_size value_size) (sm_hash cb k) k = none := by
        rw [first_match_none_iff, fresh_map_entries]
        intro e he
        simp at he
      constructor
      · rw [sm_find_eq cb hsh, hnone]; rfl
      · intro out
        rw [sm_try_get_eq cb hsh, hnone]

/-- C10, the failing input evaluated: after `sm_construct` and one `sm_add`
whose value constructor returns `false`, the add has returned `false`, slot 3
carries the occupied bit, and `size_` is 0 while one slot is occupied; the
key is found, `sm_try_get` returns `true` with a value that was never
constructed, and `sm_remove` of the key takes `size_` from 0 to `2^64 - 1`.
A failing key constructor leaves the same mismatch. -/
theorem sm_add_failed_constructor :
    sm_add failing_value_callbacks (fresh_map 8 4) 3 30 true = some (false, phantom_map) ∧
    Reachable failing_value_callbacks phantom_map ∧
    phantom_map.size_ = 0 ∧ occupied_count phantom_map = 1 ∧
    sm_find failing_value_callbacks phantom_map 3 = some 3 ∧
    sm_try_get failing_value_callbacks phantom_map 3 77 = some (true, 0) ∧
    (sm_remove failing_value_callbacks phantom_map 3).map (fun m => m.size_)
      = some 18446744073709551615 ∧
    (sm_add failing_key_callbacks (fresh_map 8 4) 3 30 true).map
      (fun r => (r.1, r.2.size_, occupied_count r.2)) = some (false, 0, 1) :=
  ⟨by decide, Reachable.add _ _ 3 30 true false (reachable_fresh _ 8 4) (by decide),
    rfl, by decide, by decide, by decide, by decide, by decide⟩

/-! ### Removal -/

theorem find_of_weaker {α : Type} (p p' : α → Bool) (a : α) :
    ∀ l : List α, l.find? p = some a → p' a = true → (∀ x, x ∈ l → p' x = true → p x = true) →
      l.find? p' = some a := by
  intro l
  induction l with
  | nil => intro h; simp at h
  | cons x l ih =>
    intro h hp' himp
    rw [List.find?_cons] at h ⊢
    by_cases hx : p x = true
    · simp only [hx, Option.some.injEq] at h
      subst h
      simp [hp']
    · have hx' : p' x = false := by
        by_contra hcon
        exact hx (himp x (List.mem_cons_self _ _) (by simpa using hcon))
      simp only [hx] at h
      simp only [hx']
      exact ih h hp' (fun y hy => himp y (List.mem_cons_of_mem _ hy))

theorem demo_map3_reachable : Reachable demo_callbacks demo_map3 :=
  reachable_add_all demo_callbacks [(3, 30), (19, 190), (35, 350)] (fresh_map 8 4) _
      [true, true, true] (reachable_fresh demo_callbacks 8 4) (by decide)

/-! ### When `sm_add` returns `false` -/

theorem count_of_all_occupied (m : smallmap_t K V)
    (h : ∀ i, i < m.capacity_ → occupied m i = true) : occupied_count m = m.capacity_ := by
  by_contra hne
  have hlt : occupied_count m < m.capacity_ := by
    have := occupied_count_le m; omega
  obtain ⟨i, hi, ho⟩ := exists_free_of_count_lt m hlt
  rw [h i hi] at ho
  simp at ho

/-- On a well-formed map `sm_add` returns, and it returns `false` exactly
when (a) `sm_find` of the key is not `SM_INVALID`, or (b) after the resize
attempt no slot has its occupied bit clear, or (c) the key constructor
returns `false`, or it returns `true` and the value constructor returns
`false` (both run on the first empty slot of the probe).  When the add fails
for (b) the map is unchanged, up to the trace entry of a failed allocation;
so a failed resize alone does not fail the add.  When the add returns `true`,
`size_` is the 64-bit successor of its value on entry. -/
theorem sm_add_false_cases (cb : Callbacks K V) (m : smallmap_t K V) (hwf : WF m)
    (k : K) (v : V) (alloc_ok : Bool) :
    ∃ b m' m1, sm_add cb m k v alloc_ok = some (b, m') ∧
      sm_add_resize cb m alloc_ok = some m1 ∧
      (b = false ↔
        ((∃ p, sm_find cb m k = some p ∧ p ≠ SM_INVALID) ∨
         (∀ i, i < m1.capacity_ → occupied m1 i = true) ∨
         (∃ pos, first_free m1 (sm_hash cb k) = some pos ∧
           ((cb.key_constructor_ (m1.keys_.getD pos default) k).1 = false ∨
             ((cb.key_constructor_ (m1.keys_.getD pos default) k).1 = true ∧
              (cb.value_constructor_ (m1.values_.getD pos default) v).1 = false))))) ∧
      (sm_find cb m k = some SM_INVALID → (∀ i, i < m1.capacity_ → occupied m1 i = true) →
        m' = m1 ∧ (m1 = m ∨ m1 = { m with trace_ := m.trace_ ++ [Event.allocate false] })) ∧
      (b = true → m'.size_ = u64 (m.size_ + 1)) := by
  obtain ⟨m1, hm1, hwf1, hsize1, hperm1, hcases⟩ :=
    resize_cases cb (fun e => e.1) hwf alloc_ok (Or.inl (fun _ _ _ _ _ => rfl))
  have hcount1 : occupied_count m1 = occupied_count m := by
    rw [occupied_count_eq, occupied_count_eq]
    simpa using hperm1.length_eq
  have hfind := sm_find_eq cb hwf.shape k
  cases hp : first_match cb m (sm_hash cb k) k with
  | some p =>
    have hpne := first_match_ne_invalid cb hwf.shape _ k p hp
    rw [hp] at hfind
    refine ⟨false, m, m1, sm_add_present cb hwf.shape k v alloc_ok p hp, hm1, ?_, ?_, by simp⟩
    · simp only [true_iff]
      exact Or.inl ⟨p, hfind, hpne⟩
    · intro h
      rw [hfind] at h
      exact absurd (Option.some.inj h) hpne
  | none =>
    rw [hp] at hfind
    have habsent : ¬ ∃ p, sm_find cb m k = some p ∧ p ≠ SM_INVALID := by
      rintro ⟨p, h1, h2⟩
      rw [hfind] at h1
      exact h2 (Option.some.inj h1).symm
    have hadd := sm_add_absent cb hwf.shape k v alloc_ok hp m1 hwf1.shape hm1
    cases hff : first_free m1 (sm_hash cb k) with
    | none =>
      rw [hff] at hadd
      have hfull : ∀ i, i < m1.capacity_ → occupied m1 i = true := by
        intro i hi
        unfold occupied
        rw [(first_free_none m1 _).mp hff i hi]; rfl
      refine ⟨false, m1, m1, hadd, hm1, ?_, ?_, by simp⟩
      · simp only [true_iff]
        exact Or.inr (Or.inl hfull)
      · intro _ _
        refine ⟨rfl, ?_⟩
        rcases hcases with ⟨h1, _⟩ | ⟨h1, _⟩ | ⟨_, _, _, hc, _⟩
        · exact Or.inl h1
        · exact Or.inr h1
        · have h1 := count_of_all_occupied m1 hfull
          have h2 := occupied_count_le m
          have h3 := hwf.shape.cap_pos
          omega
    | some pos =>
      rw [hff] at hadd
      simp only [] at hadd
      obtain ⟨hpos, hempty⟩ := first_free_some _ _ _ hff
      have hnotfull : ¬ ∀ i, i < m1.capacity_ → occupied m1 i = true := by
        intro hall
        have := hall pos hpos
        unfold occupied at this
        rw [hempty] at this
        simp at this
      have hfst := add_item_at_fst cb m1 (sm_hash cb k) k v pos
      have hfr := add_item_at_frame cb m1 (sm_hash cb k) k v pos
      by_cases hb : (sm_add_item_at cb m1 (sm_hash cb k) k v pos).1 = true
      · rw [if_pos hb] at hadd
        refine ⟨true, _, m1, hadd, hm1, ?_, fun _ hall => absurd hall hnotfull, ?_⟩
        · simp only [Bool.true_eq_false, false_iff]
          rintro (h | h | ⟨pos', hpos', hc⟩)
          · exact habsent h
          · exact hnotfull h
          · have : pos' = pos := by
              rw [hff] at hpos'; exact (Option.some.inj hpos').symm
            subst this
            rw [hfst, Bool.and_eq_true] at hb
            rcases hc with hc | ⟨_, hc⟩
            · rw [hb.1] at hc; simp at hc
            · rw [hb.2] at hc; simp at hc
        · intro _
          show u64 _ = _
          rw [hfr.size, hsize1]
      · rw [if_neg hb] at hadd
        refine ⟨false, _, m1, hadd, hm1, ?_, fun _ hall => absurd hall hnotfull, by simp⟩
        simp only [true_iff]
        refine Or.inr (Or.inr ⟨pos, hff, ?_⟩)
        rw [hfst] at hb
        cases h1 : (cb.key_constructor_ (m1.keys_.getD pos default) k).1 with
        | false => exact Or.inl rfl
        | true =>
          rw [h1] at hb
          exact Or.inr ⟨rfl, by simpa using hb⟩

/-! ### Remove, then add again -/

theorem room_after_resize (cb : Callbacks K V) {m m1 : smallmap_t K V} (hwf : WF m)
    (hb : Balanced m) (a : Bool) (hm1 : sm_add_resize cb m a = some m1)
    (hroom : occupied_count m < m.capacity_ ∨ (a = true ∧ m.capacity_ < 2147483648)) :
    occupied_count m1 < m1.capacity_ := by
  obtain ⟨m1', hm1', hwf1, _, hperm1, hcases⟩ :=
    resize_cases cb (fun e => e.1) hwf a (Or.inl (fun _ _ _ _ _ => rfl))
  have : m1' = m1 := by
    rw [hm1] at hm1'; exact (Option.some.inj hm1').symm
  subst this
  have hcount1 : occupied_count m1' = occupied_count m := by
    rw [occupied_count_eq, occupied_count_eq]
    simpa using hperm1.length_eq
  have hle := occupied_count_le m
  have hpos := hwf.shape.cap_pos
  rw [hcount1]
  rcases hcases with ⟨rfl, hlt | hcap⟩ | ⟨rfl, hfalse, _, _⟩ | ⟨_, _, _, hc, _⟩
  · have := sm_threshold_lt m1'.capacity_ hpos
    rw [← hwf.threshold] at this
    have := hb.size
    omega
  · rcases hroom with h | ⟨_, h⟩
    · exact h
    · omega
  · rcases hroom with h | ⟨h, _⟩
    · exact h
    · rw [hfalse] at h; simp at h
  · omega

theorem unique_of_perm (cb : Callbacks K V) {m m' : smallmap_t K V}
    (hperm : ((entries m').map (fun e => (e.1, e.2.1))).Perm
      ((entries m).map (fun e => (e.1, e.2.1)))) (hu : Unique cb m) : Unique cb m' := by
  intro q
  rw [hperm.countP_eq]
  exact hu q

theorem unique_insert (cb : Callbacks K V)
    (hsymm : ∀ a b, cb.compare_ a b = true → cb.compare_ b a = true)
    (htrans : ∀ a b c, cb.compare_ a b = true → cb.compare_ b c = true → cb.compare_ a c = true)
    {m1 m' : smallmap_t K V} (k : K) (v : V) (hu : Unique cb m1)
    (hnone : first_match cb m1 (sm_hash cb k) k = none)
    (hperm : (entries m').Perm ((u32 (sm_hash cb k ||| SM_EXIST_FLAG), k, v) :: entries m1)) :
    Unique cb m' := by
  intro q
  rw [(hperm.map _).countP_eq, List.map_cons, List.countP_cons]
  by_cases hq : entry_matches cb (sm_hash cb q) q (u32 (sm_hash cb k ||| SM_EXIST_FLAG), k) = true
  · have hzero : ((entries m1).map (fun e => (e.1, e.2.1))).countP
        (entry_matches cb (sm_hash cb q) q) = 0 := by
      rw [List.countP_eq_zero]
      intro e he hme
      rw [first_match_none_iff] at hnone
      have hk := hnone e he
      simp only [entry_matches, Bool.and_eq_true, beq_iff_eq] at hq hme
      have : entry_matches cb (sm_hash cb k) k e = true := by
        simp only [entry_matches, Bool.and_eq_true, beq_iff_eq]
        exact ⟨hme.1.trans hq.1.symm, htrans _ _ _ hme.2 (hsymm _ _ hq.2)⟩
      rw [this] at hk
      simp at hk
    rw [hzero]
    split <;> omega
  · have := hu q
    simp only [hq]
    simpa using this

theorem unique_remove (cb : Callbacks K V) {m m' : smallmap_t K V} (e : Nat × K × V)
    (hperm : (entries m).Perm (e :: entries m')) (hu : Unique cb m) : Unique cb m' := by
  intro q
  have := hu q
  rw [(hperm.map _).countP_eq, List.map_cons, List.countP_cons] at this
  omega

theorem sm_add_absent_sizes (cb : Callbacks K V) {m m' m1 : smallmap_t K V} (h : WF m) (k : K)
    (v : V) (a b : Bool) (hadd : sm_add cb m k v a = some (b, m'))
    (hp : first_match cb m (sm_hash cb k) k = none) (hwf1 : WF m1)
    (hm1 : sm_add_resize cb m a = some m1) :
    m'.key_size_ = m1.key_size_ ∧ m'.value_size_ = m1.value_size_ ∧
      m'.capacity_ = m1.capacity_ := by
  rw [sm_add_absent cb h.shape k v a hp m1 hwf1.shape hm1] at hadd
  cases hff : first_free m1 (sm_hash cb k) with
  | none =>
    rw [hff] at hadd
    cases hadd
    exact ⟨rfl, rfl, rfl⟩
  | some pos =>
    rw [hff] at hadd
    simp only [] at hadd
    have hfr := add_item_at_frame cb m1 (sm_hash cb k) k v pos
    by_cases hb : (sm_add_item_at cb m1 (sm_hash cb k) k v pos).1 = true
    · rw [if_pos hb] at hadd
      cases hadd
      exact ⟨hfr.key_size, hfr.value_size, hfr.capacity⟩
    · rw [if_neg hb] at hadd
      cases hadd
      exact ⟨hfr.key_size, hfr.value_size, hfr.capacity⟩

theorem remove_at_exact_back (cb : Callbacks K V) (m : smallmap_t K V) (pos : Nat)
    (hx : ExactOffsets (sm_remove_at cb m pos)) : ExactOffsets m := by
  have hfr := remove_at_frame cb m pos
  unfold ExactOffsets at hx ⊢
  rw [hfr.capacity, hfr.key_size, hfr.value_size] at hx
  exact hx

theorem reachable_unique (cb : Callbacks K V) (hcs : ConstructorsSucceed cb)
    (hst : StoresFaithfully cb) (hmv : MovesFaithfully cb)
    (hsymm : ∀ a b, cb.compare_ a b = true → cb.compare_ b a = true)
    (htrans : ∀ a b c, cb.compare_ a b = true → cb.compare_ b c = true → cb.compare_ a c = true)
    {m : smallmap_t K V} (hr : Reachable cb m) : ExactOffsets m → Unique cb m := by
  induction hr with
  | construct ks vs a1 a2 m t hc =>
    intro _
    rw [sm_construct_some cb ks vs a1 a2 m t hc]
    intro q
    rw [fresh_map_entries]; simp
  | add m m' k v a b hm hadd ih =>
    intro hx
    have hwf := reachable_wf cb hm
    have hxm := sm_add_exact_back cb hwf k v a b hadd hx
    have ihm := ih hxm
    cases hp : first_match cb m (sm_hash cb k) k with
    | some p =>
      rw [sm_add_present cb hwf.shape k v a p hp] at hadd
      simp only [Option.some.injEq, Prod.mk.injEq] at hadd
      rw [← hadd.2]; exact ihm
    | none =>
      obtain ⟨m1, hm1, hwf1, _, _, _⟩ :=
        resize_cases cb (fun e => e.1) hwf a (Or.inl (fun _ _ _ _ _ => rfl))
      obtain ⟨hk1, hv1, hc1⟩ := sm_add_absent_sizes cb hwf k v a b hadd hp hwf1 hm1
      have hx1 : ExactOffsets m1 :=
        exact_offsets_of_eq (Nat.le_of_eq hc1.symm) hk1.symm hv1.symm hx
      obtain ⟨m1c, hm1c, _, _, hperm1, _⟩ :=
        resize_cases cb (fun e => (e.1, e.2.1)) hwf a
          (Or.inr ⟨fun mx hmx => by rw [hm1] at hmx; cases hmx; exact hx1,
            fun w dk sk dv sv => by simp [hmv.key]⟩)
      have : m1c = m1 := by
        rw [hm1] at hm1c; exact (Option.some.inj hm1c).symm
      subst this
      have hu1 := unique_of_perm cb hperm1 ihm
      have hnone1 := perm_none_transfer cb _ k hperm1 hp
      have hadd2 := hadd
      rw [sm_add_absent cb hwf.shape k v a hp m1c hwf1.shape hm1] at hadd2
      cases hff : first_free m1c (sm_hash cb k) with
      | none =>
        rw [hff] at hadd2
        simp only [Option.some.injEq, Prod.mk.injEq] at hadd2
        rw [← hadd2.2]; exact hu1
      | some pos =>
        rw [hff] at hadd2
        simp only [] at hadd2
        rw [if_pos (add_item_at_succeeds cb hcs _ _ _ _ _)] at hadd2
        simp only [Option.some.injEq, Prod.mk.injEq] at hadd2
        have hbt : b = true := hadd2.1.symm
        subst hbt
        obtain ⟨_, m1', pos', hm1', _, _, hcap, hpos, hempty, hslot, hother, _, _⟩ :=
          sm_add_true_slots cb hwf hst k v a hadd hx
        have : m1' = m1c := by
          rw [hm1] at hm1'; exact (Option.some.inj hm1').symm
        subst this
        have hocc : occupied m' pos' = true := by
          apply occupied_of_flagged (h := sm_hash cb k)
          have : (slot_at m' pos').1 = u32 (sm_hash cb k ||| SM_EXIST_FLAG) := by rw [hslot]
          exact this
        have hp2 := entries_upto_insert m1' m' pos' m1'.capacity_ hpos hother hempty hocc
        rw [hslot] at hp2
        apply unique_insert cb hsymm htrans k v hu1 hnone1
        unfold entries
        rw [hcap]
        exact hp2
  | remove m m' k hm hrem ih =>
    intro hx
    have hwf := reachable_wf cb hm
    rw [sm_remove_eq cb hwf.shape] at hrem
    cases hfm : first_match cb m (sm_hash cb k) k with
    | none =>
      rw [hfm] at hrem
      simp only [Option.some.injEq] at hrem
      rw [← hrem] at hx ⊢; exact ih hx
    | some p =>
      rw [hfm] at hrem
      simp only [Option.some.injEq] at hrem
      rw [← hrem] at hx ⊢
      have hxm := remove_at_exact_back cb m p hx
      obtain ⟨hp, hmp⟩ := first_match_some cb m _ k p hfm
      exact unique_remove cb _
        (remove_at_perm cb hwf.shape hxm p hp (slot_matches_occupied cb m _ k p hmp)) (ih hxm)
  | remove_at m k pos hm hf hne ih =>
    intro hx
    have hwf := reachable_wf cb hm
    have hxm := remove_at_exact_back cb m pos hx
    have hfm := sm_find_some_first_match cb hwf.shape k pos hf hne
    obtain ⟨hp, hmp⟩ := first_match_some cb m _ k pos hfm
    exact unique_remove cb _
      (remove_at_perm cb hwf.shape hxm pos hp (slot_matches_occupied cb m _ k pos hmp)) (ih hxm)

theorem reachable_add_without_alloc (cb : Callbacks K V) :
    ∀ (kvs : List (K × V)) (m : smallmap_t K V), Reachable cb m →
      Reachable cb (kvs.foldl (add_without_alloc cb) m) := by
  intro kvs
  induction kvs with
  | nil => intro m hr; exact hr
  | cons kv rest ih =>
    intro m hr
    rw [List.foldl_cons]
    apply ih
    unfold add_without_alloc
    cases hadd : sm_add cb m kv.1 kv.2 false with
    | none => exact hr
    | some r => exact Reachable.add m r.2 kv.1 kv.2 false r.1 hr hadd

theorem full_map_reachable : Reachable demo_callbacks full_map := by
  have h := reachable_add_without_alloc demo_callbacks
    [(179, 110), (195, 120), (211, 130), (227, 140), (243, 150)] demo_map11 demo_map11_reachable
  have he : [(179, 110), (195, 120), (211, 130), (227, 140), (243, 150)].foldl
      (add_without_alloc demo_callbacks) demo_map11 = full_map := by decide
  rw [he] at h
  exact h

theorem demo_symm : ∀ a b, demo_callbacks.compare_ a b = true →
    demo_callbacks.compare_ b a = true := by
  intro a b h
  simp only [demo_callbacks, beq_iff_eq] at h ⊢
  exact h.symm

theorem demo_trans : ∀ a b c, demo_callbacks.compare_ a b = true →
    demo_callbacks.compare_ b c = true → demo_callbacks.compare_ a c = true := by
  intro a b c h1 h2
  simp only [demo_callbacks, beq_iff_eq] at h1 h2 ⊢
  exact h1.trans h2

/-- C3, counterexample: `full_map` is reachable with the demonstration
callbacks (constructors succeed, `compare_` is equality) through adds whose
resize attempts fail; all its sixteen slots are occupied.  Key `1000` is
absent: `sm_remove` of it changes nothing, `sm_find` is `SM_INVALID`, and the
subsequent `sm_add`, whose resize fails again, returns `false`. -/
theorem sm_add_after_remove_fails :
    Reachable demo_callbacks full_map ∧
    sm_remove demo_callbacks full_map 1000 = some full_map ∧
    sm_find demo_callbacks full_map 1000 = some SM_INVALID ∧
    (sm_add demo_callbacks full_map 1000 5 false).map Prod.fst = some false :=
  ⟨full_map_reachable, by decide, by decide, by decide⟩

/-- C3 (amended): on every map reachable from `sm_construct` by `sm_add` and
`sm_remove` with constructors that succeed and store faithfully, moves that
transfer their cells and a `compare_` that is an equivalence relation,
`sm_remove` of `k` returns, and when the byte offsets of the table do not wrap
(`capacity_ * key_size_` and `capacity_ * value_size_` at most `2^32`,
`ExactOffsets`) the key is not found afterwards (`sm_find` is `SM_INVALID`);
and provided `k` was present before the remove, or the table has an empty
slot, or the resize of the next add can succeed (allocator succeeding and
capacity below `2^31`), a subsequent `sm_add` of `k` with `v2` returns, and
when the offsets of the table it leaves do not wrap it has returned `true`
and `sm_try_get` of `k` then yields `v2`. -/
theorem sm_remove_then_add (cb : Callbacks K V) (hcs : ConstructorsSucceed cb)
    (hst : StoresFaithfully cb) (hmv : MovesFaithfully cb)
    (hrefl : ∀ x, cb.compare_ x x = true)
    (hsymm : ∀ a b, cb.compare_ a b = true → cb.compare_ b a = true)
    (htrans : ∀ a b c, cb.compare_ a b = true → cb.compare_ b c = true → cb.compare_ a c = true)
    (m : smallmap_t K V) (hr : Reachable cb m) (k : K) (v2 : V) (alloc_ok : Bool) :
    ∃ mr, sm_remove cb m k = some mr ∧
      (ExactOffsets mr → sm_find cb mr k = some SM_INVALID) ∧
      (((∃ p, sm_find cb m k = some p ∧ p ≠ SM_INVALID) ∨ occupied_count m < m.capacity_ ∨
          (alloc_ok = true ∧ m.capacity_ < 2147483648)) →
        ∃ b m', sm_add cb mr k v2 alloc_ok = some (b, m') ∧
          (ExactOffsets m' →
            b = true ∧ ∀ out, sm_try_get cb m' k out = some (true, v2))) := by
  have hwf := reachable_wf cb hr
  have hb := reachable_balanced cb hcs hr
  have hfind := sm_find_eq cb hwf.shape k
  obtain ⟨mr, hrem, hwfr⟩ := sm_remove_wf cb hwf k
  have hrr : Reachable cb mr := Reachable.remove m mr k hr hrem
  have hbr := reachable_balanced cb hcs hrr
  have hrem2 := hrem
  rw [sm_remove_eq cb hwf.shape] at hrem2
  have key : (ExactOffsets mr → first_match cb mr (sm_hash cb k) k = none) ∧
      mr.capacity_ = m.capacity_ ∧ occupied_count mr ≤ occupied_count m ∧
      ((∃ p, sm_find cb m k = some p ∧ p ≠ SM_INVALID) → occupied_count mr < m.capacity_) := by
    cases hfm : first_match cb m (sm_hash cb k) k with
    | none =>
      rw [hfm] at hrem2 hfind
      simp only [Option.some.injEq] at hrem2
      subst hrem2
      refine ⟨fun _ => hfm, rfl, Nat.le_refl _, ?_⟩
      rintro ⟨p, h1, h2⟩
      rw [hfind] at h1
      exact absurd (Option.some.inj h1).symm h2
    | some p =>
      rw [hfm] at hrem2
      simp only [Option.some.injEq] at hrem2
      subst hrem2
      obtain ⟨hp, hmp⟩ := first_match_some cb m _ k p hfm
      have hocc := slot_matches_occupied cb m _ k p hmp
      have hcnt := remove_at_count cb hwf.shape p hp hocc
      have hle := occupied_count_le m
      refine ⟨?_, (remove_at_frame cb m p).capacity, by omega, fun _ => by omega⟩
      intro hxr
      have hxm := remove_at_exact_back cb m p hxr
      have hu := reachable_unique cb hcs hst hmv hsymm htrans hr hxm
      have hperm := remove_at_perm cb hwf.shape hxm p hp hocc
      rw [first_match_none_iff]
      have h1 := hu k
      rw [(hperm.map _).countP_eq, List.map_cons, List.countP_cons] at h1
      have hme : entry_matches cb (sm_hash cb k) k ((slot_at m p).1, (slot_at m p).2.1) = true := by
        rw [← slot_matches_entry]; exact hmp
      simp only [hme, if_true] at h1
      have h0 : ((entries (sm_remove_at cb m p)).map (fun e => (e.1, e.2.1))).countP
          (entry_matches cb (sm_hash cb k) k) = 0 := by omega
      rw [List.countP_eq_zero] at h0
      intro e he
      have := h0 e he
      simpa using this
  obtain ⟨hnone, hcap, hcntle, hpres⟩ := key
  refine ⟨mr, hrem, ?_, ?_⟩
  · intro hxr
    rw [sm_find_eq cb hwfr.shape, hnone hxr]; rfl
  · intro hroom
    obtain ⟨b, m', hadd, _⟩ := sm_add_wf cb hwfr k v2 alloc_ok
    refine ⟨b, m', hadd, ?_⟩
    intro hx
    have hxr := sm_add_exact_back cb hwfr k v2 alloc_ok b hadd hx
    obtain ⟨m1, hm1, hwf1, _, _, _⟩ :=
      resize_cases cb (fun e => e.1) hwfr alloc_ok (Or.inl (fun _ _ _ _ _ => rfl))
    have hroom1 : occupied_count m1 < m1.capacity_ := by
      apply room_after_resize cb hwfr hbr alloc_ok hm1
      rw [hcap]
      rcases hroom with h | h | h
      · exact Or.inl (hpres h)
      · exact Or.inl (by omega)
      · exact Or.inr h
    obtain ⟨m2, hadd2⟩ :=
      sm_add_absent_room cb hcs hwfr k v2 alloc_ok (hnone hxr) m1 hwf1 hm1 hroom1
    rw [hadd2] at hadd
    simp only [Option.some.injEq, Prod.mk.injEq] at hadd
    obtain ⟨hbt, hm2⟩ := hadd
    subst hm2
    refine ⟨hbt.symm, ?_⟩
    obtain ⟨_, _, _, _, hget⟩ :=
      sm_add_true_lookup cb hwfr hrefl hst hmv.key k v2 alloc_ok hadd2 hx
    exact hget

theorem sm_remove_then_add_witness :
    sm_find demo_callbacks demo_map3 19 = some 4 ∧
    sm_try_get demo_callbacks demo_map3 19 0 = some (true, 190) ∧
    sm_remove demo_callbacks demo_map3 19 = some demo_map ∧
    ExactOffsets demo_map ∧
    (sm_add demo_callbacks demo_map 19 191 true).bind
      (fun r => sm_try_get demo_callbacks r.2 19 0) = some (true, 191) ∧
    ∃ mr, sm_remove demo_callbacks demo_map3 19 = some mr ∧
      (ExactOffsets mr → sm_find demo_callbacks mr 19 = some SM_INVALID) ∧
      (((∃ p, sm_find demo_callbacks demo_map3 19 = some p ∧ p ≠ SM_INVALID) ∨
          occupied_count demo_map3 < demo_map3.capacity_ ∨
          (true = true ∧ demo_map3.capacity_ < 2147483648)) →
        ∃ b m', sm_add demo_callbacks mr 19 191 true = some (b, m') ∧
          (ExactOffsets m' →
            b = true ∧ ∀ out, sm_try_get demo_callbacks m' 19 out = some (true, 191))) :=
  ⟨by decide, by decide, by decide, ⟨by decide, by decide⟩, by decide,
    sm_remove_then_add demo_callbacks demo_succeeds demo_stores demo_moves demo_refl demo_symm
      demo_trans demo_map3 demo_map3_reachable 19 191 true⟩

/-! ### Capacity and threshold -/

theorem sm_threshold_pow (n : Nat) (h4 : 4 ≤ n) (h31 : n ≤ 31) :
    (n ≤ 26 → sm_threshold (2 ^ n) = 2 ^ n * 7 / 10) ∧
    (26 < n → sm_threshold (2 ^ n) < 2 ^ n * 7 / 10 ∧
      2 ^ n * 7 / 10 ≤ sm_threshold (2 ^ n) + 25) := by
  unfold sm_threshold
  interval_cases n <;> norm_num

theorem wide_map_wf : WF wide_map := by
  refine ⟨⟨⟨26, by decide, by norm_num [wide_map]⟩, rfl, ?_, ?_, ?_⟩, ?_, ?_, ?_⟩
  · exact List.length_replicate _ _
  · exact List.length_replicate _ _
  · exact List.length_replicate _ _
  · intro i
    show (List.replicate 67108864 0).getD i 0 < 4294967296
    rw [getD_replicate]; omega
  · show 16 ≤ 67108864
    omega
  · show 46976204 = sm_threshold 67108864
    unfold sm_threshold; norm_num

theorem wf_cap_pow {m : smallmap_t K V} (h : WF m) :
    ∃ n, 4 ≤ n ∧ n ≤ 31 ∧ m.capacity_ = 2 ^ n := by
  obtain ⟨n, hn, hc⟩ := h.shape.cap
  refine ⟨n, ?_, hn, hc⟩
  by_contra hlt
  have h16 := h.cap16
  rw [hc] at h16
  have : n ≤ 3 := by omega
  have : 2 ^ n ≤ 2 ^ 3 := Nat.pow_le_pow_right (by decide) this
  omega

theorem sm_add_cases (cb : Callbacks K V) {m m' : smallmap_t K V} (h : WF m) (k : K) (v : V)
    (a b : Bool) (hadd : sm_add cb m k v a = some (b, m')) :
    ((∃ p, first_match cb m (sm_hash cb k) k = some p) ∧ b = false ∧ m' = m) ∨
    (first_match cb m (sm_hash cb k) k = none ∧
      ∃ m1, sm_add_resize cb m a = some m1 ∧ WF m1 ∧
        ((first_free m1 (sm_hash cb k) = none ∧ b = false ∧ m' = m1) ∨
         ∃ pos, first_free m1 (sm_hash cb k) = some pos ∧
           ((sm_add_item_at cb m1 (sm_hash cb k) k v pos).1 = true ∧ b = true ∧
              m' = { (sm_add_item_at cb m1 (sm_hash cb k) k v pos).2 with
                size_ := u64 ((sm_add_item_at cb m1 (sm_hash cb k) k v pos).2.size_ + 1) } ∨
            (sm_add_item_at cb m1 (sm_hash cb k) k v pos).1 = false ∧ b = false ∧
              m' = (sm_add_item_at cb m1 (sm_hash cb k) k v pos).2))) := by
  cases hp : first_match cb m (sm_hash cb k) k with
  | some p =>
    rw [sm_add_present cb h.shape k v a p hp] at hadd
    cases hadd
    exact Or.inl ⟨⟨p, rfl⟩, rfl, rfl⟩
  | none =>
    obtain ⟨m1, hm1, hwf1, _, _, _⟩ :=
      resize_cases cb (fun e => e.1) h a (Or.inl (fun _ _ _ _ _ => rfl))
    rw [sm_add_absent cb h.shape k v a hp m1 hwf1.shape hm1] at hadd
    refine Or.inr ⟨rfl, m1, hm1, hwf1, ?_⟩
    cases hff : first_free m1 (sm_hash cb k) with
    | none =>
      rw [hff] at hadd
      cases hadd
      exact Or.inl ⟨rfl, rfl, rfl⟩
    | some pos =>
      rw [hff] at hadd
      simp only [] at hadd
      refine Or.inr ⟨pos, rfl, ?_⟩
      by_cases hb : (sm_add_item_at cb m1 (sm_hash cb k) k v pos).1 = true
      · rw [if_pos hb] at hadd
        cases hadd
        exact Or.inl ⟨hb, rfl, rfl⟩
      · rw [if_neg hb] at hadd
        cases hadd
        exact Or.inr ⟨by simpa using hb, rfl, rfl⟩

theorem sm_add_capacity (cb : Callbacks K V) {m m' : smallmap_t K V} (h : WF m) (k : K) (v : V)
    (a b : Bool) (hadd : sm_add cb m k v a = some (b, m')) :
    WF m' ∧
    (first_match cb m (sm_hash cb k) k = none ∧ m.resize_threshold_ ≤ m.size_ ∧ a = true ∧
        m.capacity_ < 2147483648 ∧ m'.capacity_ = 2 * m.capacity_
      ∨ ¬ (first_match cb m (sm_hash cb k) k = none ∧ m.resize_threshold_ ≤ m.size_ ∧ a = true ∧
        m.capacity_ < 2147483648) ∧ m'.capacity_ = m.capacity_) := by
  have hwf' : WF m' := by
    obtain ⟨b', m'', h1, h2⟩ := sm_add_wf cb h k v a
    rw [h1] at hadd
    cases hadd
    exact h2
  refine ⟨hwf', ?_⟩
  rcases sm_add_cases cb h k v a b hadd with ⟨⟨p, hp⟩, _, hm⟩ | ⟨hnone, m1, hm1, hwf1, hrest⟩
  · right
    rw [hm, hp]
    exact ⟨by simp, rfl⟩
  · have hcap' : m'.capacity_ = m1.capacity_ := by
      rcases hrest with ⟨_, _, hm⟩ | ⟨pos, _, ⟨_, _, hm⟩ | ⟨_, _, hm⟩⟩
      · rw [hm]
      · rw [hm]; exact (add_item_at_frame cb m1 (sm_hash cb k) k v pos).capacity
      · rw [hm]; exact (add_item_at_frame cb m1 (sm_hash cb k) k v pos).capacity
    obtain ⟨m1', hm1', _, _, _, hcases⟩ :=
      resize_cases cb (fun e => e.1) h a (Or.inl (fun _ _ _ _ _ => rfl))
    have : m1' = m1 := by
      rw [hm1] at hm1'; exact (Option.some.inj hm1').symm
    subst this
    rcases hcases with ⟨he, hlt⟩ | ⟨he, ha, _, _⟩ | ⟨ha, hthr, hcap, hc, _⟩
    · right
      refine ⟨?_, by rw [hcap', he]⟩
      rintro ⟨_, h1, _, h2⟩
      omega
    · right
      refine ⟨?_, by rw [hcap', he]⟩
      rintro ⟨_, _, h1, _⟩
      rw [ha] at h1
      exact Bool.false_ne_true h1
    · left
      exact ⟨hnone, hthr, ha, hcap, by rw [hcap', hc]⟩

theorem sm_remove_capacity (cb : Callbacks K V) {m m' : smallmap_t K V} (h : WF m) (k : K)
    (hrem : sm_remove cb m k = some m') : WF m' ∧ m'.capacity_ = m.capacity_ := by
  have hwf' : WF m' := by
    obtain ⟨m'', h1, h2⟩ := sm_remove_wf cb h k
    rw [h1] at hrem
    cases hrem
    exact h2
  refine ⟨hwf', ?_⟩
  rw [sm_remove_eq cb h.shape] at hrem
  cases hp : first_match cb m (sm_hash cb k) k with
  | none =>
    rw [hp] at hrem
    cases hrem
    rfl
  | some pos =>
    rw [hp] at hrem
    cases hrem
    exact (remove_at_frame cb m pos).capacity

theorem sm_call_add (cb : Callbacks K V) {m : smallmap_t K V} (h : Shape m) (key : K) (value : V)
    (a b : Bool) (m' : smallmap_t K V) (hadd : sm_add cb m key value a = some (b, m')) :
    sm_call cb m (Op.add key value a) =
      some (⟨1, if (first_match cb m (sm_hash cb key) key).getD SM_INVALID = SM_INVALID then 1 else 0,
        if b then 1 else 0, 0, 0⟩, m') := by
  show (match sm_find cb m key, sm_add cb m key value a with
    | some pos, some (b, map1) =>
      some ((⟨1, if pos = SM_INVALID then 1 else 0, if b then 1 else 0, 0, 0⟩ : Tally), map1)
    | _, _ => none) = _
  rw [sm_find_eq cb h, hadd]

theorem sm_call_remove (cb : Callbacks K V) {m : smallmap_t K V} (h : Shape m) (key : K)
    (m' : smallmap_t K V) (hrem : sm_remove cb m key = some m') :
    sm_call cb m (Op.remove key) =
      some (⟨0, 0, 0, 1,
        if (first_match cb m (sm_hash cb key) key).getD SM_INVALID = SM_INVALID then 0 else 1⟩, m') := by
  show (match sm_find cb m key, sm_remove cb m key with
    | some pos, some map1 =>
      some ((⟨0, 0, 0, 1, if pos = SM_INVALID then 0 else 1⟩ : Tally), map1)
    | _, _ => none) = _
  rw [sm_find_eq cb h, hrem]

theorem sm_call_total (cb : Callbacks K V) {m : smallmap_t K V} (h : WF m) (op : Op K V) :
    ∃ t m', sm_call cb m op = some (t, m') ∧ WF m' ∧ m.capacity_ ≤ m'.capacity_ := by
  cases op with
  | add key value alloc_ok =>
    obtain ⟨b, m', hadd, hwf'⟩ := sm_add_wf cb h key value alloc_ok
    have hc := (sm_add_capacity cb h key value alloc_ok b hadd).2
    refine ⟨_, m', sm_call_add cb h.shape key value alloc_ok b m' hadd, hwf', ?_⟩
    rcases hc with ⟨_, _, _, _, hc⟩ | ⟨_, hc⟩ <;> omega
  | remove key =>
    obtain ⟨m', hrem, hwf'⟩ := sm_remove_wf cb h key
    have hc := (sm_remove_capacity cb h key hrem).2
    exact ⟨_, m', sm_call_remove cb h.shape key m' hrem, hwf', by omega⟩

theorem sm_run_total (cb : Callbacks K V) (ops : List (Op K V)) :
    ∀ {m : smallmap_t K V}, WF m →
      ∃ t m', sm_run cb m ops = some (t, m') ∧ WF m' ∧ m.capacity_ ≤ m'.capacity_ := by
  induction ops with
  | nil => intro m h; exact ⟨_, m, rfl, h, Nat.le_refl _⟩
  | cons op rest ih =>
    intro m h
    obtain ⟨t, m1, h1, hwf1, hc1⟩ := sm_call_total cb h op
    obtain ⟨ts, m2, h2, hwf2, hc2⟩ := ih hwf1
    refine ⟨t.plus ts, m2, ?_, hwf2, by omega⟩
    unfold sm_run
    rw [h1]
    simp only []
    rw [h2]

/-- C12 (amended): the threshold stored in a reachable map is the value
`sm_threshold` that `sm_expand` computes for the capacity, the capacity times
the single-precision constant `0.7f = 11744051 / 2^24`, truncated; for every
capacity `2^4 .. 2^26` this is `floor(capacity * 7 / 10)`, and for every
capacity `2^27 .. 2^31` it is smaller than that, by at most 25. -/
theorem reachable_threshold (cb : Callbacks K V) (m : smallmap_t K V) (hr : Reachable cb m) :
    m.resize_threshold_ = sm_threshold m.capacity_ ∧
    m.resize_threshold_ = 11744051 * m.capacity_ / 16777216 ∧
    (m.capacity_ ≤ 67108864 → m.resize_threshold_ = m.capacity_ * 7 / 10) ∧
    (67108864 < m.capacity_ → m.resize_threshold_ < m.capacity_ * 7 / 10 ∧
      m.capacity_ * 7 / 10 ≤ m.resize_threshold_ + 25) ∧
    ∀ n, 4 ≤ n → n ≤ 31 →
      (n ≤ 26 → sm_threshold (2 ^ n) = 2 ^ n * 7 / 10) ∧
      (26 < n → sm_threshold (2 ^ n) < 2 ^ n * 7 / 10 ∧
        2 ^ n * 7 / 10 ≤ sm_threshold (2 ^ n) + 25) := by
  have h := reachable_wf cb hr
  obtain ⟨n, h4, h31, hc⟩ := wf_cap_pow h
  have hp := sm_threshold_pow n h4 h31
  have ht := h.threshold
  refine ⟨ht, ?_⟩
  rw [hc] at ht
  rw [ht, hc]
  refine ⟨rfl, ?_, ?_, sm_threshold_pow⟩
  · intro hle
    apply hp.1
    by_contra hn
    have : 2 ^ 27 ≤ 2 ^ n := Nat.pow_le_pow_right (by decide) (by omega)
    omega
  · intro hlt
    apply hp.2
    by_contra hn
    have : 2 ^ n ≤ 2 ^ 26 := Nat.pow_le_pow_right (by decide) (by omega)
    omega

theorem reachable_threshold_witness :
    demo_map12.resize_threshold_ = sm_threshold demo_map12.capacity_ ∧
    demo_map12.resize_threshold_ = 11744051 * demo_map12.capacity_ / 16777216 ∧
    (demo_map12.capacity_ ≤ 67108864 →
      demo_map12.resize_threshold_ = demo_map12.capacity_ * 7 / 10) ∧
    (67108864 < demo_map12.capacity_ →
      demo_map12.resize_threshold_ < demo_map12.capacity_ * 7 / 10 ∧
      demo_map12.capacity_ * 7 / 10 ≤ demo_map12.resize_threshold_ + 25) ∧
    ∀ n, 4 ≤ n → n ≤ 31 →
      (n ≤ 26 → sm_threshold (2 ^ n) = 2 ^ n * 7 / 10) ∧
      (26 < n → sm_threshold (2 ^ n) < 2 ^ n * 7 / 10 ∧
        2 ^ n * 7 / 10 ≤ sm_threshold (2 ^ n) + 25) :=
  reachable_threshold demo_callbacks demo_map12 demo_map12_reachable

/-- C12 (counterexample): on the well-formed empty table of capacity `2^26`
`sm_expand` stores the threshold 93952408 for the new capacity `2^27`, and
`floor(2^27 * 7 / 10)` is 93952409. -/
theorem sm_expand_threshold_differs :
    ∃ m', sm_expand demo_callbacks wide_map true = some (true, m') ∧
      m'.capacity_ = 134217728 ∧ m'.resize_threshold_ = 93952408 ∧
      134217728 * 7 / 10 = 93952409 := by
  obtain ⟨m', he, hwf, hc, _⟩ :=
    sm_expand_ok demo_callbacks (fun e => e.1) (Or.inl (fun _ _ _ _ _ => rfl)) wide_map_wf
      (show (67108864 : Nat) < 2147483648 by omega)
  have hc' : m'.capacity_ = 134217728 := by rw [hc]; rfl
  refine ⟨m', he, hc', ?_, by norm_num⟩
  rw [hwf.threshold, hc']
  unfold sm_threshold; norm_num

/-- C13: in every reachable map the capacity is a power of two between 16 and
`2^31`, hence below `SM_INVALID`, and the mask is the capacity minus one; no
sequence of calls decreases the capacity; at capacity `2^31` the resize, which
would produce `2^32`, returns `false` and leaves the whole map as it was. -/
theorem reachable_capacity (cb : Callbacks K V) (m : smallmap_t K V) (hr : Reachable cb m) :
    (∃ n, 4 ≤ n ∧ n ≤ 31 ∧ m.capacity_ = 2 ^ n) ∧
    16 ≤ m.capacity_ ∧ m.capacity_ ≤ 2147483648 ∧ m.capacity_ < SM_INVALID ∧
    m.mask_ = m.capacity_ - 1 ∧
    (∀ ops, ∃ t m', sm_run cb m ops = some (t, m') ∧ m.capacity_ ≤ m'.capacity_) ∧
    (m.capacity_ = 2147483648 → ∀ alloc_ok, sm_expand cb m alloc_ok = some (false, m)) := by
  have h := reachable_wf cb hr
  have hle := h.shape.cap_le
  refine ⟨wf_cap_pow h, h.cap16, hle, ?_, h.shape.mask, ?_, ?_⟩
  · unfold SM_INVALID; omega
  · intro ops
    obtain ⟨t, m', h1, _, h2⟩ := sm_run_total cb ops h
    exact ⟨t, m', h1, h2⟩
  · intro hcap alloc_ok
    exact sm_expand_full cb h hcap alloc_ok

theorem reachable_capacity_witness :
    (∃ n, 4 ≤ n ∧ n ≤ 31 ∧ demo_map11.capacity_ = 2 ^ n) ∧
    16 ≤ demo_map11.capacity_ ∧ demo_map11.capacity_ ≤ 2147483648 ∧
    demo_map11.capacity_ < SM_INVALID ∧
    demo_map11.mask_ = demo_map11.capacity_ - 1 ∧
    (∀ ops, ∃ t m', sm_run demo_callbacks demo_map11 ops = some (t, m') ∧
      demo_map11.capacity_ ≤ m'.capacity_) ∧
    (demo_map11.capacity_ = 2147483648 →
      ∀ alloc_ok, sm_expand demo_callbacks demo_map11 alloc_ok = some (false, demo_map11)) :=
  reachable_capacity demo_callbacks demo_map11 demo_map11_reachable

/-! ### Size and threshold -/

theorem resizing_reachable (cb : Callbacks K V) {m : smallmap_t K V}
    (h : ReachableResizing cb m) : Reachable cb m := by
  induction h with
  | construct ks vs a1 a2 m t hc => exact Reachable.construct ks vs a1 a2 m t hc
  | add m m' k v a b _ _ hadd ih => exact Reachable.add m m' k v a b ih hadd
  | remove m m' k _ hrem ih => exact Reachable.remove m m' k ih hrem
  | remove_at m k pos _ hf hne ih => exact Reachable.remove_at m k pos ih hf hne

theorem sm_threshold_double (c : Nat) (hc : 16 ≤ c) :
    sm_threshold c + 1 ≤ sm_threshold (2 * c) := by
  unfold sm_threshold
  omega

theorem sm_add_size_le (cb : Callbacks K V) (hcs : ConstructorsSucceed cb)
    {m m' : smallmap_t K V} (h : WF m) (hb : Balanced m) (k : K) (v : V) (a b : Bool)
    (hok : sm_find cb m k = some SM_INVALID → m.resize_threshold_ ≤ m.size_ →
      ∃ m1, sm_expand cb m a = some (true, m1))
    (hle : m.size_ ≤ m.resize_threshold_)
    (hadd : sm_add cb m k v a = some (b, m')) : m'.size_ ≤ m'.resize_threshold_ := by
  have hsz := (sm_add_balanced cb hcs h hb k v a b hadd).2
  have hsize : m'.size_ ≤ m.size_ + 1 := by
    cases b
    · rw [hsz.2 rfl]; omega
    · rw [hsz.1 rfl]
  rcases sm_add_cases cb h k v a b hadd with ⟨_, _, hm⟩ | ⟨hnone, m1, hm1, hwf1, hrest⟩
  · rw [hm]; exact hle
  · have hthr' : m'.resize_threshold_ = m1.resize_threshold_ := by
      rcases hrest with ⟨_, _, hm⟩ | ⟨pos, _, ⟨_, _, hm⟩ | ⟨_, _, hm⟩⟩
      · rw [hm]
      · rw [hm]; exact (add_item_at_frame cb m1 (sm_hash cb k) k v pos).threshold
      · rw [hm]; exact (add_item_at_frame cb m1 (sm_hash cb k) k v pos).threshold
    have hfind : sm_find cb m k = some SM_INVALID := by
      rw [sm_find_eq cb h.shape, hnone]; rfl
    obtain ⟨m1', hm1', _, _, _, hcases⟩ :=
      resize_cases cb (fun e => e.1) h a (Or.inl (fun _ _ _ _ _ => rfl))
    have : m1' = m1 := by
      rw [hm1] at hm1'; exact (Option.some.inj hm1').symm
    subst this
    by_cases hthr : m.resize_threshold_ ≤ m.size_
    · obtain ⟨m2, hexp⟩ := hok hfind hthr
      rcases hcases with ⟨_, hlt | hcap⟩ | ⟨_, ha, _, hcap⟩ | ⟨_, _, _, hc, _⟩
      · omega
      · rw [sm_expand_full cb h hcap a] at hexp
        simp at hexp
      · rw [ha, sm_expand_alloc_fail cb h hcap] at hexp
        simp at hexp
      · have h1 := hwf1.threshold
        have h2 := h.threshold
        have h3 := sm_threshold_double m.capacity_ h.cap16
        rw [hthr', h1, hc]
        omega
    · rcases hcases with ⟨he, _⟩ | ⟨_, _, hge, _⟩ | ⟨_, hge, _⟩
      · rw [hthr', he]; omega
      · omega
      · omega

theorem remove_at_size_le (cb : Callbacks K V) {m : smallmap_t K V} (h : WF m) (hb : Balanced m)
    (k : K) (pos : Nat) (hfm : first_match cb m (sm_hash cb k) k = some pos)
    (hle : m.size_ ≤ m.resize_threshold_) :
    (sm_remove_at cb m pos).size_ ≤ (sm_remove_at cb m pos).resize_threshold_ := by
  obtain ⟨hp, hmp⟩ := first_match_some cb m _ k pos hfm
  have hs := (remove_at_balanced cb h hb pos hp (slot_matches_occupied cb m _ k pos hmp)).2
  have ht : (sm_remove_at cb m pos).resize_threshold_ = m.resize_threshold_ :=
    (remove_at_frame cb m pos).threshold
  omega

theorem resizing_size_le (cb : Callbacks K V) (hcs : ConstructorsSucceed cb)
    {m : smallmap_t K V} (hr : ReachableResizing cb m) : m.size_ ≤ m.resize_threshold_ := by
  induction hr with
  | construct ks vs a1 a2 m t hc =>
    rw [sm_construct_some cb ks vs a1 a2 m t hc]
    show 0 ≤ _
    exact Nat.zero_le _
  | add m m' k v a b hm hok hadd ih =>
    have hreach := resizing_reachable cb hm
    exact sm_add_size_le cb hcs (reachable_wf cb hreach) (reachable_balanced cb hcs hreach)
      k v a b hok ih hadd
  | remove m m' k hm hrem ih =>
    have hreach := resizing_reachable cb hm
    have hwf := reachable_wf cb hreach
    rw [sm_remove_eq cb hwf.shape] at hrem
    cases hfm : first_match cb m (sm_hash cb k) k with
    | none =>
      rw [hfm] at hrem
      simp only [Option.some.injEq] at hrem
      rw [← hrem]; exact ih
    | some p =>
      rw [hfm] at hrem
      simp only [Option.some.injEq] at hrem
      rw [← hrem]
      exact remove_at_size_le cb hwf (reachable_balanced cb hcs hreach) k p hfm ih
  | remove_at m k pos hm hf hne ih =>
    have hreach := resizing_reachable cb hm
    have hwf := reachable_wf cb hreach
    have hfm := sm_find_some_first_match cb hwf.shape k pos hf hne
    exact remove_at_size_le cb hwf (reachable_balanced cb hcs hreach) k pos hfm ih

theorem resizing_add (cb : Callbacks K V) {m m' : smallmap_t K V} (hr : ReachableResizing cb m)
    (hcap : m.capacity_ < 2147483648) (k : K) (v : V) (b : Bool)
    (hadd : sm_add cb m k v true = some (b, m')) : ReachableResizing cb m' := by
  refine ReachableResizing.add m m' k v true b hr ?_ hadd
  intro _ _
  obtain ⟨m1, he, _⟩ := sm_expand_ok cb (fun e => e.1) (Or.inl (fun _ _ _ _ _ => rfl))
    (reachable_wf cb (resizing_reachable cb hr)) hcap
  exact ⟨m1, he⟩

theorem resizing_add_all (cb : Callbacks K V) :
    ∀ (kvs : List (K × V)) (m m' : smallmap_t K V) (bs : List Bool), ReachableResizing cb m →
      m.capacity_ * 2 ^ kvs.length ≤ 2147483648 →
      sm_add_all cb m kvs = some (bs, m') → ReachableResizing cb m' := by
  intro kvs
  induction kvs with
  | nil =>
    intro m m' bs hr _ h
    simp only [sm_add_all, Option.some.injEq, Prod.mk.injEq] at h
    rw [← h.2]; exact hr
  | cons kv rest ih =>
    intro m m' bs hr hcap h
    rw [sm_add_all] at h
    have hwf := reachable_wf cb (resizing_reachable cb hr)
    have hpos := hwf.shape.cap_pos
    rw [List.length_cons, Nat.pow_succ] at hcap
    have hlt : m.capacity_ < 2147483648 := by
      have h1 : 1 ≤ 2 ^ rest.length := Nat.one_le_two_pow
      have h2 : m.capacity_ * 2 ≤ m.capacity_ * (2 ^ rest.length * 2) :=
        Nat.mul_le_mul_left _ (by omega)
      omega
    cases hadd : sm_add cb m kv.1 kv.2 true with
    | none => rw [hadd] at h; simp at h
    | some r =>
      obtain ⟨b, m1⟩ := r
      rw [hadd] at h
      simp only [] at h
      cases hall : sm_add_all cb m1 rest with
      | none => rw [hall] at h; simp at h
      | some r2 =>
        have hc := (sm_add_capacity cb hwf kv.1 kv.2 true b hadd).2
        have hle : m1.capacity_ ≤ 2 * m.capacity_ := by
          rcases hc with ⟨_, _, _, _, hc⟩ | ⟨_, hc⟩ <;> omega
        have hcap1 : m1.capacity_ * 2 ^ rest.length ≤ 2147483648 := by
          have := Nat.mul_le_mul_right (2 ^ rest.length) hle
          have h3 : 2 * m.capacity_ * 2 ^ rest.length = m.capacity_ * (2 ^ rest.length * 2) := by
            ring
          omega
        rw [hall] at h
        simp only [Option.some.injEq, Prod.mk.injEq] at h
        rw [← h.2]
        exact ih m1 r2.2 r2.1 (resizing_add cb hr hlt kv.1 kv.2 b hadd) hcap1 hall

theorem resizing_fresh (cb : Callbacks K V) (key_size value_size : Nat) :
    ReachableResizing cb (fresh_map key_size value_size) :=
  ReachableResizing.construct key_size value_size true true _ _
    (by rw [sm_construct_eq]; rfl)

theorem demo_map11_resizing : ReachableResizing demo_callbacks demo_map11 :=
  resizing_add_all demo_callbacks demo_pairs (fresh_map 8 4) demo_map11
    (List.replicate 11 true) (resizing_fresh demo_callbacks 8 4) (by decide) (by decide)

theorem demo_map12_resizing : ReachableResizing demo_callbacks demo_map12 :=
  resizing_add demo_callbacks demo_map11_resizing (by decide) 179 110 true (by decide)

/-- C11 (amended): in every map reached from `sm_construct` by calls of
`sm_add` and `sm_remove` in which no resize attempt has failed and no
constructor has failed, `size_ <= resize_threshold_`; and in every reachable
map, failed resizes included, `resize_threshold_ < capacity_`. -/
theorem size_le_threshold (cb : Callbacks K V) (hcs : ConstructorsSucceed cb)
    (m : smallmap_t K V) (hr : ReachableResizing cb m) :
    m.size_ ≤ m.resize_threshold_ ∧ m.resize_threshold_ < m.capacity_ ∧
    ∀ m2, Reachable cb m2 → m2.resize_threshold_ < m2.capacity_ := by
  have hall : ∀ m2, Reachable cb m2 → m2.resize_threshold_ < m2.capacity_ := by
    intro m2 h2
    have hwf := reachable_wf cb h2
    rw [hwf.threshold]
    exact sm_threshold_lt _ hwf.shape.cap_pos
  exact ⟨resizing_size_le cb hcs hr, hall m (resizing_reachable cb hr), hall⟩

theorem size_le_threshold_witness :
    demo_map12.size_ ≤ demo_map12.resize_threshold_ ∧
    demo_map12.resize_threshold_ < demo_map12.capacity_ ∧
    ∀ m2, Reachable demo_callbacks m2 → m2.resize_threshold_ < m2.capacity_ :=
  size_le_threshold demo_callbacks demo_succeeds demo_map12 demo_map12_resizing

/-- C11 (counterexample): `full_map` is reached from a fresh map by sixteen
adds of distinct keys, the last five with the allocator returning null at the
resize attempt; its `size_` is 16 and its `resize_threshold_` is 11. -/
theorem size_exceeds_threshold :
    Reachable demo_callbacks full_map ∧ full_map.size_ = 16 ∧
    full_map.resize_threshold_ = 11 ∧ ¬ full_map.size_ ≤ full_map.resize_threshold_ :=
  ⟨full_map_reachable, rfl, rfl, by decide⟩

/-! ### When `sm_add` resizes -/

theorem sm_find_invalid_iff_none (cb : Callbacks K V) {m : smallmap_t K V} (h : Shape m) (k : K) :
    sm_find cb m k = some SM_INVALID ↔ first_match cb m (sm_hash cb k) k = none := by
  rw [sm_find_eq cb h]
  cases hfm : first_match cb m (sm_hash cb k) k with
  | none => simp
  | some p =>
    have := first_match_ne_invalid cb h _ k p hfm
    simp [this]

/-- On a reachable map of capacity `c < 2^31`, with an allocator that
succeeds, `sm_add` of any key returns, and the capacity afterwards is `2 * c`
if the key was absent and `size_ >= resize_threshold_` on entry, and `c` in
every other case (so it changes exactly in the first case). -/
theorem sm_add_doubles_iff (cb : Callbacks K V) (m : smallmap_t K V) (hr : Reachable cb m)
    (hcap : m.capacity_ < 2147483648) (k : K) (v : V) :
    ∃ b m', sm_add cb m k v true = some (b, m') ∧
      (m'.capacity_ ≠ m.capacity_ ↔
        sm_find cb m k = some SM_INVALID ∧ m.resize_threshold_ ≤ m.size_) ∧
      (sm_find cb m k = some SM_INVALID ∧ m.resize_threshold_ ≤ m.size_ →
        m'.capacity_ = 2 * m.capacity_) ∧
      (¬ (sm_find cb m k = some SM_INVALID ∧ m.resize_threshold_ ≤ m.size_) →
        m'.capacity_ = m.capacity_) := by
  have h := reachable_wf cb hr
  obtain ⟨b, m', hadd, _⟩ := sm_add_wf cb h k v true
  have hpos := h.shape.cap_pos
  have hc := (sm_add_capacity cb h k v true b hadd).2
  rw [sm_find_invalid_iff_none cb h.shape]
  refine ⟨b, m', hadd, ?_, ?_, ?_⟩
  · rcases hc with ⟨h1, h2, _, _, h5⟩ | ⟨h1, h2⟩
    · exact ⟨fun _ => ⟨h1, h2⟩, fun _ => by omega⟩
    · constructor
      · intro hne; exact absurd h2 hne
      · rintro ⟨h3, h4⟩
        exact absurd ⟨h3, h4, rfl, hcap⟩ h1
  · rintro ⟨h3, h4⟩
    rcases hc with ⟨_, _, _, _, h5⟩ | ⟨h1, _⟩
    · exact h5
    · exact absurd ⟨h3, h4, rfl, hcap⟩ h1
  · intro hn
    rcases hc with ⟨h1, h2, _⟩ | ⟨_, h2⟩
    · exact absurd ⟨h1, h2⟩ hn
    · exact h2

/-! ### The insertion probe finds a slot -/

theorem room_of_resize (cb : Callbacks K V) {m : smallmap_t K V} (hwf : WF m)
    (hsize : m.size_ = occupied_count m) (hle : m.size_ ≤ m.resize_threshold_) (a : Bool)
    (hres : m.resize_threshold_ ≤ m.size_ → ∃ m1, sm_expand cb m a = some (true, m1)) :
    ∃ m1, sm_add_resize cb m a = some m1 ∧ WF m1 ∧ occupied_count m1 < m1.capacity_ := by
  obtain ⟨m1, hm1, hwf1, _, hperm, hcases⟩ :=
    resize_cases cb (fun e => e.1) hwf a (Or.inl (fun _ _ _ _ _ => rfl))
  refine ⟨m1, hm1, hwf1, ?_⟩
  have hlt : m.resize_threshold_ < m.capacity_ := by
    rw [hwf.threshold]; exact sm_threshold_lt _ hwf.shape.cap_pos
  have hcount : occupied_count m1 = occupied_count m := by
    rw [occupied_count_eq, occupied_count_eq]
    have := hperm.length_eq
    rwa [List.length_map, List.length_map] at this
  rcases hcases with ⟨he, _⟩ | ⟨_, ha, hthr, hcap⟩ | ⟨_, _, _, hc, _⟩
  · rw [hcount, he]; omega
  · obtain ⟨m2, hexp⟩ := hres hthr
    rw [ha, sm_expand_alloc_fail cb hwf hcap] at hexp
    simp at hexp
  · rw [hcount, hc]; omega

theorem probe_found_of_first_free {m : smallmap_t K V} (h : Shape m) (hash pos : Nat)
    (hff : first_free m hash = some pos) :
    probe (fun p => is_empty_word (m.hashes_.getD p 0)) m.mask_ (u32 (hash &&& m.mask_))
      (m.mask_ + 1) (u32 (hash &&& m.mask_)) = Probe.found pos := by
  rw [h.probe_order_eq]
  unfold first_free at hff
  rw [hff]
  rfl

/-- C19: on a well-formed map (whose `resize_threshold_` is therefore below
`capacity_`) with `size_` equal to the number of occupied slots and
`size_ <= resize_threshold_`, whose resize succeeds if one is attempted, the table that `sm_add` hands to `sm_add_item` has an empty
slot: for every hash the insertion probe stops at a slot whose occupied bit is
clear, `sm_add_item` never takes its wrap-around branch, and `sm_add` of an
absent key returns `true` when the constructors succeed. -/
theorem sm_add_item_finds_slot (cb : Callbacks K V) (m : smallmap_t K V) (hwf : WF m)
    (hsize : m.size_ = occupied_count m) (hle : m.size_ ≤ m.resize_threshold_)
    (k : K) (v : V) (alloc_ok : Bool)
    (habsent : sm_find cb m k = some SM_INVALID)
    (hres : m.resize_threshold_ ≤ m.size_ → ∃ m1, sm_expand cb m alloc_ok = some (true, m1)) :
    ∃ m1, sm_add_resize cb m alloc_ok = some m1 ∧
      (∀ hash, ∃ pos, pos < m1.capacity_ ∧ is_empty_word (m1.hashes_.getD pos 0) = true ∧
        probe (fun p => is_empty_word (m1.hashes_.getD p 0)) m1.mask_ (u32 (hash &&& m1.mask_))
          (m1.mask_ + 1) (u32 (hash &&& m1.mask_)) = Probe.found pos ∧
        ∀ key value, sm_add_item cb m1 hash key value =
          some (sm_add_item_at cb m1 hash key value pos)) ∧
      (ConstructorsSucceed cb → ∃ m', sm_add cb m k v alloc_ok = some (true, m')) := by
  obtain ⟨m1, hm1, hwf1, hroom⟩ := room_of_resize cb hwf hsize hle alloc_ok hres
  refine ⟨m1, hm1, ?_, ?_⟩
  · intro hash
    obtain ⟨pos, hff⟩ := first_free_isSome m1 hash hroom
    obtain ⟨hpos, hempty⟩ := first_free_some m1 hash pos hff
    refine ⟨pos, hpos, hempty, probe_found_of_first_free hwf1.shape hash pos hff, ?_⟩
    intro key value
    rw [sm_add_item_eq cb hwf1.shape, hff]
  · intro hcs
    have hnone := (sm_find_invalid_iff_none cb hwf.shape k).mp habsent
    exact sm_add_absent_room cb hcs hwf k v alloc_ok hnone m1 hwf1 hm1 hroom

theorem sm_add_item_finds_slot_witness :
    ∃ m1, sm_add_resize demo_callbacks demo_map11 true = some m1 ∧
      (∀ hash, ∃ pos, pos < m1.capacity_ ∧ is_empty_word (m1.hashes_.getD pos 0) = true ∧
        probe (fun p => is_empty_word (m1.hashes_.getD p 0)) m1.mask_ (u32 (hash &&& m1.mask_))
          (m1.mask_ + 1) (u32 (hash &&& m1.mask_)) = Probe.found pos ∧
        ∀ key value, sm_add_item demo_callbacks m1 hash key value =
          some (sm_add_item_at demo_callbacks m1 hash key value pos)) ∧
      (ConstructorsSucceed demo_callbacks →
        ∃ m', sm_add demo_callbacks demo_map11 179 110 true = some (true, m')) :=
  sm_add_item_finds_slot demo_callbacks demo_map11 (reachable_wf demo_callbacks demo_map11_reachable)
    (by decide) (by decide) 179 110 true (by decide)
    (fun _ => (sm_expand_ok demo_callbacks (fun e => e.1) (Or.inl (fun _ _ _ _ _ => rfl))
      (reachable_wf demo_callbacks demo_map11_reachable) (by decide)).imp (fun _ h => h.1))

/-! ### Termination of the probe loops -/

theorem probe_pos (c start j : Nat) (hs : start < c) (hj : j < c) :
    (start + j) % c = if start + j < c then start + j else start + j - c := by
  split
  · next h => exact Nat.mod_eq_of_lt h
  · next h => rw [Nat.mod_eq_sub_mod (by omega), Nat.mod_eq_of_lt (by omega)]

theorem probe_step_iterate (n : Nat) (hn : n ≤ 31) (start : Nat) (hs : start < 2 ^ n) (j : Nat) :
    Nat.iterate (probe_step (2 ^ n - 1)) j start = (start + j) % 2 ^ n := by
  induction j with
  | zero => rw [Function.iterate_zero, id, Nat.add_zero, Nat.mod_eq_of_lt hs]
  | succ j ih =>
    rw [Function.iterate_succ_apply', ih]
    unfold probe_step
    rw [probe_next n hn, Nat.add_assoc]

theorem probe_short (cond : Nat → Bool) (n : Nat) (hn : n ≤ 31) (start : Nat) (hs : start < 2 ^ n)
    (hc : ∀ i, i < 2 ^ n → cond i = false) :
    ∀ fuel j, j + fuel < 2 ^ n →
      probe cond (2 ^ n - 1) start fuel ((start + j) % 2 ^ n) = Probe.timeout := by
  intro fuel
  induction fuel with
  | zero => intro j _; rfl
  | succ fuel ih =>
    intro j hj
    have hpos : 0 < 2 ^ n := Nat.two_pow_pos n
    rw [probe, hc _ (Nat.mod_lt _ hpos), probe_next n hn]
    simp only [Bool.false_eq_true, if_false]
    have hne : (start + j + 1) % 2 ^ n ≠ start := by
      rw [Nat.add_assoc, probe_pos _ _ _ hs (by omega)]
      split <;> omega
    rw [if_pos hne]
    have := ih (j + 1) (by omega)
    rw [← Nat.add_assoc] at this
    exact this

theorem probe_visits_aux (cond : Nat → Bool) (n : Nat) (hn : n ≤ 31) (start : Nat)
    (hs : start < 2 ^ n) (hc : ∀ i, i < 2 ^ n → cond i = false) :
    ∀ fuel j, j + fuel = 2 ^ n →
      probe_visits cond (2 ^ n - 1) start fuel ((start + j) % 2 ^ n) =
        (List.range' j fuel).map (fun j => (start + j) % 2 ^ n) := by
  intro fuel
  induction fuel with
  | zero => intro j _; rfl
  | succ fuel ih =>
    intro j hj
    have hpos : 0 < 2 ^ n := Nat.two_pow_pos n
    rw [probe_visits, hc _ (Nat.mod_lt _ hpos), probe_next n hn, List.range'_succ, List.map_cons]
    simp only [Bool.false_eq_true, if_false]
    by_cases hf : fuel = 0
    · subst hf
      have : start + j + 1 = start + 2 ^ n := by omega
      rw [this, Nat.add_mod_right, Nat.mod_eq_of_lt hs]
      simp
    · have hne : (start + j + 1) % 2 ^ n ≠ start := by
        rw [Nat.add_assoc, probe_pos _ _ _ hs (by omega)]
        split <;> omega
      rw [if_pos hne]
      have := ih (j + 1) (by omega)
      rw [← Nat.add_assoc] at this
      rw [this]

theorem probe_order_nodup (c start : Nat) (hs : start < c) : (probe_order c start).Nodup := by
  unfold probe_order
  apply List.Nodup.map_on _ (List.nodup_range c)
  intro x hx y hy hxy
  rw [List.mem_range] at hx hy
  rw [probe_pos c start x hs hx, probe_pos c start y hs hy] at hxy
  split at hxy <;> split at hxy <;> omega

theorem probe_order_perm (c start : Nat) (hs : start < c) :
    (probe_order c start).Perm (List.range c) := by
  rw [List.perm_ext_iff_of_nodup (probe_order_nodup c start hs) (List.nodup_range c)]
  intro a
  rw [mem_probe_order, List.mem_range]

/-- C20: in a map whose capacity is a power of two (at most `2^31`) with
`mask_ = capacity_ - 1`, for every hash `h`: the probe loops of `sm_find_`,
`sm_add_item` and `sm_move_item` terminate (each function returns, and the
loop never needs more than `capacity_` passes); the `j`-th position after
`h & mask_` under `pos = (pos + 1) & mask_` is `(h + j) mod capacity_`, so the
position is back at the start after `capacity_` steps and not earlier; and
when no slot satisfies the exit condition the loop ends by wrap-around after
exactly `capacity_` passes in which it has examined every slot exactly once. -/
theorem probe_loops_terminate (cb : Callbacks K V) (m : smallmap_t K V) (hm : Shape m)
    (hash : Nat) :
    (∀ key, ∃ r, sm_find_ cb m hash key = some r) ∧
    (∀ k v, ∃ r, sm_add_item cb m hash k v = some r) ∧
    (∀ k v, ∃ r, sm_move_item cb m hash k v = some r) ∧
    m.mask_ + 1 = m.capacity_ ∧
    (∀ cond, probe cond m.mask_ (u32 (hash &&& m.mask_)) (m.mask_ + 1)
      (u32 (hash &&& m.mask_)) ≠ Probe.timeout) ∧
    (∀ j, Nat.iterate (probe_step m.mask_) j (u32 (hash &&& m.mask_)) =
      (hash % m.capacity_ + j) % m.capacity_) ∧
    Nat.iterate (probe_step m.mask_) m.capacity_ (u32 (hash &&& m.mask_)) =
      u32 (hash &&& m.mask_) ∧
    (∀ j, 0 < j → j < m.capacity_ →
      Nat.iterate (probe_step m.mask_) j (u32 (hash &&& m.mask_)) ≠ u32 (hash &&& m.mask_)) ∧
    (∀ cond : Nat → Bool, (∀ i, i < m.capacity_ → cond i = false) →
      probe cond m.mask_ (u32 (hash &&& m.mask_)) (m.mask_ + 1) (u32 (hash &&& m.mask_)) =
        Probe.wrapped ∧
      (∀ fuel, fuel < m.capacity_ →
        probe cond m.mask_ (u32 (hash &&& m.mask_)) fuel (u32 (hash &&& m.mask_)) =
          Probe.timeout) ∧
      (probe_visits cond m.mask_ (u32 (hash &&& m.mask_)) (m.mask_ + 1)
        (u32 (hash &&& m.mask_))).Perm (List.range m.capacity_)) := by
  have hpos := hm.cap_pos
  have hmask : m.mask_ + 1 = m.capacity_ := by rw [hm.mask]; omega
  have hstart := hm.start_eq hash
  have hs : hash % m.capacity_ < m.capacity_ := Nat.mod_lt _ hpos
  obtain ⟨n, hn, hc⟩ := hm.cap
  have hiter : ∀ j, Nat.iterate (probe_step m.mask_) j (u32 (hash &&& m.mask_)) =
      (hash % m.capacity_ + j) % m.capacity_ := by
    intro j
    rw [hstart, hm.mask, hc]
    exact probe_step_iterate n hn _ (by rw [← hc]; exact hs) j
  refine ⟨fun key => ⟨_, sm_find__eq cb hm hash key⟩, fun k v => ⟨_, sm_add_item_eq cb hm hash k v⟩,
    fun k v => ⟨_, sm_move_item_eq cb hm hash k v⟩, hmask, ?_, hiter, ?_, ?_, ?_⟩
  · intro cond
    rw [hm.probe_order_eq]
    cases (probe_order m.capacity_ (hash % m.capacity_)).find? cond <;>
      simp [probe_result]
  · rw [hiter, Nat.add_mod_right, Nat.mod_eq_of_lt hs, hstart]
  · intro j hj0 hj
    rw [hiter, hstart, probe_pos _ _ _ hs hj]
    split <;> omega
  · intro cond hcond
    refine ⟨?_, ?_, ?_⟩
    · rw [hm.probe_order_eq]
      have : (probe_order m.capacity_ (hash % m.capacity_)).find? cond = none := by
        rw [List.find?_eq_none]
        intro x hx
        rw [hcond x ((mem_probe_order _ _ _).mp hx)]
        exact Bool.false_ne_true
      rw [this]
      rfl
    · intro fuel hfuel
      have h := probe_short cond n hn (hash % m.capacity_) (by rw [← hc]; exact hs)
        (by rw [← hc]; exact hcond) fuel 0 (by rw [← hc]; omega)
      rw [Nat.add_zero, ← hc, Nat.mod_eq_of_lt hs, ← hm.mask, ← hstart] at h
      exact h
    · have h := probe_visits_aux cond n hn (hash % m.capacity_) (by rw [← hc]; exact hs)
        (by rw [← hc]; exact hcond) (2 ^ n) 0 (by omega)
      rw [Nat.add_zero, ← hc, Nat.mod_eq_of_lt hs, ← hm.mask, ← hstart, ← hmask] at h
      rw [h, hstart, hmask, ← List.range_eq_range']
      exact probe_order_perm _ _ hs

theorem probe_loops_terminate_witness :
    (∀ key, ∃ r, sm_find_ demo_callbacks demo_map 35 key = some r) ∧
    (∀ k v, ∃ r, sm_add_item demo_callbacks demo_map 35 k v = some r) ∧
    (∀ k v, ∃ r, sm_move_item demo_callbacks demo_map 35 k v = some r) ∧
    demo_map.mask_ + 1 = demo_map.capacity_ ∧
    (∀ cond, probe cond demo_map.mask_ (u32 (35 &&& demo_map.mask_)) (demo_map.mask_ + 1)
      (u32 (35 &&& demo_map.mask_)) ≠ Probe.timeout) ∧
    (∀ j, Nat.iterate (probe_step demo_map.mask_) j (u32 (35 &&& demo_map.mask_)) =
      (35 % demo_map.capacity_ + j) % demo_map.capacity_) ∧
    Nat.iterate (probe_step demo_map.mask_) demo_map.capacity_ (u32 (35 &&& demo_map.mask_)) =
      u32 (35 &&& demo_map.mask_) ∧
    (∀ j, 0 < j → j < demo_map.capacity_ →
      Nat.iterate (probe_step demo_map.mask_) j (u32 (35 &&& demo_map.mask_)) ≠
        u32 (35 &&& demo_map.mask_)) ∧
    (∀ cond : Nat → Bool, (∀ i, i < demo_map.capacity_ → cond i = false) →
      probe cond demo_map.mask_ (u32 (35 &&& demo_map.mask_)) (demo_map.mask_ + 1)
        (u32 (35 &&& demo_map.mask_)) = Probe.wrapped ∧
      (∀ fuel, fuel < demo_map.capacity_ →
        probe cond demo_map.mask_ (u32 (35 &&& demo_map.mask_)) fuel
          (u32 (35 &&& demo_map.mask_)) = Probe.timeout) ∧
      (probe_visits cond demo_map.mask_ (u32 (35 &&& demo_map.mask_)) (demo_map.mask_ + 1)
        (u32 (35 &&& demo_map.mask_))).Perm (List.range demo_map.capacity_)) :=
  probe_loops_terminate demo_callbacks demo_map demo_map_shape 35

/-! ### `sm_expand` keeps the contents -/

theorem countP_le_one_eq {α : Type} (p : α → Bool) :
    ∀ (l : List α), l.countP p ≤ 1 → ∀ a b, a ∈ l → b ∈ l → p a = true → p b = true → a = b := by
  intro l
  induction l with
  | nil => intro _ a _ ha; simp at ha
  | cons x xs ih =>
    intro h a b ha hb pa pb
    rw [List.countP_cons] at h
    rw [List.mem_cons] at ha hb
    by_cases hx : p x = true
    · rw [if_pos hx] at h
      have h0 : xs.countP p = 0 := by omega
      rw [List.countP_eq_zero] at h0
      rcases ha with rfl | ha
      · rcases hb with rfl | hb
        · rfl
        · exact absurd pb (h0 b hb)
      · exact absurd pa (h0 a ha)
    · rw [if_neg hx] at h
      rcases ha with rfl | ha
      · exact absurd pa hx
      · rcases hb with rfl | hb
        · exact absurd pb hx
        · exact ih (by omega) a b ha hb pa pb

theorem try_get_of_perm (cb : Callbacks K V) {m m' : smallmap_t K V} (h : Shape m)
    (h' : Shape m') (hperm : (entries m').Perm (entries m)) (hu : Unique cb m) (key : K)
    (out : V) : sm_try_get cb m' key out = sm_try_get cb m key out := by
  have hperm2 := hperm.map (fun e : Nat × K × V => (e.1, e.2.1))
  rw [sm_try_get_eq cb h, sm_try_get_eq cb h']
  cases hfm : first_match cb m (sm_hash cb key) key with
  | none => rw [perm_none_transfer cb _ key hperm2 hfm]
  | some p =>
    cases hfm' : first_match cb m' (sm_hash cb key) key with
    | none =>
      have := perm_none_transfer cb _ key hperm2.symm hfm'
      rw [hfm] at this
      exact absurd this (by simp)
    | some p' =>
      obtain ⟨hp, hmp⟩ := first_match_some cb m _ key p hfm
      obtain ⟨hp', hmp'⟩ := first_match_some cb m' _ key p' hfm'
      have he : slot_at m p ∈ entries m :=
        (mem_entries m _).mpr ⟨p, hp, slot_matches_occupied cb m _ key p hmp, rfl⟩
      have he' : slot_at m' p' ∈ entries m :=
        hperm.mem_iff.mp
          ((mem_entries m' _).mpr ⟨p', hp', slot_matches_occupied cb m' _ key p' hmp', rfl⟩)
      have hcount := hu key
      rw [List.countP_map] at hcount
      have heq := countP_le_one_eq _ _ hcount _ _ he' he
        (by rw [Function.comp_apply, ← slot_matches_entry]; exact hmp')
        (by rw [Function.comp_apply, ← slot_matches_entry]; exact hmp)
      have hv : (slot_at m' p').2.2 = (slot_at m p).2.2 := by rw [heq]
      simp only []
      exact congrArg (fun v => some (true, v)) hv

theorem find_of_perm (cb : Callbacks K V) {m m' : smallmap_t K V} (h : Shape m)
    (h' : Shape m') (hperm : (entries m').Perm (entries m)) (key : K) :
    sm_find cb m' key = some SM_INVALID ↔ sm_find cb m key = some SM_INVALID := by
  have hperm2 := hperm.map (fun e : Nat × K × V => (e.1, e.2.1))
  rw [sm_find_invalid_iff_none cb h, sm_find_invalid_iff_none cb h']
  exact ⟨perm_none_transfer cb _ key hperm2.symm, perm_none_transfer cb _ key hperm2⟩

theorem sm_expand_hasher (cb : Callbacks K V) (m : smallmap_t K V) (a : Bool)
    (hasher : K → Nat) (compare : K → K → Bool) :
    sm_expand { cb with hasher_ := hasher, compare_ := compare } m a = sm_expand cb m a := rfl

/-- C15 (amended): on a well-formed map of capacity `c < 2^31`, with an
allocator that succeeds and move callbacks that transfer the cell,
`sm_expand` returns `true` with capacity `2 * c`, mask `2 * c - 1`, the same
`size_` and the same number of occupied slots (every old entry has found a
slot), whatever the hasher.  When the byte offsets of the new table do not
wrap (`2 * c * key_size_` and `2 * c * value_size_` at most `2^32`,
`ExactOffsets`), the multiset of (metadata word, key, value) over the
occupied slots, hence of (truncated hash, key, value), is the same as before,
`sm_find` is `SM_INVALID` after exactly when it was before, and in a map that
stores no key twice `sm_try_get` gives the same answer. -/
theorem sm_expand_preserves (cb : Callbacks K V) (hmv : MovesFaithfully cb)
    (m : smallmap_t K V) (hwf : WF m) (hcap : m.capacity_ < 2147483648) :
    ∃ m', sm_expand cb m true = some (true, m') ∧
      m'.capacity_ = 2 * m.capacity_ ∧ m'.mask_ = 2 * m.capacity_ - 1 ∧
      m'.size_ = m.size_ ∧
      occupied_count m' = occupied_count m ∧
      (∀ hasher compare,
        sm_expand { cb with hasher_ := hasher, compare_ := compare } m true =
          some (true, m')) ∧
      (ExactOffsets m' →
        (entries m').Perm (entries m) ∧
        ((entries m').map (fun e => (e.1 &&& SM_HASH_MASK, e.2.1, e.2.2))).Perm
          ((entries m).map (fun e => (e.1 &&& SM_HASH_MASK, e.2.1, e.2.2))) ∧
        (∀ key, sm_find cb m' key = some SM_INVALID ↔ sm_find cb m key = some SM_INVALID) ∧
        (Unique cb m → ∀ key out, sm_try_get cb m' key out = sm_try_get cb m key out)) := by
  obtain ⟨m', he, hwf', hc, hs, hk, hv, hperm0, _⟩ :=
    sm_expand_ok cb (fun e => e.1) (Or.inl (fun _ _ _ _ _ => rfl)) hwf hcap
  refine ⟨m', he, hc, ?_, hs, ?_, ?_, ?_⟩
  · rw [hwf'.shape.mask, hc]
  · have hl := hperm0.length_eq
    rw [List.length_map, List.length_map] at hl
    rw [occupied_count_eq, occupied_count_eq]; exact hl
  · intro hasher compare
    rw [sm_expand_hasher]; exact he
  · intro hx
    have hx2 : 2 * m.capacity_ * m.key_size_ ≤ 4294967296 ∧
        2 * m.capacity_ * m.value_size_ ≤ 4294967296 := by
      unfold ExactOffsets at hx
      rw [hc, hk, hv] at hx
      exact hx
    obtain ⟨m2, he2, _, _, _, _, _, hperm, _⟩ :=
      sm_expand_ok cb (fun e => e)
        (Or.inr ⟨hx2, fun w dk sk dv sv => by rw [hmv.key, hmv.value]⟩) hwf hcap
    have hm2 : m2 = m' := by
      rw [he] at he2
      simp only [Option.some.injEq, Prod.mk.injEq, true_and] at he2
      exact he2.symm
    subst hm2
    rw [List.map_id', List.map_id'] at hperm
    refine ⟨hperm, hperm.map _, ?_, ?_⟩
    · intro key
      exact find_of_perm cb hwf.shape hwf'.shape hperm key
    · intro hu key out
      exact try_get_of_perm cb hwf.shape hwf'.shape hperm hu key out

theorem sm_expand_preserves_witness :
    ∃ m', sm_expand demo_callbacks demo_map11 true = some (true, m') ∧
      m'.capacity_ = 2 * demo_map11.capacity_ ∧ m'.mask_ = 2 * demo_map11.capacity_ - 1 ∧
      m'.size_ = demo_map11.size_ ∧
      occupied_count m' = occupied_count demo_map11 ∧
      (∀ hasher compare,
        sm_expand { demo_callbacks with hasher_ := hasher, compare_ := compare } demo_map11 true =
          some (true, m')) ∧
      ExactOffsets m' ∧
      (entries m').Perm (entries demo_map11) ∧
      ((entries m').map (fun e => (e.1 &&& SM_HASH_MASK, e.2.1, e.2.2))).Perm
        ((entries demo_map11).map (fun e => (e.1 &&& SM_HASH_MASK, e.2.1, e.2.2))) ∧
      (∀ key, sm_find demo_callbacks m' key = some SM_INVALID ↔
        sm_find demo_callbacks demo_map11 key = some SM_INVALID) ∧
      (Unique demo_callbacks demo_map11 →
        ∀ key out, sm_try_get demo_callbacks m' key out =
          sm_try_get demo_callbacks demo_map11 key out) := by
  obtain ⟨m', he, hc, hm, hs, ho, hh, hcond⟩ :=
    sm_expand_preserves demo_callbacks demo_moves demo_map11
      (reachable_wf demo_callbacks demo_map11_reachable) (by decide)
  have hx : ExactOffsets m' := by
    have hsz : (sm_expand demo_callbacks demo_map11 true).map
        (fun r => (r.2.capacity_, r.2.key_size_, r.2.value_size_)) = some (32, 8, 4) := by
      decide
    rw [he] at hsz
    simp only [Option.map_some', Option.some.injEq, Prod.mk.injEq] at hsz
    unfold ExactOffsets
    rw [hsz.1, hsz.2.1, hsz.2.2]
    decide
  exact ⟨m', he, hc, hm, hs, ho, hh, hx, hcond hx⟩

theorem twice_map_wf : WF twice_map := by
  refine ⟨⟨⟨4, by decide, rfl⟩, rfl, rfl, rfl, rfl⟩, ?_, by decide, rfl⟩
  intro i
  by_cases hi : i < 16
  · interval_cases i <;> decide
  · rw [List.getD_eq_default _ _ (by simp [twice_map]; omega)]
    decide

/-- C15, counterexample: `twice_map` is well formed, has capacity 16 and two
occupied slots, and its byte offsets do not wrap before or after the resize
(`key_size_` 8, `value_size_` 4), but it stores the key `15` twice.  Before
the resize `sm_try_get` of `15` yields the value 1 of slot 15; `sm_expand`
returns `true` and moves slot 0 first, so afterwards `sm_try_get` yields the
value 2. -/
theorem expand_reorders_duplicates :
    WF twice_map ∧ twice_map.capacity_ = 16 ∧ occupied_count twice_map = 2 ∧
    ExactOffsets twice_map ∧
    sm_try_get demo_callbacks twice_map 15 0 = some (true, 1) ∧
    ∃ m', sm_expand demo_callbacks twice_map true = some (true, m') ∧
      ExactOffsets m' ∧
      sm_try_get demo_callbacks m' 15 0 = some (true, 2) := by
  refine ⟨twice_map_wf, rfl, by decide, ⟨by decide, by decide⟩, by decide, _, rfl,
    ⟨by decide, by decide⟩, by decide⟩

/-! ### Counting calls -/

theorem sm_call_tally (cb : Callbacks K V) (hcs : ConstructorsSucceed cb) {m : smallmap_t K V}
    (h : WF m) (hb : Balanced m) (op : Op K V) :
    ∃ t m', sm_call cb m op = some (t, m') ∧ WF m' ∧ Balanced m' ∧
      m'.size_ + t.removes_present = m.size_ + t.adds_true ∧
      t.adds_true ≤ t.adds_absent ∧ t.adds_absent ≤ t.adds ∧ t.removes_present ≤ t.removes := by
  cases op with
  | add key value alloc_ok =>
    obtain ⟨b, m', hadd, hwf'⟩ := sm_add_wf cb h key value alloc_ok
    obtain ⟨hb', h1, h2⟩ := sm_add_balanced cb hcs h hb key value alloc_ok b hadd
    refine ⟨_, m', sm_call_add cb h.shape key value alloc_ok b m' hadd, hwf', hb', ?_, ?_, ?_, ?_⟩
    · cases b
      · simp [h2]
      · simp [h1]
    · cases b
      · simp
      · have hnone := (sm_add_true_inv cb h key value alloc_ok hadd).1
        simp [hnone]
    · show (if _ then 1 else 0) ≤ 1
      split <;> omega
    · exact Nat.le_refl _
  | remove key =>
    obtain ⟨m', hrem, hwf'⟩ := sm_remove_wf cb h key
    refine ⟨_, m', sm_call_remove cb h.shape key m' hrem, hwf', ?_⟩
    rw [sm_remove_eq cb h.shape] at hrem
    cases hfm : first_match cb m (sm_hash cb key) key with
    | none =>
      rw [hfm] at hrem
      cases hrem
      simp [hb]
    | some p =>
      rw [hfm] at hrem
      cases hrem
      obtain ⟨hp, hmp⟩ := first_match_some cb m _ key p hfm
      obtain ⟨hb', hs⟩ :=
        remove_at_balanced cb h hb p hp (slot_matches_occupied cb m _ key p hmp)
      have hne := first_match_ne_invalid cb h.shape _ key p hfm
      simp [hb', hne]
      omega

theorem sm_run_tally (cb : Callbacks K V) (hcs : ConstructorsSucceed cb) (ops : List (Op K V)) :
    ∀ {m : smallmap_t K V}, WF m → Balanced m →
      ∃ t m', sm_run cb m ops = some (t, m') ∧ WF m' ∧ Balanced m' ∧
        m'.size_ + t.removes_present = m.size_ + t.adds_true ∧
        t.adds_true ≤ t.adds_absent ∧ t.adds_absent ≤ t.adds ∧
        t.removes_present ≤ t.removes ∧ t.adds + t.removes = ops.length := by
  induction ops with
  | nil => intro m h hb; exact ⟨_, m, rfl, h, hb, rfl, Nat.le_refl _, Nat.le_refl _, Nat.le_refl _, rfl⟩
  | cons op rest ih =>
    intro m h hb
    obtain ⟨t, m1, h1, hwf1, hb1, hs1, ha1, hb2, hc1⟩ := sm_call_tally cb hcs h hb op
    obtain ⟨ts, m2, h2, hwf2, hbal2, hs2, ha2, hb3, hc2, hlen⟩ := ih hwf1 hb1
    have hone : t.adds + t.removes = 1 := by
      cases op with
      | add key value alloc_ok =>
        obtain ⟨b, m', hadd, _⟩ := sm_add_wf cb h key value alloc_ok
        rw [sm_call_add cb h.shape key value alloc_ok b m' hadd] at h1
        cases h1
        rfl
      | remove key =>
        obtain ⟨m', hrem, _⟩ := sm_remove_wf cb h key
        rw [sm_call_remove cb h.shape key m' hrem] at h1
        cases h1
        rfl
    refine ⟨t.plus ts, m2, ?_, hwf2, hbal2, ?_, ?_, ?_, ?_, ?_⟩
    · unfold sm_run
      rw [h1]
      simp only []
      rw [h2]
    all_goals simp only [Tally.plus, List.length_cons]
    all_goals omega

/-- C16 (amended): after any sequence of `sm_add` and `sm_remove` calls on a
freshly constructed map, with constructors that succeed, `size_` equals the
number of adds that returned `true` minus the number of removes whose key was
present; each single call changes `size_` accordingly: `+1` for an add that
returns `true`, `-1` for a remove of a present key, and nothing for an add
that returns `false` or a remove of an absent key. -/
theorem size_counts_calls (cb : Callbacks K V) (hcs : ConstructorsSucceed cb)
    (key_size value_size : Nat) (a1 a2 : Bool) (m0 : smallmap_t K V) (t0 : List Event)
    (hc : sm_construct cb key_size value_size a1 a2 = some (some m0, t0))
    (ops : List (Op K V)) :
    ∃ t m', sm_run cb m0 ops = some (t, m') ∧
      m'.size_ + t.removes_present = t.adds_true ∧
      m'.size_ = t.adds_true - t.removes_present ∧
      t.adds + t.removes = ops.length ∧
      t.adds_true ≤ t.adds_absent ∧ t.adds_absent ≤ t.adds ∧ t.removes_present ≤ t.removes ∧
      ∀ op, ∃ t1 m1, sm_call cb m' op = some (t1, m1) ∧
        m1.size_ + t1.removes_present = m'.size_ + t1.adds_true ∧
        t1.adds_true + t1.removes_present ≤ 1 := by
  have hr : Reachable cb m0 := Reachable.construct key_size value_size a1 a2 m0 t0 hc
  have h0 : m0.size_ = 0 := by
    rw [sm_construct_some cb key_size value_size a1 a2 m0 t0 hc]; rfl
  obtain ⟨t, m', hrun, hwf', hb', hs, h1, h2, h3, hlen⟩ :=
    sm_run_tally cb hcs ops (reachable_wf cb hr) (reachable_balanced cb hcs hr)
  refine ⟨t, m', hrun, by omega, by omega, hlen, h1, h2, h3, ?_⟩
  intro op
  obtain ⟨t1, m1, hcall, _, _, hs1, h4, h5, h6⟩ := sm_call_tally cb hcs hwf' hb' op
  obtain ⟨ts, m2, hrun1, _, _, _, _, _, _, hlen1⟩ :=
    sm_run_tally cb hcs [op] hwf' hb'
  refine ⟨t1, m1, hcall, hs1, ?_⟩
  have : sm_run cb m' [op] = some (t1.plus ⟨0, 0, 0, 0, 0⟩, m1) := by
    unfold sm_run
    rw [hcall]
    rfl
  rw [this] at hrun1
  cases hrun1
  simp only [Tally.plus, List.length_singleton] at hlen1
  omega

theorem size_counts_calls_witness :
    ∃ t m', sm_run demo_callbacks (fresh_map 8 4) demo_ops4 = some (t, m') ∧
      m'.size_ + t.removes_present = t.adds_true ∧
      m'.size_ = t.adds_true - t.removes_present ∧
      t.adds + t.removes = demo_ops4.length ∧
      t.adds_true ≤ t.adds_absent ∧ t.adds_absent ≤ t.adds ∧ t.removes_present ≤ t.removes ∧
      ∀ op, ∃ t1 m1, sm_call demo_callbacks m' op = some (t1, m1) ∧
        m1.size_ + t1.removes_present = m'.size_ + t1.adds_true ∧
        t1.adds_true + t1.removes_present ≤ 1 :=
  size_counts_calls demo_callbacks demo_succeeds 8 4 true true (fresh_map 8 4)
    [Event.allocate true, Event.allocate true, Event.deallocate Ptr.null] (by decide) demo_ops4

/-- C16 (counterexample): seventeen adds of pairwise distinct keys to a fresh
map, each key absent when added, no remove, constructors succeeding, the
allocator returning null during the last six: the seventeenth add finds the
sixteen slots occupied and returns `false`, so `size_` is 16 and not
`17 - 0`. -/
theorem size_differs_from_call_count :
    ∃ m', sm_run demo_callbacks (fresh_map 8 4) demo_ops = some (⟨17, 17, 16, 0, 0⟩, m') ∧
      m'.size_ = 16 ∧ m'.size_ ≠ 17 - 0 :=
  ⟨_, rfl, rfl, by decide⟩

/-! ### Invariants of the metadata words -/

theorem flagged_land_mask (h : Nat) (hh : h < 2147483648) :
    u32 (h ||| SM_EXIST_FLAG) &&& SM_HASH_MASK = h := by
  apply Nat.eq_of_testBit_eq
  intro i
  rw [Nat.testBit_and, testBit_u32, Nat.testBit_or, hash_mask_eq, flag_eq, Nat.testBit_two_pow,
    Nat.testBit_two_pow_sub_one]
  by_cases hlt : i < 31
  · have : i < 32 := by omega
    have h31 : ¬ 31 = i := by omega
    simp [hlt, this, h31]
  · have hf : h.testBit i = false := by
      apply Nat.testBit_lt_two_pow
      calc h < 2 ^ 31 := hh
        _ ≤ 2 ^ i := Nat.pow_le_pow_right (by decide) (by omega)
    simp [hf, hlt]

theorem zero_empty_invariant : WriteInvariant (ZeroEmpty : smallmap_t K V → Prop) where
  same := by
    intro m m' _ hh hz i hi
    unfold occupied at hi
    rw [hh] at hi ⊢
    exact hz i hi
  zero := fun m hz i _ => hz i
  write := by
    intro m m' hash pos _ hw hpos _ _ hz i hi
    by_cases hip : i = pos
    · subst hip
      rw [occupied_of_flagged hpos] at hi
      exact absurd hi (by simp)
    · rw [hw i hip]
      apply hz
      unfold occupied at hi ⊢
      rw [← hw i hip]
      exact hi

theorem gapless_invariant : WriteInvariant (Gapless : smallmap_t K V → Prop) where
  same := by
    intro m m' hc hh hg p hp ho
    unfold occupied at ho
    unfold reaches
    rw [hc, hh] at *
    exact hg p hp ho
  zero := by
    intro m hz p _ ho
    unfold occupied at ho
    rw [hz p, is_empty_word_zero] at ho
    exact absurd ho (by simp)
  write := by
    intro m m' hash pos hc hw hpos hh hff hg p hp ho
    have hfree := (first_free_some m hash pos hff).2
    have himp : ∀ x, is_empty_word (m'.hashes_.getD x 0) = true →
        is_empty_word (m.hashes_.getD x 0) = true := by
      intro x hx
      by_cases hxp : x = pos
      · rw [hxp]; exact hfree
      · rw [← hw x hxp]; exact hx
    unfold reaches
    rw [hc, beq_iff_eq]
    by_cases hpp : p = pos
    · subst hpp
      rw [hpos, flagged_land_mask hash hh]
      unfold first_free at hff
      apply find_of_weaker _ _ p _ hff
      · simp
      · intro x _ hx
        simp only [Bool.or_eq_true, beq_iff_eq] at hx
        rcases hx with hx | hx
        · rw [hx]; exact hfree
        · exact himp x hx
    · have ho' : occupied m p = true := by
        unfold occupied at ho ⊢
        rw [← hw p hpp]; exact ho
      have hr := hg p (by rw [← hc]; exact hp) ho'
      unfold reaches at hr
      rw [beq_iff_eq] at hr
      rw [hw p hpp]
      apply find_of_weaker _ _ p _ hr
      · simp
      · intro x _ hx
        simp only [Bool.or_eq_true, beq_iff_eq] at hx ⊢
        rcases hx with hx | hx
        · exact Or.inl hx
        · exact Or.inr (himp x hx)

theorem land_hash_mask_lt (x : Nat) : x &&& SM_HASH_MASK < 2147483648 := by
  have : x &&& SM_HASH_MASK ≤ SM_HASH_MASK := Nat.and_le_right
  unfold SM_HASH_MASK at this ⊢
  omega

theorem shape_with_trace {m : smallmap_t K V} (h : Shape m) (t : List Event) :
    Shape { m with trace_ := t } :=
  ⟨h.cap, h.mask, h.hashes_len, h.keys_len, h.values_len⟩

theorem move_item_at_inv (cb : Callbacks K V) {P : smallmap_t K V → Prop}
    (hP : WriteInvariant P) {m : smallmap_t K V} (hs : Shape m) (hash : Nat) (k : K) (v : V)
    (pos : Nat) (hh : hash < 2147483648) (hff : first_free m hash = some pos) (hp : P m) :
    P (sm_move_item_at cb m hash k v pos) := by
  have hpos := (first_free_some m hash pos hff).1
  apply hP.write m _ hash pos (move_item_at_frame cb m hash k v pos).capacity _ _ hh hff hp
  · intro i hi
    exact move_item_at_word_ne cb m hash k v pos i hi
  · have := move_item_at_slot cb hs hash k v pos hpos
    exact congrArg Prod.fst this

theorem add_item_at_inv (cb : Callbacks K V) {P : smallmap_t K V → Prop}
    (hP : WriteInvariant P) {m : smallmap_t K V} (hs : Shape m) (hash : Nat) (k : K) (v : V)
    (pos : Nat) (hh : hash < 2147483648) (hff : first_free m hash = some pos) (hp : P m) :
    P (sm_add_item_at cb m hash k v pos).2 := by
  have hpos := (first_free_some m hash pos hff).1
  apply hP.write m _ hash pos (add_item_at_frame cb m hash k v pos).capacity _ _ hh hff hp
  · intro i hi
    exact add_item_at_word_ne cb m hash k v pos i hi
  · exact add_item_at_word cb hs hash k v pos hpos

theorem expand_step_inv (cb : Callbacks K V) {P : smallmap_t K V → Prop}
    (hP : WriteInvariant P) (ph : List Nat)
    {s0 s1 : smallmap_t K V × List K × List V} (hs : Shape s0.1) (hp : P s0.1) (i : Nat)
    (h : sm_expand_step cb ph s0 i = some s1) : Shape s1.1 ∧ P s1.1 := by
  unfold sm_expand_step at h
  split at h
  · cases h; exact ⟨hs, hp⟩
  · simp only [] at h
    rw [sm_move_item_eq cb hs] at h
    cases hff : first_free s0.1 (ph.getD i 0 &&& SM_HASH_MASK) with
    | none =>
      rw [hff] at h
      simp only [Option.some.injEq] at h
      rw [← h]
      exact ⟨shape_with_trace hs _, hP.same s0.1 _ rfl rfl hp⟩
    | some pos =>
      rw [hff] at h
      simp only [Option.some.injEq] at h
      rw [← h]
      have hmv := move_item_at_inv cb hP hs (ph.getD i 0 &&& SM_HASH_MASK)
        (s0.2.1.getD i default) (s0.2.2.getD i default) pos (land_hash_mask_lt _) hff hp
      have hsh := (move_item_at_frame cb s0.1 (ph.getD i 0 &&& SM_HASH_MASK)
        (s0.2.1.getD i default) (s0.2.2.getD i default) pos).shape hs
      exact ⟨shape_with_trace hsh _, hP.same (sm_move_item_at cb s0.1
        (ph.getD i 0 &&& SM_HASH_MASK) (s0.2.1.getD i default) (s0.2.2.getD i default) pos)
        _ rfl rfl hmv⟩

theorem expand_fold_inv (cb : Callbacks K V) {P : smallmap_t K V → Prop}
    (hP : WriteInvariant P) (ph : List Nat) :
    ∀ (l : List Nat) (s0 s1 : smallmap_t K V × List K × List V), Shape s0.1 → P s0.1 →
      l.foldlM (sm_expand_step cb ph) s0 = some s1 → Shape s1.1 ∧ P s1.1 := by
  intro l
  induction l with
  | nil =>
    intro s0 s1 hs hp h
    simp only [List.foldlM_nil, Option.pure_def, Option.some.injEq] at h
    rw [← h]; exact ⟨hs, hp⟩
  | cons i l ih =>
    intro s0 s1 hs hp h
    rw [List.foldlM_cons] at h
    cases hstep : sm_expand_step cb ph s0 i with
    | none => rw [hstep] at h; simp at h
    | some s01 =>
      rw [hstep] at h
      simp only [Option.bind_eq_bind, Option.some_bind] at h
      obtain ⟨hs1, hp1⟩ := expand_step_inv cb hP ph hs hp i hstep
      exact ih s01 s1 hs1 hp1 h

theorem sm_expand_inv (cb : Callbacks K V) {P : smallmap_t K V → Prop}
    (hP : WriteInvariant P) {m m' : smallmap_t K V} (h : WF m) (a : Bool)
    (he : sm_expand cb m a = some (true, m')) : P m' := by
  by_cases hcap : m.capacity_ < 2147483648
  · cases a with
    | false =>
      rw [sm_expand_alloc_fail cb h hcap] at he
      simp at he
    | true =>
      have h16 := h.cap16
      unfold sm_expand at he
      simp only [] at he
      rw [next_capacity_eq h] at he
      have : ¬ SM_INVALID ≤ 2 * m.capacity_ := by unfold SM_INVALID; omega
      rw [if_neg this] at he
      simp only [Bool.not_true, Bool.false_eq_true, if_false] at he
      split at he
      · simp at he
      · next m2 hfold =>
        simp only [Option.some.injEq, Prod.mk.injEq, true_and] at he
        rw [← he]
        have hs1 := fresh_shape h hcap
          ({ m with
            trace_ := m.trace_ ++ [Event.allocate true],
            capacity_ := 2 * m.capacity_,
            mask_ := 2 * m.capacity_ - 1,
            resize_threshold_ := sm_threshold (2 * m.capacity_),
            hashes_ := List.replicate (2 * m.capacity_) 0,
            keys_ := List.replicate (2 * m.capacity_) default,
            values_ := List.replicate (2 * m.capacity_) default } : smallmap_t K V)
          rfl rfl rfl rfl rfl
        have := expand_fold_inv cb hP _ _ _ m2 hs1
          (hP.zero _ (fun j => getD_replicate _ _ _)) hfold
        exact hP.same m2.1 _ rfl rfl this.2
  · have hcap' : m.capacity_ = 2147483648 := by
      have := h.shape.cap_le; omega
    rw [sm_expand_full cb h hcap'] at he
    simp at he

theorem resize_inv (cb : Callbacks K V) {P : smallmap_t K V → Prop}
    (hP : WriteInvariant P) {m m1 : smallmap_t K V} (h : WF m) (hp : P m) (a : Bool)
    (hm1 : sm_add_resize cb m a = some m1) : P m1 := by
  unfold sm_add_resize at hm1
  split at hm1
  · cases he : sm_expand cb m a with
    | none => rw [he] at hm1; simp at hm1
    | some r =>
      obtain ⟨b, m2⟩ := r
      rw [he] at hm1
      simp only [Option.map_some', Option.some.injEq] at hm1
      subst hm1
      cases b with
      | true => exact sm_expand_inv cb hP h a he
      | false =>
        by_cases hcap : m.capacity_ < 2147483648
        · cases a with
          | false =>
            rw [sm_expand_alloc_fail cb h hcap] at he
            simp only [Option.some.injEq, Prod.mk.injEq, true_and] at he
            rw [← he]
            exact hP.same m _ rfl rfl hp
          | true =>
            obtain ⟨m3, he3, _⟩ := sm_expand_ok cb (fun e => e.1) (Or.inl (fun _ _ _ _ _ => rfl)) h hcap
            rw [he3] at he
            simp at he
        · have hcap' : m.capacity_ = 2147483648 := by
            have := h.shape.cap_le; omega
          rw [sm_expand_full cb h hcap'] at he
          simp only [Option.some.injEq, Prod.mk.injEq, true_and] at he
          rw [← he]; exact hp
  · cases hm1; exact hp

theorem sm_add_inv (cb : Callbacks K V) {P : smallmap_t K V → Prop}
    (hP : WriteInvariant P) {m m' : smallmap_t K V} (h : WF m) (hp : P m) (k : K) (v : V)
    (a b : Bool) (hadd : sm_add cb m k v a = some (b, m')) : P m' := by
  rcases sm_add_cases cb h k v a b hadd with ⟨_, _, hm⟩ | ⟨_, m1, hm1, hwf1, hrest⟩
  · rw [hm]; exact hp
  · have hp1 := resize_inv cb hP h hp a hm1
    rcases hrest with ⟨_, _, hm⟩ | ⟨pos, hff, ⟨_, _, hm⟩ | ⟨_, _, hm⟩⟩
    · rw [hm]; exact hp1
    · rw [hm]
      exact hP.same (sm_add_item_at cb m1 (sm_hash cb k) k v pos).2 _ rfl rfl
        (add_item_at_inv cb hP hwf1.shape _ k v pos (sm_hash_lt cb k) hff hp1)
    · rw [hm]
      exact add_item_at_inv cb hP hwf1.shape _ k v pos (sm_hash_lt cb k) hff hp1

/-! ### Maps built by adds only -/

theorem by_add_reachable (cb : Callbacks K V) {m : smallmap_t K V}
    (h : ReachableByAdd cb m) : Reachable cb m := by
  induction h with
  | construct ks vs a1 a2 m t hc => exact Reachable.construct ks vs a1 a2 m t hc
  | add m m' k v a b _ hadd ih => exact Reachable.add m m' k v a b ih hadd

theorem by_add_gapless (cb : Callbacks K V) {m : smallmap_t K V} (hr : ReachableByAdd cb m) :
    Gapless m := by
  induction hr with
  | construct ks vs a1 a2 m t hc =>
    rw [sm_construct_some cb ks vs a1 a2 m t hc]
    exact gapless_invariant.zero _ (fun j => getD_replicate _ _ _)
  | add m m' k v a b hm hadd ih =>
    exact sm_add_inv cb gapless_invariant (reachable_wf cb (by_add_reachable cb hm)) ih k v a b hadd

theorem by_add_all (cb : Callbacks K V) :
    ∀ (kvs : List (K × V)) (m m' : smallmap_t K V) (bs : List Bool), ReachableByAdd cb m →
      sm_add_all cb m kvs = some (bs, m') → ReachableByAdd cb m' := by
  intro kvs
  induction kvs with
  | nil =>
    intro m m' bs hr h
    simp only [sm_add_all, Option.some.injEq, Prod.mk.injEq] at h
    rw [← h.2]; exact hr
  | cons kv rest ih =>
    intro m m' bs hr h
    rw [sm_add_all] at h
    cases hadd : sm_add cb m kv.1 kv.2 true with
    | none => rw [hadd] at h; simp at h
    | some r =>
      obtain ⟨b, m1⟩ := r
      rw [hadd] at h
      simp only [] at h
      cases hall : sm_add_all cb m1 rest with
      | none => rw [hall] at h; simp at h
      | some r2 =>
        rw [hall] at h
        simp only [Option.some.injEq, Prod.mk.injEq] at h
        rw [← h.2]
        exact ih m1 r2.2 r2.1 (ReachableByAdd.add m m1 kv.1 kv.2 true b hr hadd) hall

theorem demo_map12_by_add : ReachableByAdd demo_callbacks demo_map12 :=
  ReachableByAdd.add demo_map11 demo_map12 179 110 true true
    (by_add_all demo_callbacks demo_pairs (fresh_map 8 4) demo_map11 (List.replicate 11 true)
      (ReachableByAdd.construct 8 4 true true _ _ (by rw [sm_construct_eq]; rfl)) (by decide))
    (by decide)

theorem reaches_order (m : smallmap_t K V) (p : Nat) (h : reaches m p = true) :
    ∃ j, j < m.capacity_ ∧
      p = ((m.hashes_.getD p 0 &&& SM_HASH_MASK) % m.capacity_ + j) % m.capacity_ ∧
      ∀ j', j' < j →
        occupied m (((m.hashes_.getD p 0 &&& SM_HASH_MASK) % m.capacity_ + j') % m.capacity_)
          = true := by
  unfold reaches probe_order at h
  rw [beq_iff_eq, List.find?_map] at h
  cases hf : (List.range m.capacity_).find?
      ((fun pos => pos == p || is_empty_word (m.hashes_.getD pos 0)) ∘
        fun j => ((m.hashes_.getD p 0 &&& SM_HASH_MASK) % m.capacity_ + j) % m.capacity_) with
  | none => rw [hf] at h; simp at h
  | some j =>
    rw [hf] at h
    simp only [Option.map_some', Option.some.injEq] at h
    rw [List.find?_range_eq_some] at hf
    refine ⟨j, List.mem_range.mp hf.2.1, h.symm, ?_⟩
    intro j' hj'
    have := hf.2.2 j' hj'
    simp only [Function.comp_apply, Bool.not_eq_true', Bool.or_eq_false_iff] at this
    unfold occupied
    rw [this.2]
    rfl

/-- C17 (amended): in every map reached from `sm_construct` by calls of
`sm_add` only (resizes, failed resizes and failed constructors included), for
every occupied slot `p` with truncated hash `h`, the probe from `h & mask_`
that stops at `p` or at a slot whose occupied bit is clear stops at `p`: all
slots of the probe sequence before `p` are occupied. -/
theorem add_only_gapless (cb : Callbacks K V) (m : smallmap_t K V) (hr : ReachableByAdd cb m)
    (p : Nat) (hp : p < m.capacity_) (ho : occupied m p = true) :
    probe (fun pos => pos == p || is_empty_word (m.hashes_.getD pos 0)) m.mask_
        (u32 ((m.hashes_.getD p 0 &&& SM_HASH_MASK) &&& m.mask_)) (m.mask_ + 1)
        (u32 ((m.hashes_.getD p 0 &&& SM_HASH_MASK) &&& m.mask_)) = Probe.found p ∧
    ∃ j, j < m.capacity_ ∧
      p = ((m.hashes_.getD p 0 &&& SM_HASH_MASK) % m.capacity_ + j) % m.capacity_ ∧
      ∀ j', j' < j →
        occupied m (((m.hashes_.getD p 0 &&& SM_HASH_MASK) % m.capacity_ + j') % m.capacity_)
          = true := by
  have hreach := by_add_gapless cb hr p hp ho
  refine ⟨?_, reaches_order m p hreach⟩
  rw [(reachable_wf cb (by_add_reachable cb hr)).shape.probe_order_eq]
  unfold reaches at hreach
  rw [beq_iff_eq] at hreach
  rw [hreach]
  rfl

theorem add_only_gapless_witness :
    probe (fun pos => pos == 4 || is_empty_word (demo_map12.hashes_.getD pos 0)) demo_map12.mask_
        (u32 ((demo_map12.hashes_.getD 4 0 &&& SM_HASH_MASK) &&& demo_map12.mask_))
        (demo_map12.mask_ + 1)
        (u32 ((demo_map12.hashes_.getD 4 0 &&& SM_HASH_MASK) &&& demo_map12.mask_)) =
          Probe.found 4 ∧
    ∃ j, j < demo_map12.capacity_ ∧
      4 = ((demo_map12.hashes_.getD 4 0 &&& SM_HASH_MASK) % demo_map12.capacity_ + j) %
        demo_map12.capacity_ ∧
      ∀ j', j' < j →
        occupied demo_map12 (((demo_map12.hashes_.getD 4 0 &&& SM_HASH_MASK) %
          demo_map12.capacity_ + j') % demo_map12.capacity_) = true :=
  add_only_gapless demo_callbacks demo_map12 demo_map12_by_add 4 (by decide) (by decide)

/-- C17 (counterexample): `demo_map` is reached by adding the keys 3, 19 and
35 of bucket 3 and removing 19.  Slot 5 is occupied with truncated hash 35,
and the probe from `35 & mask_ = 3` meets the empty slot 4 before slot 5. -/
theorem gap_after_remove :
    Reachable demo_callbacks demo_map ∧ occupied demo_map 5 = true ∧
    demo_map.hashes_.getD 5 0 &&& SM_HASH_MASK = 35 ∧
    u32 (35 &&& demo_map.mask_) = 3 ∧
    is_empty_word (demo_map.hashes_.getD 4 0) = true ∧
    probe (fun pos => pos == 5 || is_empty_word (demo_map.hashes_.getD pos 0)) demo_map.mask_
      (u32 (35 &&& demo_map.mask_)) (demo_map.mask_ + 1) (u32 (35 &&& demo_map.mask_)) =
        Probe.found 4 :=
  ⟨demo_map_reachable, by decide, by decide, by decide, by decide, by decide⟩

/-! ### Stored hashes -/

theorem reachable_zero_empty (cb : Callbacks K V) {m : smallmap_t K V} (hr : Reachable cb m) :
    ZeroEmpty m := by
  have hrem : ∀ (m : smallmap_t K V) (pos : Nat), Shape m → pos < m.capacity_ → ZeroEmpty m →
      ZeroEmpty (sm_remove_at cb m pos) := by
    intro m pos hs hpos hz i hi
    by_cases hip : i = pos
    · rw [hip]; exact remove_at_word cb hs pos hpos
    · have hw : (sm_remove_at cb m pos).hashes_.getD i 0 = m.hashes_.getD i 0 :=
        remove_at_word_ne cb m pos i hip
      rw [hw]
      apply hz
      rw [← occupied_eq_of_word hw]
      exact hi
  induction hr with
  | construct ks vs a1 a2 m t hc =>
    rw [sm_construct_some cb ks vs a1 a2 m t hc]
    exact zero_empty_invariant.zero _ (fun j => getD_replicate _ _ _)
  | add m m' k v a b hm hadd ih =>
    exact sm_add_inv cb zero_empty_invariant (reachable_wf cb hm) ih k v a b hadd
  | remove m m' k hm hrem' ih =>
    have hwf := reachable_wf cb hm
    rw [sm_remove_eq cb hwf.shape] at hrem'
    cases hfm : first_match cb m (sm_hash cb k) k with
    | none =>
      rw [hfm] at hrem'
      simp only [Option.some.injEq] at hrem'
      rw [← hrem']; exact ih
    | some p =>
      rw [hfm] at hrem'
      simp only [Option.some.injEq] at hrem'
      rw [← hrem']
      exact hrem m p hwf.shape (first_match_some cb m _ k p hfm).1 ih
  | remove_at m k pos hm hf hne ih =>
    have hwf := reachable_wf cb hm
    have hfm := sm_find_some_first_match cb hwf.shape k pos hf hne
    exact hrem m pos hwf.shape (first_match_some cb m _ k pos hfm).1 ih

/-! ### Byte offsets of the cells -/

theorem huge_map_wf : WF huge_map := by
  refine ⟨⟨⟨30, by decide, by norm_num [huge_map]⟩, rfl, ?_, ?_, ?_⟩, ?_, ?_, ?_⟩
  · exact List.length_replicate _ _
  · exact List.length_replicate _ _
  · exact List.length_replicate _ _
  · intro i
    show (List.replicate 1073741824 0).getD i 0 < 4294967296
    rw [getD_replicate]; omega
  · show 16 ≤ 1073741824
    omega
  · show 751619264 = sm_threshold 1073741824
    unfold sm_threshold; norm_num

theorem key_offset_exact (m : smallmap_t K V) (pos : Nat) (hp : pos < m.capacity_)
    (hc : m.capacity_ * m.key_size_ ≤ 4294967296) :
    key_offset m pos = pos * m.key_size_ ∧
    key_offset m pos + m.key_size_ ≤ m.capacity_ * m.key_size_ ∧
    ∀ q, pos < q → q < m.capacity_ → key_offset m pos + m.key_size_ ≤ key_offset m q := by
  obtain ⟨h1, h2⟩ := offset_exact m.key_size_ pos m.capacity_ hp hc
  unfold key_offset
  refine ⟨h1, by rw [h1]; exact h2, ?_⟩
  intro q hpq hq
  rw [h1, (offset_exact m.key_size_ q m.capacity_ hq hc).1]
  have := Nat.mul_le_mul_right m.key_size_ hpq
  rw [Nat.succ_mul] at this
  exact this

theorem value_offset_exact (m : smallmap_t K V) (pos : Nat) (hp : pos < m.capacity_)
    (hc : m.capacity_ * m.value_size_ ≤ 4294967296) :
    value_offset m pos = pos * m.value_size_ ∧
    value_offset m pos + m.value_size_ ≤ m.capacity_ * m.value_size_ ∧
    ∀ q, pos < q → q < m.capacity_ →
      value_offset m pos + m.value_size_ ≤ value_offset m q := by
  obtain ⟨h1, h2⟩ := offset_exact m.value_size_ pos m.capacity_ hp hc
  unfold value_offset
  refine ⟨h1, by rw [h1]; exact h2, ?_⟩
  intro q hpq hq
  rw [h1, (offset_exact m.value_size_ q m.capacity_ hq hc).1]
  have := Nat.mul_le_mul_right m.value_size_ hpq
  rw [Nat.succ_mul] at this
  exact this

/-- C22, the failing inputs evaluated.  A map freshly constructed with keys of
`2^29` bytes has capacity 16, and the code's offset of the key cell of slot 8
is `8 * 2^29 mod 2^32 = 0`, the offset of slot 0, while the product is `2^32`;
likewise for values of `2^29` bytes.  In a well-formed table of `2^30` slots
with keys of 8 bytes, slot `2^29` gets the key offset 0 of slot 0. -/
theorem key_offset_wraps :
    Reachable demo_callbacks (fresh_map 536870912 4) ∧
    (fresh_map 536870912 4 : smallmap_t Nat Nat).capacity_ = 16 ∧
    (fresh_map 536870912 4 : smallmap_t Nat Nat).key_size_ = 536870912 ∧
    key_offset (fresh_map 536870912 4 : smallmap_t Nat Nat) 8 = 0 ∧
    key_offset (fresh_map 536870912 4 : smallmap_t Nat Nat) 0 = 0 ∧
    8 * (fresh_map 536870912 4 : smallmap_t Nat Nat).key_size_ = 4294967296 ∧
    Reachable demo_callbacks (fresh_map 8 536870912) ∧
    value_offset (fresh_map 8 536870912 : smallmap_t Nat Nat) 8 = 0 ∧
    value_offset (fresh_map 8 536870912 : smallmap_t Nat Nat) 0 = 0 ∧
    8 * (fresh_map 8 536870912 : smallmap_t Nat Nat).value_size_ = 4294967296 ∧
    WF huge_map ∧ huge_map.capacity_ = 1073741824 ∧ huge_map.key_size_ = 8 ∧
    key_offset huge_map 536870912 = 0 ∧ key_offset huge_map 0 = 0 ∧
    536870912 * huge_map.key_size_ = 4294967296 :=
  ⟨reachable_fresh demo_callbacks 536870912 4, rfl, by decide, by decide, by decide, by decide,
    reachable_fresh demo_callbacks 8 536870912, by decide, by decide, by decide,
    huge_map_wf, rfl, rfl, by decide, by decide, by decide⟩

/-! ### The frame of `sm_remove` when no byte offset wraps -/

theorem remove_at_first_match (cb : Callbacks K V) {m : smallmap_t K V} (h : Shape m)
    (hx : ExactOffsets m) (r : Nat) (hr : r < m.capacity_) (q : K) (r' : Nat)
    (hq : first_match cb m (sm_hash cb q) q = some r') (hne : r' ≠ r) :
    first_match cb (sm_remove_at cb m r) (sm_hash cb q) q = some r' := by
  have hc : (sm_remove_at cb m r).capacity_ = m.capacity_ := (remove_at_frame cb m r).capacity
  unfold first_match at hq ⊢
  rw [hc]
  apply find_of_weaker _ _ r' _ hq
  · rw [slot_matches_congr cb _ q r' (remove_at_frame_slots cb h hx r r' hr hne)]
    exact List.find?_some hq
  · intro x _ hxm
    by_cases hxr : x = r
    · subst hxr
      unfold slot_matches at hxm
      rw [remove_at_word cb h x hr] at hxm
      simp only [Bool.and_eq_true, beq_iff_eq] at hxm
      exact absurd hxm.1.symm (flagged_ne_zero _)
    · rw [← slot_matches_congr cb _ q x (remove_at_frame_slots cb h hx r x hr hxr)]
      exact hxm

theorem slot_at_ext {m m' : smallmap_t K V} {i : Nat} (h : slot_at m' i = slot_at m i) :
    m'.hashes_.getD i 0 = m.hashes_.getD i 0 ∧
    m'.keys_.getD i default = m.keys_.getD i default ∧
    m'.values_.getD i default = m.values_.getD i default := by
  unfold slot_at at h
  simp only [Prod.mk.injEq] at h
  exact h

/-- On a reachable map whose byte offsets do not wrap and whose `size_` counts
the occupied slots (as it does whenever no constructor has failed, see
`reachable_balanced`), `sm_remove` of `k` returns; if `k` is absent the map is
unchanged; if `k` is found in slot `r`, the metadata word of slot `r` becomes
0, `size_` decreases by exactly one, the metadata word, key cell and value
cell of every other slot and all other fields are untouched (the trace gains
the two destructor calls), and every key found before in another slot is
still found in that same slot with the same `sm_try_get` result. -/
theorem sm_remove_frame_exact (cb : Callbacks K V) (m : smallmap_t K V) (hr : Reachable cb m)
    (hx : ExactOffsets m) (hsz : m.size_ = occupied_count m) (k : K) :
    ∃ r m', sm_find cb m k = some r ∧ sm_remove cb m k = some m' ∧
      (r = SM_INVALID → m' = m) ∧
      (r ≠ SM_INVALID →
        r < m.capacity_ ∧ m'.hashes_.getD r 0 = 0 ∧ m'.size_ + 1 = m.size_ ∧
        (∀ i, i ≠ r → m'.hashes_.getD i 0 = m.hashes_.getD i 0 ∧
          m'.keys_.getD i default = m.keys_.getD i default ∧
          m'.values_.getD i default = m.values_.getD i default) ∧
        m'.capacity_ = m.capacity_ ∧ m'.mask_ = m.mask_ ∧
        m'.resize_threshold_ = m.resize_threshold_ ∧
        m'.key_size_ = m.key_size_ ∧ m'.value_size_ = m.value_size_ ∧
        m'.hashes_.length = m.hashes_.length ∧ m'.keys_.length = m.keys_.length ∧
        m'.values_.length = m.values_.length ∧
        m'.trace_ = m.trace_ ++ [Event.key_destructor, Event.value_destructor] ∧
        ∀ q r', sm_find cb m q = some r' → r' ≠ SM_INVALID → r' ≠ r →
          sm_find cb m' q = some r' ∧
          ∀ out, sm_try_get cb m' q out = sm_try_get cb m q out) := by
  have hwf := reachable_wf cb hr
  rw [sm_find_eq cb hwf.shape, sm_remove_eq cb hwf.shape]
  cases hfm : first_match cb m (sm_hash cb k) k with
  | none =>
    refine ⟨SM_INVALID, m, rfl, rfl, fun _ => rfl, fun h => absurd rfl h⟩
  | some r =>
    obtain ⟨hrlt, hmr⟩ := first_match_some cb m _ k r hfm
    have hocc := slot_matches_occupied cb m _ k r hmr
    have hfr := remove_at_frame cb m r
    have hsize : (sm_remove_at cb m r).size_ + 1 = m.size_ := by
      have h1 := remove_at_count cb hwf.shape r hrlt hocc
      have h2 := occupied_count_le m
      have h3 := hwf.shape.cap_le
      rw [remove_at_size]
      exact u64_pred _ (by omega) (by omega)
    refine ⟨r, sm_remove_at cb m r, rfl, rfl,
      fun h => absurd h (first_match_ne_invalid cb hwf.shape _ k r hfm), fun _ => ?_⟩
    refine ⟨hrlt, remove_at_word cb hwf.shape r hrlt, hsize,
      fun i hi => slot_at_ext (remove_at_frame_slots cb hwf.shape hx r i hrlt hi),
      hfr.capacity, hfr.mask, hfr.threshold, hfr.key_size, hfr.value_size,
      hfr.hashes_len, hfr.keys_len, hfr.values_len, remove_at_trace cb m r, ?_⟩
    intro q r' hq hne hner
    have hq' := sm_find_some_first_match cb hwf.shape q r' hq hne
    have hq'' := remove_at_first_match cb hwf.shape hx r hrlt q r' hq' hner
    have hsh' := (remove_at_wf cb hwf r).shape
    constructor
    · rw [sm_find_eq cb hsh', hq'']; rfl
    · intro out
      rw [sm_try_get_eq cb hsh', sm_try_get_eq cb hwf.shape, hq', hq'']
      simp only []
      rw [(slot_at_ext (remove_at_frame_slots cb hwf.shape hx r r' hrlt hner)).2.2]

/-! ### Tables whose byte offsets wrap, and tables left by a failed constructor -/

theorem equal_hash_map_reachable : Reachable demo_callbacks equal_hash_map :=
  reachable_add_all demo_callbacks (equal_hash_pairs.take 8) (fresh_map 536870912 4)
    equal_hash_map (List.replicate 8 true) (reachable_fresh demo_callbacks 536870912 4)
    (by decide)

theorem alias_map_reachable : Reachable demo_callbacks alias_map :=
  reachable_add_all demo_callbacks [(16, 160), (8, 80)] (fresh_map 536870912 4) alias_map
    [true, true] (reachable_fresh demo_callbacks 536870912 4) (by decide)

theorem wrapped_size_map_reachable : Reachable picky_callbacks wrapped_size_map :=
  Reachable.remove phantom_map wrapped_size_map 3
    (Reachable.add (fresh_map 8 4) phantom_map 3 30 true false
      (reachable_fresh picky_callbacks 8 4) (by decide)) (by decide)

/-- With keys of `2^29` bytes the add of the key `8` after the key `16`
returns `true` and overwrites the key cell of slot 0: the key `16`, added
first, is no longer found. -/
theorem alias_map_first_key_lost :
    sm_find demo_callbacks (fresh_map 536870912 4) 16 = some SM_INVALID ∧
    sm_add_all demo_callbacks (fresh_map 536870912 4) [(16, 160), (8, 80)]
      = some ([true, true], alias_map) ∧
    sm_find demo_callbacks alias_map 16 = some SM_INVALID ∧
    sm_find demo_callbacks alias_map 8 = some 8 := by
  refine ⟨by decide, by decide, by decide, by decide⟩

/-- With keys of `2^29` bytes and a key destructor that leaves its cell as it
was: the nine `equal_hash_pairs` are added, and the ninth key is found in
slot 0, whose key cell slot 8 shares.  `sm_remove` of that key clears slot 0;
the key is then still found, in slot 8, and the subsequent `sm_add` of it
returns `false`. -/
theorem remove_leaves_aliased_key :
    (sm_add_all keeping_callbacks (fresh_map 536870912 4) equal_hash_pairs).map
      (fun r => (r.1, sm_find keeping_callbacks r.2 34359738384))
      = some (List.replicate 9 true, some 0) ∧
    (sm_add_all keeping_callbacks (fresh_map 536870912 4) equal_hash_pairs).bind
      (fun r => (sm_remove keeping_callbacks r.2 34359738384).bind
        (fun m => (sm_add keeping_callbacks m 34359738384 208 true).map
          (fun r2 => (m.hashes_.getD 0 0, sm_find keeping_callbacks m 34359738384, r2.1))))
      = some (0, some 8, false) := by
  refine ⟨by decide, by decide⟩

/-- C1, the failing input evaluated.  `equal_hash_map` is reached from
`sm_construct` with keys of `2^29` bytes by eight adds of keys with the same
32-bit hash, which fill the slots 0 to 7; the callbacks are the
demonstration callbacks (reflexive `compare_`, faithful constructors).  The
add of a ninth key of that hash with the value 108 returns `true` and writes
the key into slot 8, whose byte offset `8 * 2^29` wraps to the offset 0 of
slot 0.  Afterwards `sm_find` of the ninth key returns slot 0, and
`sm_try_get` copies the value 100 of slot 0, not 108. -/
theorem sm_add_then_lookup_aliased :
    Reachable demo_callbacks equal_hash_map ∧
    key_offset equal_hash_map 8 = key_offset equal_hash_map 0 ∧
    sm_find demo_callbacks equal_hash_map 34359738384 = some SM_INVALID ∧
    (sm_add demo_callbacks equal_hash_map 34359738384 108 true).map
      (fun r => (r.1, r.2.hashes_.getD 8 0, sm_find demo_callbacks r.2 34359738384,
        sm_try_get demo_callbacks r.2 34359738384 0))
      = some (true, 2147483664, some 0, some (true, 100)) :=
  ⟨equal_hash_map_reachable, by decide, by decide, by decide⟩

/-- C6, the failing inputs evaluated.  In `alias_map`, reached with keys of
`2^29` bytes, the slots 0 and 8 are occupied and address the same key cell.
`sm_remove` of the key `8` clears slot 8 and runs the key destructor on that
cell: slot 0 stays occupied and its key changes from 8 to 0.  With values of
`2^29` bytes and a value destructor that clears its cell, the key `16` of
slot 0 is found before and after `sm_remove` of `8`, and `sm_try_get` of it
yields 80 before and 0 after.  On `phantom_map`, left by a failed value
constructor, `sm_remove` of the key `3` takes `size_` from 0 to
`2^64 - 1`. -/
theorem sm_remove_destroys_aliased_cell :
    Reachable demo_callbacks alias_map ∧
    key_offset alias_map 8 = key_offset alias_map 0 ∧
    sm_find demo_callbacks alias_map 8 = some 8 ∧
    occupied alias_map 0 = true ∧ alias_map.keys_.getD 0 default = 8 ∧
    (sm_remove demo_callbacks alias_map 8).map
      (fun m => (m.hashes_.getD 8 0, occupied m 0, m.keys_.getD 0 default))
      = some (0, true, 0) ∧
    (sm_add_all clearing_callbacks (fresh_map 8 536870912) [(16, 160), (8, 80)]).map
      (fun r => (r.1, sm_find clearing_callbacks r.2 16,
        sm_try_get clearing_callbacks r.2 16 0))
      = some ([true, true], some 0, some (true, 80)) ∧
    (sm_add_all clearing_callbacks (fresh_map 8 536870912) [(16, 160), (8, 80)]).bind
      (fun r => (sm_remove clearing_callbacks r.2 8).map
        (fun m => (sm_find clearing_callbacks m 16, sm_try_get clearing_callbacks m 16 0)))
      = some (some 0, some (true, 0)) ∧
    Reachable failing_value_callbacks phantom_map ∧
    phantom_map.size_ = 0 ∧
    sm_find failing_value_callbacks phantom_map 3 = some 3 ∧
    (sm_remove failing_value_callbacks phantom_map 3).map
      (fun m => (m.hashes_.getD 3 0, m.size_)) = some (0, 18446744073709551615) :=
  ⟨alias_map_reachable, by decide, by decide, by decide, by decide, by decide, by decide,
    by decide, Reachable.add _ _ 3 30 true false (reachable_fresh _ 8 4) (by decide),
    rfl, by decide, by decide⟩

/-- C7, the failing input evaluated.  `wrapped_size_map` is reached from
`sm_construct` by an `sm_add` whose value constructor fails and an `sm_remove`
of the same key; all its slots are empty and `size_` is `2^64 - 1`.  The add
of `19 ↦ 190`, whose resize fails in the allocator, finds an empty slot, its
constructors succeed and it returns `true`; `size_` goes from `2^64 - 1` to 0
while one slot is occupied. -/
theorem sm_add_true_size_wraps :
    Reachable picky_callbacks wrapped_size_map ∧
    wrapped_size_map.size_ = 18446744073709551615 ∧
    occupied_count wrapped_size_map = 0 ∧
    sm_find picky_callbacks wrapped_size_map 19 = some SM_INVALID ∧
    (sm_add picky_callbacks wrapped_size_map 19 190 false).map
      (fun r => (r.1, r.2.size_, occupied_count r.2, r.2.capacity_)) = some (true, 0, 1, 16) :=
  ⟨wrapped_size_map_reachable, rfl, by decide, by decide, by decide⟩

/-- C14, the failing input evaluated.  On a fresh map with keys of `2^28`
bytes the eleven adds of the pairwise distinct keys of `demo_pairs` return
`true` and leave the capacity at 16, and the key `3` is found in slot 3.  The
twelfth add, of `179`, returns `true` and makes the capacity 32; in the new
table the byte offset `19 * 2^28` of slot 19 wraps to the offset of slot 3,
and the key `3` is no longer found. -/
theorem sm_add_resize_loses_keys :
    distinct_keys demo_callbacks (demo_pairs ++ [(179, 110)]) ∧
    (sm_add_all demo_callbacks (fresh_map 268435456 4) demo_pairs).map
      (fun r => (r.1, r.2.capacity_, sm_find demo_callbacks r.2 3))
      = some (List.replicate 11 true, 16, some 3) ∧
    (sm_add_all demo_callbacks (fresh_map 268435456 4) demo_pairs).bind
      (fun r => (sm_add demo_callbacks r.2 179 110 true).map
        (fun r2 => (r2.1, r2.2.capacity_, sm_find demo_callbacks r2.2 3)))
      = some (true, 32, some SM_INVALID) ∧
    (sm_add_all demo_callbacks (fresh_map 268435456 4) demo_pairs).bind
      (fun r => (sm_add demo_callbacks r.2 179 110 true).map
        (fun r2 => (key_offset r2.2 19, key_offset r2.2 3, 19 * r2.2.key_size_)))
      = some (805306368, 805306368, 5100273664) :=
  ⟨by unfold distinct_keys; decide, by decide, by decide, by decide⟩

/-- C18, the failing inputs evaluated.  In `alias_map`, reached with keys of
`2^29` bytes and constructors that succeed, slot 0 is occupied, its metadata
word carries the truncated hash 16 of the key added first, and the key cell
it addresses holds the key `8` added second, whose truncated hash is 8.
After an `sm_add` of `3` whose key constructor fails, the add has returned
`false`, slot 3 is occupied with the truncated hash 3, and the key cell of
the slot holds what it held before, with the truncated hash 0. -/
theorem stored_hash_mismatch :
    Reachable demo_callbacks alias_map ∧
    occupied alias_map 0 = true ∧
    alias_map.hashes_.getD 0 0 &&& SM_HASH_MASK = 16 ∧
    alias_map.keys_.getD 0 default = 8 ∧
    sm_hash demo_callbacks (alias_map.keys_.getD 0 default) = 8 ∧
    ¬ HashOk demo_callbacks alias_map ∧
    (sm_add failing_key_callbacks (fresh_map 8 4) 3 30 true).map
      (fun r => (r.1, occupied r.2 3, r.2.hashes_.getD 3 0 &&& SM_HASH_MASK,
        sm_hash failing_key_callbacks (r.2.keys_.getD 3 default))) = some (false, true, 3, 0) := by
  refine ⟨alias_map_reachable, by decide, by decide, by decide, by decide, ?_, by decide⟩
  intro h
  have := h (2147483664, 8) (by decide)
  revert this
  decide

/-- C21, the failing input evaluated.  `alias_map` is reached from
`sm_construct` with keys of `2^29` bytes by the adds of the keys `16` and `8`,
with constructors that succeed and equality as `compare_`.  The distinct
slots 0 and 8 are occupied and address the same key cell, so `compare_`
accepts their keys as equal. -/
theorem aliased_slots_same_key :
    Reachable demo_callbacks alias_map ∧
    key_offset alias_map 0 = key_offset alias_map 8 ∧
    occupied alias_map 0 = true ∧ occupied alias_map 8 = true ∧
    demo_callbacks.compare_ (alias_map.keys_.getD 0 default)
      (alias_map.keys_.getD 8 default) = true ∧
    ¬ NoDuplicate demo_callbacks alias_map := by
  refine ⟨alias_map_reachable, by decide, by decide, by decide, by decide, ?_⟩
  intro h
  have := h 0 8 (by decide) (by decide) (by decide) (by decide) (by decide)
  exact absurd this (by decide)

end Smallmap
